import Mathlib

/-! V2Audio: Codec, Fader, Phasor

A shallow embedding of `src/Audio/Codec.h`, `src/Audio/Fader.h` and
`src/Audio/Phasor.h`.

Conventions of the embedding:

* A `float` is a value of `F32`, IEEE 754 binary32: a NaN, an infinity, the
  negative zero or a finite value kept as a rational. Every arithmetic
  operation computes the exact result and rounds it to binary32 (to nearest,
  ties to even) with `round32`, so rounding, underflow, overflow, division by
  zero and NaN behave as in the source. `F32.fin q` is written for any
  rational `q`; the operations only ever produce `q` that binary32 has.
* Everything outside the three classes (the power and enable hooks, the
  sample sources, the DMA engine, the I2S base class, the clock) is the
  environment. Every call into the environment is appended to a trace of
  `Event`s kept as ghost state, and what a call returns is given by an
  oracle `Env` as a function of the trace of calls made so far (and of the
  call's arguments).
* A `Channel*` is an address (`Nat`), the null pointer is `none`.
* Array indices of type `uint8_t channel` are `Fin nChannels`: an index
  outside the array is undefined behaviour in the source.
-/

namespace V2Audio

/-! ## binary32 -/

/-- The values of a `float` (IEEE 754 binary32): NaN, the two infinities, the
negative zero, and the finite values as rationals, `fin 0` being the positive
zero. -/
inductive F32 where
  | nan : F32
  | inf (neg : Bool) : F32
  | negZero : F32
  | fin (q : ℚ) : F32
  deriving DecidableEq

/-- Rounding of a non-negative rational to the nearest natural number, ties to
the even one. -/
def roundHalfEven (x : ℚ) : ℕ :=
  let f := ⌊x⌋₊
  let r := x - f
  if r < 1 / 2 then f else if 1 / 2 < r then f + 1 else if f % 2 = 0 then f else f + 1

/-- The number of binary digits of `n`, by halving at most `fuel` times. -/
def bitLength : ℕ → ℕ → ℕ
  | 0, _ => 0
  | fuel + 1, n => if n = 0 then 0 else bitLength fuel (n / 2) + 1

/-- The binary exponent of a nonzero rational: the `e` with
`2^e ≤ |q| < 2^(e+1)`, found from the bit lengths of numerator and
denominator. -/
def ilog2 (q : ℚ) : ℤ :=
  let e0 : ℤ := (bitLength q.num.natAbs q.num.natAbs : ℤ) - (bitLength q.den q.den : ℤ)
  if (2 : ℚ) ^ e0 ≤ |q| then e0 else e0 - 1

/-- Rounding of an exact result to binary32, to nearest, ties to even: 24
significant bits, exponents from -126 (below that the spacing stays `2^-149`),
overflow to infinity, underflow to a signed zero. -/
def round32 (q : ℚ) : F32 :=
  if q = 0 then F32.fin 0
  else
    let e : ℤ := max (ilog2 q) (-126)
    let u : ℚ := 2 ^ (e - 23)
    let n : ℕ := roundHalfEven (|q| / u)
    if 2 ^ 128 ≤ n * u then F32.inf (decide (q < 0))
    else if n = 0 then (if q < 0 then F32.negZero else F32.fin 0)
    else F32.fin (if q < 0 then -(n * u) else n * u)

/-- The value with a given 32-bit pattern (sign, 8 exponent bits, 23 mantissa
bits). -/
def F32.ofBits (b : ℕ) : F32 :=
  let neg : Bool := decide (b / 2 ^ 31 % 2 = 1)
  let e : ℕ := b / 2 ^ 23 % 256
  let m : ℕ := b % 2 ^ 23
  if e = 255 then (if m = 0 then F32.inf neg else F32.nan)
  else if e = 0 ∧ m = 0 then (if neg then F32.negZero else F32.fin 0)
  else
    let mag : ℚ :=
      if e = 0 then (m : ℚ) * 2 ^ (-149 : ℤ) else ((2 ^ 23 + m : ℕ) : ℚ) * 2 ^ ((e : ℤ) - 150)
    F32.fin (if neg then -mag else mag)

/-- The sign bit. A NaN carries no sign in this model: `copysignf(x, NaN)` takes
the sign as clear. -/
def F32.signBit : F32 → Bool
  | F32.nan => false
  | F32.inf neg => neg
  | F32.negZero => true
  | F32.fin q => decide (q < 0)

/-- The rational value of a finite value or zero (0 for the others). -/
def F32.toRat : F32 → ℚ
  | F32.fin q => q
  | _ => 0

/-- The zero with a given sign. -/
def F32.zero (neg : Bool) : F32 := if neg then F32.negZero else F32.fin 0

/-- Unary minus. -/
def F32.neg : F32 → F32
  | F32.nan => F32.nan
  | F32.inf neg => F32.inf (!neg)
  | F32.negZero => F32.fin 0
  | F32.fin q => if q = 0 then F32.negZero else F32.fin (-q)

/-- Addition `x + y`. -/
def F32.add : F32 → F32 → F32
  | F32.nan, _ => F32.nan
  | _, F32.nan => F32.nan
  | F32.inf a, F32.inf b => if a = b then F32.inf a else F32.nan
  | F32.inf a, _ => F32.inf a
  | _, F32.inf b => F32.inf b
  | F32.negZero, F32.negZero => F32.negZero
  | F32.negZero, F32.fin b => round32 b
  | F32.fin a, F32.negZero => round32 a
  | F32.fin a, F32.fin b => round32 (a + b)

/-- Subtraction `x - y`. -/
def F32.sub (x y : F32) : F32 := F32.add x (F32.neg y)

/-- Multiplication `x * y`. -/
def F32.mul : F32 → F32 → F32
  | F32.nan, _ => F32.nan
  | _, F32.nan => F32.nan
  | F32.inf a, F32.inf b => F32.inf (xor a b)
  | F32.inf a, y => if y.toRat = 0 then F32.nan else F32.inf (xor a y.signBit)
  | x, F32.inf b => if x.toRat = 0 then F32.nan else F32.inf (xor x.signBit b)
  | x, y =>
    if x.toRat * y.toRat = 0 then F32.zero (xor x.signBit y.signBit)
    else round32 (x.toRat * y.toRat)

/-- Division `x / y`. -/
def F32.div : F32 → F32 → F32
  | F32.nan, _ => F32.nan
  | _, F32.nan => F32.nan
  | F32.inf _, F32.inf _ => F32.nan
  | F32.inf a, y => F32.inf (xor a y.signBit)
  | x, F32.inf b => F32.zero (xor x.signBit b)
  | x, y =>
    if y.toRat = 0 then
      (if x.toRat = 0 then F32.nan else F32.inf (xor x.signBit y.signBit))
    else if x.toRat = 0 then F32.zero (xor x.signBit y.signBit)
    else round32 (x.toRat / y.toRat)

/-- The function `fabs`. -/
def F32.abs : F32 → F32
  | F32.nan => F32.nan
  | F32.inf _ => F32.inf false
  | F32.negZero => F32.fin 0
  | F32.fin q => F32.fin |q|

/-- The function `copysignf(x, y)`: the magnitude of `x` with the sign bit of
`y`. -/
def F32.copysign (x y : F32) : F32 :=
  match F32.abs x with
  | F32.nan => F32.nan
  | F32.inf _ => F32.inf y.signBit
  | F32.negZero => F32.zero y.signBit
  | F32.fin q => if y.signBit then (if q = 0 then F32.negZero else F32.fin (-q)) else F32.fin q

/-- The comparison `x < y`: false when either is a NaN. -/
def F32.lt : F32 → F32 → Bool
  | F32.nan, _ => false
  | _, F32.nan => false
  | F32.inf a, F32.inf b => a && !b
  | F32.inf a, _ => a
  | _, F32.inf b => !b
  | x, y => decide (x.toRat < y.toRat)

/-- The comparison `x <= y`: false when either is a NaN. -/
def F32.le : F32 → F32 → Bool
  | F32.nan, _ => false
  | _, F32.nan => false
  | F32.inf a, F32.inf b => a || !b
  | F32.inf a, _ => a
  | _, F32.inf b => !b
  | x, y => decide (x.toRat ≤ y.toRat)

/-- The comparison `x > y`. -/
def F32.gt (x y : F32) : Bool := F32.lt y x

/-- The comparison `x >= y`. -/
def F32.ge (x y : F32) : Bool := F32.le y x

/-- The conversion of a `float` to `int32_t`: truncation toward zero when the
truncated value fits; the source leaves every other case undefined. -/
def F32.toInt32 : F32 → Option Int
  | F32.fin q =>
    if -2147483648 ≤ Int.tdiv q.num q.den ∧ Int.tdiv q.num q.den ≤ 2147483647 then
      some (Int.tdiv q.num q.den)
    else none
  | F32.negZero => some 0
  | _ => none

/-- The reduction of an integer into the `int32_t` range. -/
def wrapInt32 (z : Int) : Int := (z + 2147483648) % 4294967296 - 2147483648

/-! ## Codec.h -/

/-- The constant `static constexpr uint8_t nChannels = 2`. -/
abbrev nChannels : Nat := 2

/-- The constant `static constexpr uint16_t _nSamples = 64`. -/
abbrev nSamples : Nat := 64

/-- The value of `V2Base::countof(_buffers)` for `_buffers[2]`. -/
abbrev nBuffers : Nat := 2

/-- Calls that leave the three classes, in the order they are made. -/
inductive Event where
  | handlePower (turnOn : Bool)
  | handleEnable (turnOn : Bool)
  | getSample (source : Nat)
  | dmaAbort
  | dmaStartJob
  | i2sReset
  | enableIrq
  | getUsec
  | getUsecSince (usec : Nat)
  deriving DecidableEq, Repr

/-- What the environment answers, given the calls made so far. -/
structure Env where
  /-- `virtual bool handlePower(bool on = true)`. -/
  handlePower : List Event → Bool → Bool
  /-- `virtual bool handleEnable(bool on = true)`. -/
  handleEnable : List Event → Bool → Bool
  /-- `virtual float Channel::getSample()` of the source at an address. -/
  getSample : List Event → Nat → F32
  /-- `V2Base::getUsec()`. -/
  getUsec : List Event → Nat
  /-- `V2Base::getUsecSince(usec)`. -/
  getUsecSince : List Event → Nat → Nat
  /-- `V2Base::I2SInterface::getSamplerate()`. -/
  getSamplerate : List Event → F32
  /-- `V2Music::Frequency::adjustFrequency(frequency, cents)`. -/
  adjustFrequency : F32 → F32 → F32
  /-- What the platform stores when a `float` that does not fit `int32_t` (or a
  NaN) is converted to `int32_t`; the source leaves this conversion undefined. -/
  convertOutOfRange : F32 → Int

/-- The array `_buffers[2]` of `samples[_nSamples]` of `channels[nChannels]`. -/
abbrev Buffers : Type := Fin nBuffers → Fin nSamples → Fin nChannels → Int

/-- The private members of `Codec`, and the trace of environment calls. -/
structure Codec where
  running : Bool
  frequency : F32
  buffers : Buffers
  index : Nat
  channels : Fin nChannels → Option Nat
  enabled : Fin nChannels → Bool
  runUsec : Nat
  trace : List Event

/-- The members' default initialisers (`{}`), with an empty trace. -/
def Codec.init : Codec :=
  { running := false
    frequency := F32.fin 0
    buffers := fun _ _ _ => 0
    index := 0
    channels := fun _ => none
    enabled := fun _ => false
    runUsec := 0
    trace := [] }

/-- The factor `(float)INT32_MAX`: the conversion of 2147483647 to `float`
(it rounds to 2^31). -/
def floatInt32Max : F32 := round32 2147483647

/-- The value stored by `int32_t x = getSample() * (float)INT32_MAX` for a
sample `x`: the product is rounded to `float` and converted to `int32_t`. Where
the source leaves the conversion undefined (the product does not fit, or is a
NaN) the stored value is what the environment's platform gives, reduced to the
`int32_t` range. -/
def scaleSample (env : Env) (x : F32) : Int :=
  match (F32.mul x floatInt32Max).toInt32 with
  | some v => v
  | none => wrapInt32 (env.convertOutOfRange (F32.mul x floatInt32Max))

/-- The scaled sample fits `int32_t`: the conversion in `fillBuffer()` is
defined. -/
def sampleFits (x : F32) : Prop := ((F32.mul x floatInt32Max).toInt32).isSome = true

/-- The assignment `buffers[b].samples[i].channels[ch] = v`. -/
def setSample (bufs : Buffers) (b : Fin nBuffers) (i : Fin nSamples)
    (ch : Fin nChannels) (v : Int) : Buffers :=
  Function.update bufs b (Function.update (bufs b) i (Function.update (bufs b i) ch v))

/-- Method `registerChannel(ch, channel)`. -/
def Codec.registerChannel (ch : Fin nChannels) (channel : Option Nat) (s : Codec) : Codec :=
  { s with channels := Function.update s.channels ch channel }

/-- Method `adjustSamplerate(cents)`. -/
def Codec.adjustSamplerate (env : Env) (cents : F32) (s : Codec) : Codec :=
  { s with frequency := env.adjustFrequency (env.getSamplerate s.trace) cents }

/-- Method `getFrequency()`. -/
def Codec.getFrequency (s : Codec) : F32 := s.frequency

/-- Method `isChannelEnabled(channel)`. -/
def Codec.isChannelEnabled (s : Codec) (channel : Fin nChannels) : Bool :=
  s.enabled channel

/-- Method `reset()`. -/
def Codec.reset (env : Env) (s : Codec) : Codec :=
  let s1 := { s with trace := s.trace ++ [Event.dmaAbort, Event.i2sReset] }
  let s2 := { s1 with trace := s1.trace ++ [Event.handleEnable false] }
  let s3 := { s2 with trace := s2.trace ++ [Event.handlePower false] }
  let s4 := { s3 with running := false, index := 0 }
  let s5 := s4.adjustSamplerate env (F32.fin 0)
  let s6 := (List.finRange nChannels).foldl
    (fun (t : Codec) ch => { t with enabled := Function.update t.enabled ch false }) s5
  (List.finRange nBuffers).foldl
    (fun (t : Codec) i => { t with buffers := Function.update t.buffers i (fun _ _ => 0) }) s6

/-- One pass of the inner loop of `fillBuffer`:
`_buffers[_index].samples[i].channels[ch] = _channels[ch]->getSample() * (float)INT32_MAX`.
An `_index` outside `_buffers` is undefined in the source; here the sample
is still pulled and the store is skipped. -/
def Codec.writeSample (env : Env) (ch : Fin nChannels) (source : Nat)
    (s : Codec) (i : Fin nSamples) : Codec :=
  let v := scaleSample env (env.getSample s.trace source)
  { s with
    trace := s.trace ++ [Event.getSample source]
    buffers := if h : s.index < nBuffers then setSample s.buffers ⟨s.index, h⟩ i ch v
               else s.buffers }

/-- One pass of the outer loop of `fillBuffer`, for channel `ch`. -/
def Codec.fillChannel (env : Env) (s : Codec) (ch : Fin nChannels) : Codec :=
  match s.channels ch with
  | none => s
  | some source =>
    if !s.isChannelEnabled ch then s
    else (List.finRange nSamples).foldl (Codec.writeSample env ch source) s

/-- Method `fillBuffer()`: fill the current buffer. -/
def Codec.fillBuffer (env : Env) (s : Codec) : Codec :=
  let usec := env.getUsec s.trace % 2 ^ 32
  let s1 := { s with trace := s.trace ++ [Event.getUsec] }
  let s2 := (List.finRange nChannels).foldl (Codec.fillChannel env) s1
  { s2 with
    runUsec := env.getUsecSince s2.trace usec % 2 ^ 32
    trace := s2.trace ++ [Event.getUsecSince usec] }

/-- Method `fillNextBuffer()`: switch to the next buffer and fill it. -/
def Codec.fillNextBuffer (env : Env) (s : Codec) : Codec :=
  let s1 := { s with index := (s.index + 1) % 2 ^ 8 }
  let s2 := if s1.index = nBuffers then { s1 with index := 0 } else s1
  let s3 := { s2 with trace := s2.trace ++ [Event.enableIrq] }
  s3.fillBuffer env

/-- Method `enableChannel(channel)`: the returned flag and the state afterwards. -/
def Codec.enableChannel (env : Env) (channel : Fin nChannels) (s : Codec) : Bool × Codec :=
  match s.channels channel with
  | none => (false, s)
  | some _ =>
    let power := env.handlePower s.trace true
    let s1 := { s with trace := s.trace ++ [Event.handlePower true] }
    if !power then (false, s1.reset env)
    else if !s1.running then
      let enable := env.handleEnable s1.trace true
      let s2 := { s1 with trace := s1.trace ++ [Event.handleEnable true] }
      if !enable then (false, s2)
      else
        let s3 := { s2 with index := 0 }
        let s4 := s3.fillBuffer env
        let s5 := { s4 with trace := s4.trace ++ [Event.dmaStartJob] }
        let s6 := s5.fillNextBuffer env
        let s7 := { s6 with running := true }
        (true, { s7 with enabled := Function.update s7.enabled channel true })
    else (true, { s1 with enabled := Function.update s1.enabled channel true })

/-- Method `disableChannel(channel)`. -/
def Codec.disableChannel (channel : Fin nChannels) (s : Codec) : Codec :=
  let s1 := { s with enabled := Function.update s.enabled channel false }
  (List.finRange nBuffers).foldl
    (fun (t : Codec) i =>
      (List.finRange nSamples).foldl
        (fun (u : Codec) sample => { u with buffers := setSample u.buffers i sample channel 0 }) t)
    s1

/-- Method `getLoad()`; the integers `_runUsec` and `_nSamples` are converted to
`float` first. -/
def Codec.getLoad (env : Env) (s : Codec) : F32 :=
  let runSec := F32.div (round32 s.runUsec) (F32.mul (F32.fin 1000) (F32.fin 1000))
  let bufferSec := F32.div (round32 nSamples) (env.getSamplerate s.trace)
  F32.div runSec bufferSec

/-- The calls the loop of channel `ch` makes during one `fillBuffer()`:
`_nSamples` calls of `getSample()` on the bound source when the channel has
a source and is enabled, none otherwise. -/
def Codec.pulls (s : Codec) (ch : Fin nChannels) : List Event :=
  match s.channels ch with
  | none => []
  | some source =>
    if s.enabled ch then List.replicate nSamples (Event.getSample source) else []

/-- The calls made by the loops of the channels before `ch`. -/
def Codec.pullsBefore (s : Codec) (ch : Fin nChannels) : List Event :=
  (((List.finRange nChannels).filter (fun c => c < ch)).map s.pulls).flatten

/-- The calls `reset()` makes, in order. -/
def resetCalls : List Event :=
  [Event.dmaAbort, Event.i2sReset, Event.handleEnable false, Event.handlePower false]

/-! ## Fader.h -/

/-- The members of `Fader`: the constant `_default` pair, `_adjusting`, `_now`,
`_target`, `_delta`. -/
structure Fader where
  defaultValue : F32
  defaultSteps : F32
  adjusting : Bool
  now : F32
  target : F32
  delta : F32
  deriving DecidableEq

/-- The constructor `Fader(float value, float steps)`: it stores the defaults,
the other members take their `{}` initialisers. -/
def Fader.construct (value steps : F32) : Fader :=
  { defaultValue := value
    defaultSteps := steps
    adjusting := false
    now := F32.fin 0
    target := F32.fin 0
    delta := F32.fin 0 }

/-- The constructor with its default arguments, `Fader(0, 1000)`. -/
def Fader.default : Fader := Fader.construct (F32.fin 0) (F32.fin 1000)

/-- Method `get()`. -/
def Fader.get (f : Fader) : F32 := f.now

/-- Method `set(value)`. -/
def Fader.set (value : F32) (f : Fader) : Fader :=
  { f with now := value, target := value, adjusting := false }

/-- Method `getTarget()`. -/
def Fader.getTarget (f : Fader) : F32 := f.target

/-- Method `setTarget(target)`. -/
def Fader.setTarget (target : F32) (f : Fader) : Fader :=
  { f with target := target, adjusting := true }

/-- Method `setStepsRange(steps, range)`: `_delta = range / steps`. -/
def Fader.setStepsRange (steps range : F32) (f : Fader) : Fader :=
  { f with delta := F32.div range steps }

/-- Method `reset()`; `setStepsRange(_default.steps)` takes the default `range = 1`. -/
def Fader.reset (f : Fader) : Fader :=
  (f.set f.defaultValue).setStepsRange f.defaultSteps (F32.fin 1)

/-- Method `step()`: the returned flag and the state afterwards. -/
def Fader.step (f : Fader) : Bool × Fader :=
  if !f.adjusting then (false, f)
  else
    let distance := F32.sub f.target f.now
    if F32.gt (F32.abs f.delta) (F32.abs distance) then
      (true, { f with now := f.target, adjusting := false })
    else
      (true, { f with now := F32.add f.now (F32.copysign f.delta distance) })

/-- The state after `n` calls of `step()`. -/
def Fader.stepN (n : Nat) (f : Fader) : Fader :=
  (fun g => (Fader.step g).2)^[n] f

/-- The arithmetic of the next `step()` is exact: `_now`, `_target` and `_delta`
are finite, the distance `_target - _now` is computed without rounding and,
unless the step snaps, so is the sum `_now + copysignf(_delta, distance)`. -/
def Fader.exactStep (f : Fader) : Bool :=
  match f.now, f.target, f.delta with
  | F32.fin a, F32.fin t, F32.fin d =>
    decide (F32.sub (F32.fin t) (F32.fin a) = F32.fin (t - a)) &&
      (decide (|t - a| < |d|) ||
        decide (F32.add (F32.fin a) (F32.copysign (F32.fin d) (F32.fin (t - a))) =
          F32.fin (a + (if 0 ≤ t - a then |d| else -|d|))))
  | _, _, _ => false

/-- The arithmetic of the next `n` calls of `step()` is exact. -/
def Fader.exactGlide (n : Nat) (f : Fader) : Bool :=
  (List.range n).all fun k => (f.stepN k).exactStep

/-! ## Phasor.h -/

/-- The members of `Phasor`: `_phase` and the `Fader _increment`. -/
structure Phasor where
  phase : F32
  increment : Fader
  deriving DecidableEq

/-- The implicit constructor: `_phase{}` and a default-constructed `Fader`. -/
def Phasor.construct : Phasor :=
  { phase := F32.fin 0, increment := Fader.default }

/-- Method `reset()`. -/
def Phasor.reset (p : Phasor) : Phasor :=
  { p with phase := F32.fin 0, increment := p.increment.reset }

/-- Method `get()`. -/
def Phasor.get (p : Phasor) : F32 := p.phase

/-- Method `set(phase)`. -/
def Phasor.set (phase : F32) (p : Phasor) : Phasor :=
  { p with phase := phase }

/-- Method `setFaderSpeed(durationSec, fromFrequency, toFrequency)`; `clock` is what
the pure virtual `getClockFrequency()` returns. -/
def Phasor.setFaderSpeed (clock durationSec fromFrequency toFrequency : F32) (p : Phasor) :
    Phasor :=
  let fromSamples := F32.div clock fromFrequency
  let fromTarget := F32.div (F32.fin 1) fromSamples
  let toSamples := F32.div clock toFrequency
  let toTarget := F32.div (F32.fin 1) toSamples
  let range := F32.sub toTarget fromTarget
  let steps := F32.mul durationSec clock
  { p with increment := p.increment.setStepsRange steps range }

/-- Method `setFrequencyTarget(frequency)`. -/
def Phasor.setFrequencyTarget (clock frequency : F32) (p : Phasor) : Phasor :=
  let nSamples := F32.div clock frequency
  { p with increment := p.increment.setTarget (F32.div (F32.fin 1) nSamples) }

/-- Method `setFrequency(frequency)`. -/
def Phasor.setFrequency (clock frequency : F32) (p : Phasor) : Phasor :=
  let nSamples := F32.div clock frequency
  { p with increment := p.increment.set (F32.div (F32.fin 1) nSamples) }

/-- Method `step()`: the wrap flag and the state afterwards. -/
def Phasor.step (p : Phasor) : Bool × Phasor :=
  let p1 := { p with phase := F32.add p.phase p.increment.get }
  let wrapped := F32.ge p1.phase (F32.fin 1)
  let p2 := if wrapped then { p1 with phase := F32.sub p1.phase (F32.fin 1) } else p1
  (wrapped, { p2 with increment := (p2.increment.step).2 })

/-- A binary32 value in `[0,1)`: a zero, or a finite value in that range that
rounding to binary32 leaves as it is. -/
def F32.inUnit : F32 → Bool
  | F32.fin x => decide (round32 x = F32.fin x) && decide (0 ≤ x) && decide (x < 1)
  | F32.negZero => true
  | _ => false

/-- The state after `n` calls of `Phasor::step()`. -/
def Phasor.stepN (n : Nat) (p : Phasor) : Phasor :=
  (fun q => (Phasor.step q).2)^[n] p

/-! ## Concrete environments and states -/

/-- An environment whose hooks succeed and whose sources all return the
constant 0.5. -/
def halfEnv : Env :=
  { handlePower := fun _ _ => true
    handleEnable := fun _ _ => true
    getSample := fun _ _ => F32.fin (1 / 2)
    getUsec := fun _ => 0
    getUsecSince := fun _ _ => 0
    getSamplerate := fun _ => F32.fin 48000
    adjustFrequency := fun f _ => f
    convertOutOfRange := fun _ => 0 }

/-- As `halfEnv`, with a power hook that always reports failure. -/
def powerFailEnv : Env :=
  { halfEnv with handlePower := fun _ _ => false }

/-- As `halfEnv`, with an enable hook that always reports failure. -/
def enableFailEnv : Env :=
  { halfEnv with handleEnable := fun _ _ => false }

/-- A freshly constructed codec with a source at address 1 registered on
channel 0. -/
def boundState : Codec := Codec.init.registerChannel 0 (some 1)

/-- The state `boundState` with channel 0 enabled by hand, buffers zero. -/
def halfState : Codec :=
  { boundState with enabled := Function.update boundState.enabled 0 true }

/-- The state after a successful first `enableChannel(0)` from `boundState`. -/
def runningState : Codec := (boundState.enableChannel halfEnv 0).2

/-- A fader at 0 gliding to 1 with `_delta = 1`: the remaining distance equals
the step. -/
def equalStepFader : Fader :=
  ((Fader.default.setStepsRange (F32.fin 1) (F32.fin 1)).set (F32.fin 0)).setTarget (F32.fin 1)

/-- A fader at 0 gliding to 1 with `_delta = 2`: the remaining distance is
smaller than the step. -/
def lastStepFader : Fader :=
  ((Fader.default.setStepsRange (F32.fin 1) (F32.fin 2)).set (F32.fin 0)).setTarget (F32.fin 1)

/-- A freshly constructed fader told to glide to 1: `_delta` still has its
`{}` initialiser 0. -/
def stuckFader : Fader := Fader.default.setTarget (F32.fin 1)

/-- A fader at 1 gliding to 2 in `2^27` steps: `_delta = 2^-27` is less than
half the spacing of binary32 at 1. -/
def absorbedFader : Fader :=
  ((Fader.default.set (F32.fin 1)).setStepsRange (F32.fin 134217728) (F32.fin 1)).setTarget
    (F32.fin 2)

/-- A fader gliding from 0 to 1 in 4 steps: `set(0)`, `setStepsRange(4, 1)`,
`setTarget(1)`. -/
def quarterGlideFader : Fader :=
  ((Fader.default.set (F32.fin 0)).setStepsRange (F32.fin 4) (F32.fin 1)).setTarget (F32.fin 1)

/-- A fader gliding from 0 to 1 in 12 steps: `set(0)`, `setStepsRange(12, 1)`,
`setTarget(1)`. -/
def twelveStepFader : Fader :=
  ((Fader.default.set (F32.fin 0)).setStepsRange (F32.fin 12) (F32.fin 1)).setTarget
    (F32.fin 1)

/-- A fader at `0.3f` gliding to `0.1f` with `_delta = fabs(0.1f - 0.3f)`. -/
def roundedDistanceFader : Fader :=
  ((Fader.default.setStepsRange (F32.fin 1)
    (F32.abs (F32.sub (F32.ofBits 0x3dcccccd) (F32.ofBits 0x3e99999a)))).set
      (F32.ofBits 0x3e99999a)).setTarget (F32.ofBits 0x3dcccccd)

/-- A phasor after `reset()` set up for a downward glide, 200 Hz to 100 Hz over
`0.01f` s at a 48000 Hz clock. -/
def downGlidePhasor : Phasor :=
  Phasor.construct.reset.setFaderSpeed (F32.fin 48000) (round32 (1 / 100)) (F32.fin 200)
    (F32.fin 100)

/-- A phasor after `reset()` and `setFrequency(7)` at a clock of 8. -/
def sevenEighthsPhasor : Phasor :=
  Phasor.construct.reset.setFrequency (F32.fin 8) (F32.fin 7)

/-- A phasor after `reset()`, `setFrequency(100)`, `setFaderSpeed(0.01f, 100, 200)`
and `setFrequencyTarget(200)` at a 48000 Hz clock. -/
def glidePhasor : Phasor :=
  ((Phasor.construct.reset.setFrequency (F32.fin 48000) (F32.fin 100)).setFaderSpeed
    (F32.fin 48000) (round32 (1 / 100)) (F32.fin 100) (F32.fin 200)).setFrequencyTarget
      (F32.fin 48000) (F32.fin 200)

/-- The increment ramp of `glidePhasor` with its value moved to the bit pattern
`b`. -/
def glideIncrementAt (b : ℕ) : Fader := { glidePhasor.increment with now := F32.ofBits b }

/-- A phasor after `reset()`, `setFrequency(256)`, `setFaderSpeed(1/256, 256, 512)`
and `setFrequencyTarget(512)` at a 1024 Hz clock: a glide from 1/4 to 1/2 in 4
steps. -/
def exactGlidePhasor : Phasor :=
  ((Phasor.construct.reset.setFrequency (F32.fin 1024) (F32.fin 256)).setFaderSpeed
    (F32.fin 1024) (F32.fin (1 / 256)) (F32.fin 256) (F32.fin 512)).setFrequencyTarget
      (F32.fin 1024) (F32.fin 512)

/-- A phasor after `reset()`, `setFaderSpeed(0, 100, 100)` and
`setFrequencyTarget(200)` at a 48000 Hz clock: the step count and the range are
both 0, so `_delta` is `0.f / 0.f`. -/
def nanGlidePhasor : Phasor :=
  (Phasor.construct.reset.setFaderSpeed (F32.fin 48000) (F32.fin 0) (F32.fin 100)
    (F32.fin 100)).setFrequencyTarget (F32.fin 48000) (F32.fin 200)

/-- A phasor after `reset()`, `set(0.75)`, `setFrequency(3)` and
`setFrequencyTarget(1)` at a clock of 4: phase 3/4, increment 3/4 gliding
towards 1/4 with the default step `1/1000`. -/
def wrapGlidePhasor : Phasor :=
  ((Phasor.construct.reset.set (F32.fin (3 / 4))).setFrequency (F32.fin 4)
    (F32.fin 3)).setFrequencyTarget (F32.fin 4) (F32.fin 1)

/-! ## Reachable states -/

/-- The fader states reachable from construction through `reset`, `set`,
`setTarget`, `setStepsRange` and `step`, with any arguments. -/
inductive Fader.Reachable : Fader → Prop where
  | construct (value steps : F32) : Fader.Reachable (Fader.construct value steps)
  | reset {f : Fader} : Fader.Reachable f → Fader.Reachable f.reset
  | set {f : Fader} (value : F32) : Fader.Reachable f → Fader.Reachable (f.set value)
  | setTarget {f : Fader} (target : F32) : Fader.Reachable f → Fader.Reachable (f.setTarget target)
  | setStepsRange {f : Fader} (steps range : F32) :
      Fader.Reachable f → Fader.Reachable (f.setStepsRange steps range)
  | step {f : Fader} : Fader.Reachable f → Fader.Reachable (f.step).2

/-- The codec states reachable from construction through `registerChannel`,
`reset`, `enableChannel`, `disableChannel`, `fillBuffer`, `fillNextBuffer` and
`adjustSamplerate`, each run to completion, in any environment. -/
inductive Codec.Reachable : Codec → Prop where
  | init : Codec.Reachable Codec.init
  | registerChannel {s : Codec} (ch : Fin nChannels) (channel : Option Nat) :
      Codec.Reachable s → Codec.Reachable (s.registerChannel ch channel)
  | reset {s : Codec} (env : Env) : Codec.Reachable s → Codec.Reachable (s.reset env)
  | enableChannel {s : Codec} (env : Env) (channel : Fin nChannels) :
      Codec.Reachable s → Codec.Reachable (s.enableChannel env channel).2
  | disableChannel {s : Codec} (channel : Fin nChannels) :
      Codec.Reachable s → Codec.Reachable (s.disableChannel channel)
  | fillBuffer {s : Codec} (env : Env) : Codec.Reachable s → Codec.Reachable (s.fillBuffer env)
  | fillNextBuffer {s : Codec} (env : Env) :
      Codec.Reachable s → Codec.Reachable (s.fillNextBuffer env)
  | adjustSamplerate {s : Codec} (env : Env) (cents : F32) :
      Codec.Reachable s → Codec.Reachable (s.adjustSamplerate env cents)

/-- The invariant of the reachable codec states: `_index` is 0 or 1, a channel
whose enabled flag is clear holds zero in every slot of both buffers, and while
the engine is not running every enabled flag is clear. -/
def Codec.Inv (s : Codec) : Prop :=
  s.index < nBuffers ∧
  (∀ c : Fin nChannels, s.enabled c = false →
    ∀ (b : Fin nBuffers) (i : Fin nSamples), s.buffers b i c = 0) ∧
  (s.running = false → ∀ c : Fin nChannels, s.enabled c = false)

/-! ## Codec: loops in closed form -/

theorem Codec.foldl_writeSample (env : Env) (ch : Fin nChannels) (source : Nat)
    (l : List (Fin nSamples)) (hl : l.Nodup) (s : Codec) :
    l.foldl (Codec.writeSample env ch source) s =
      { s with
        trace := s.trace ++ List.replicate l.length (Event.getSample source)
        buffers := fun b j c =>
          if b.val = s.index ∧ c = ch ∧ j ∈ l then
            scaleSample env (env.getSample
              (s.trace ++ List.replicate (l.indexOf j) (Event.getSample source)) source)
          else s.buffers b j c } := by
  induction l generalizing s with
  | nil => simp
  | cons a l ih =>
    rw [List.nodup_cons] at hl
    rw [List.foldl_cons, ih hl.2]
    simp only [Codec.writeSample, List.length_cons, List.append_assoc, List.singleton_append,
      ← List.replicate_succ, Codec.mk.injEq, true_and, and_true]
    funext b j c
    by_cases hb : b.val = s.index
    · have hlt : s.index < nBuffers := hb ▸ b.isLt
      have hbe : (⟨s.index, hlt⟩ : Fin nBuffers) = b := Fin.ext hb.symm
      by_cases hc : c = ch
      · by_cases hj : j = a
        · subst hj; subst hc
          simp [hb, hl.1, hlt, hbe, setSample]
        · by_cases hjl : j ∈ l
          · have hne : a ≠ j := fun h => hj h.symm
            simp [hb, hc, hj, hjl, List.indexOf_cons_ne _ hne, List.replicate_succ]
          · simp [hb, hc, hj, hjl, hlt, hbe, setSample, Function.update_noteq hj]
      · simp [hb, hc, hlt, hbe, setSample, Function.update_noteq hc]
        by_cases hj : j = a
        · subst hj; simp [Function.update_noteq hc]
        · simp [Function.update_noteq hj]
    · simp only [hb, false_and, if_false]
      split
      · rename_i hlt
        have : b ≠ ⟨s.index, hlt⟩ := fun h => hb (by rw [h])
        simp [setSample, Function.update_noteq this]
      · rfl

theorem Codec.fillChannel_active (env : Env) (s : Codec) (ch : Fin nChannels) (source : Nat)
    (hsrc : s.channels ch = some source) (hen : s.enabled ch = true) :
    s.fillChannel env ch =
      { s with
        trace := s.trace ++ List.replicate nSamples (Event.getSample source)
        buffers := fun b j c =>
          if b.val = s.index ∧ c = ch then
            scaleSample env (env.getSample
              (s.trace ++ List.replicate j.val (Event.getSample source)) source)
          else s.buffers b j c } := by
  unfold Codec.fillChannel
  simp only [hsrc, Codec.isChannelEnabled, hen, Bool.not_true, Bool.false_eq_true, if_false]
  rw [Codec.foldl_writeSample env ch source _ (List.nodup_finRange nSamples)]
  simp [List.mem_finRange, List.indexOf_finRange]

theorem Codec.fillChannel_inactive (env : Env) (s : Codec) (ch : Fin nChannels)
    (h : s.channels ch = none ∨ s.enabled ch = false) :
    s.fillChannel env ch = s := by
  unfold Codec.fillChannel
  rcases h with h | h
  · simp [h]
  · cases hc : s.channels ch <;> simp [Codec.isChannelEnabled, h]

theorem Codec.pulls_active (s : Codec) (ch : Fin nChannels) (source : Nat)
    (hsrc : s.channels ch = some source) (hen : s.enabled ch = true) :
    s.pulls ch = List.replicate nSamples (Event.getSample source) := by
  simp [Codec.pulls, hsrc, hen]

theorem Codec.pulls_inactive (s : Codec) (ch : Fin nChannels)
    (h : s.channels ch = none ∨ s.enabled ch = false) :
    s.pulls ch = [] := by
  unfold Codec.pulls
  rcases h with h | h
  · simp [h]
  · cases hc : s.channels ch <;> simp [h]

/-- What one pass of the outer loop leaves untouched, and its trace. -/
theorem Codec.fillChannel_frame (env : Env) (s : Codec) (ch : Fin nChannels) :
    (s.fillChannel env ch).trace = s.trace ++ s.pulls ch ∧
    (s.fillChannel env ch).index = s.index ∧
    (s.fillChannel env ch).channels = s.channels ∧
    (s.fillChannel env ch).enabled = s.enabled ∧
    (s.fillChannel env ch).running = s.running ∧
    (s.fillChannel env ch).frequency = s.frequency ∧
    (s.fillChannel env ch).runUsec = s.runUsec ∧
    (∀ b j c, (b.val ≠ s.index ∨ c ≠ ch) →
      (s.fillChannel env ch).buffers b j c = s.buffers b j c) := by
  cases hc : s.channels ch with
  | none =>
    rw [Codec.fillChannel_inactive env s ch (Or.inl hc), Codec.pulls_inactive s ch (Or.inl hc)]
    simp
  | some source =>
    cases he : s.enabled ch with
    | false =>
      rw [Codec.fillChannel_inactive env s ch (Or.inr he),
        Codec.pulls_inactive s ch (Or.inr he)]
      simp
    | true =>
      rw [Codec.fillChannel_active env s ch source hc he, Codec.pulls_active s ch source hc he]
      refine ⟨rfl, rfl, rfl, rfl, rfl, rfl, rfl, ?_⟩
      intro b j c h
      have : ¬ (b.val = s.index ∧ c = ch) := by
        rintro ⟨h1, h2⟩
        rcases h with h | h
        · exact h h1
        · exact h h2
      simp [this]

theorem Codec.pulls_congr (s t : Codec) (hc : t.channels = s.channels)
    (he : t.enabled = s.enabled) (ch : Fin nChannels) : t.pulls ch = s.pulls ch := by
  simp [Codec.pulls, hc, he]

theorem finRange_nChannels : List.finRange nChannels = [0, 1] := rfl

theorem Codec.pullsBefore_zero (s : Codec) : s.pullsBefore 0 = [] := by
  simp [Codec.pullsBefore, finRange_nChannels]

theorem Codec.pullsBefore_one (s : Codec) : s.pullsBefore 1 = s.pulls 0 := by
  simp [Codec.pullsBefore, finRange_nChannels]

/-- The state after `fillBuffer()` is the state after the loops of channel 0 and
channel 1, run between the two clock reads. -/
theorem Codec.fillBuffer_eq (env : Env) (s : Codec) :
    s.fillBuffer env =
      { (({ s with trace := s.trace ++ [Event.getUsec] } : Codec).fillChannel env 0).fillChannel
          env 1 with
        runUsec := env.getUsecSince
          ((({ s with trace := s.trace ++ [Event.getUsec] } : Codec).fillChannel env 0).fillChannel
            env 1).trace (env.getUsec s.trace % 2 ^ 32) % 2 ^ 32
        trace := ((({ s with trace := s.trace ++ [Event.getUsec] } : Codec).fillChannel env
          0).fillChannel env 1).trace ++ [Event.getUsecSince (env.getUsec s.trace % 2 ^ 32)] } := by
  simp [Codec.fillBuffer, finRange_nChannels]

/-- When the product fits `int32_t`, `scaleSample` is the defined conversion. -/
theorem scaleSample_of_fits (env : Env) (x : F32) (h : sampleFits x) :
    (F32.mul x floatInt32Max).toInt32 = some (scaleSample env x) := by
  unfold sampleFits at h
  unfold scaleSample
  cases hc : (F32.mul x floatInt32Max).toInt32 with
  | none => rw [hc] at h; exact absurd h (by simp)
  | some v => rfl

/-- The constant `(float)INT32_MAX` is `2^31`. -/
theorem floatInt32Max_eq : floatInt32Max = F32.fin 2147483648 := by
  decide!

/-- The sample 0.5 scales to `2^30`. -/
theorem convert_half : (F32.mul (F32.fin (1 / 2)) floatInt32Max).toInt32 = some 1073741824 := by
  decide!

theorem sampleFits_half : sampleFits (F32.fin (1 / 2)) := by
  unfold sampleFits
  rw [convert_half]
  rfl

theorem scaleSample_half (env : Env) : scaleSample env (F32.fin (1 / 2)) = 1073741824 := by
  have h := scaleSample_of_fits env _ sampleFits_half
  rw [convert_half] at h
  exact (Option.some.inj h).symm

/-- C1. One `fillBuffer()` on a state whose `_index` is 0 or 1, with sources
whose every returned value, multiplied in binary32 by `(float)INT32_MAX`, is a
number that fits `int32_t` (each value in `[-1, 1)` does): the calls it makes
are the first clock read, then for each channel in turn, when the channel has a
bound source and its enabled flag set, exactly `_nSamples` calls of that
source's `getSample()`, then the second clock read; slot `i` of the buffer at
`_index` holds, on such a channel, the conversion to `int32_t` of the binary32
product of the value returned by the `i`-th of the channel's calls and
`(float)INT32_MAX`; a channel without a bound source or without the enabled
flag keeps its values in every slot of every buffer. -/
theorem Codec.fillBuffer_samples (env : Env) (s : Codec) (hidx : s.index < nBuffers)
    (hfit : ∀ (t : List Event) (src : Nat), sampleFits (env.getSample t src)) :
    (s.fillBuffer env).trace =
        s.trace ++ [Event.getUsec] ++ s.pulls 0 ++ s.pulls 1 ++
          [Event.getUsecSince (env.getUsec s.trace % 2 ^ 32)] ∧
    (∀ (ch : Fin nChannels) (source : Nat),
      s.channels ch = some source → s.enabled ch = true →
        s.pulls ch = List.replicate nSamples (Event.getSample source) ∧
        ∀ i : Fin nSamples,
          (F32.mul (env.getSample
              (s.trace ++ [Event.getUsec] ++ s.pullsBefore ch ++
                List.replicate i.val (Event.getSample source)) source) floatInt32Max).toInt32 =
            some ((s.fillBuffer env).buffers ⟨s.index, hidx⟩ i ch)) ∧
    (∀ ch : Fin nChannels, (s.channels ch = none ∨ s.enabled ch = false) →
      s.pulls ch = [] ∧
      ∀ (b : Fin nBuffers) (i : Fin nSamples),
        (s.fillBuffer env).buffers b i ch = s.buffers b i ch) := by
  rw [Codec.fillBuffer_eq]
  generalize hs1 : ({ s with trace := s.trace ++ [Event.getUsec] } : Codec) = s1
  have e1 : s1.trace = s.trace ++ [Event.getUsec] := by rw [← hs1]
  have e2 : s1.channels = s.channels := by rw [← hs1]
  have e3 : s1.enabled = s.enabled := by rw [← hs1]
  have e4 : s1.index = s.index := by rw [← hs1]
  have e5 : s1.buffers = s.buffers := by rw [← hs1]
  obtain ⟨a1, a2, a3, a4, -, -, -, a8⟩ := Codec.fillChannel_frame env s1 0
  generalize hsA : s1.fillChannel env 0 = sA at a1 a2 a3 a4 a8
  obtain ⟨b1, -, -, -, -, -, -, b8⟩ := Codec.fillChannel_frame env sA 1
  have p0 : s1.pulls 0 = s.pulls 0 := Codec.pulls_congr s s1 e2 e3 0
  have p1 : sA.pulls 1 = s.pulls 1 := Codec.pulls_congr s sA (a3.trans e2) (a4.trans e3) 1
  refine ⟨?_, ?_, ?_⟩
  · simp only [b1, a1, e1, p0, p1]
  · intro ch source hsrc hen
    refine ⟨Codec.pulls_active s ch source hsrc hen, fun i => ?_⟩
    have hch : ch = 0 ∨ ch = 1 := by
      rcases ch with ⟨v, hv⟩
      simp only [nChannels] at hv
      interval_cases v
      · exact Or.inl rfl
      · exact Or.inr rfl
    have key : (sA.fillChannel env 1).buffers ⟨s.index, hidx⟩ i ch =
        scaleSample env (env.getSample
          (s.trace ++ [Event.getUsec] ++ s.pullsBefore ch ++
            List.replicate i.val (Event.getSample source)) source) := by
      rcases hch with rfl | rfl
      · rw [b8 _ _ _ (Or.inr (by decide)), ← hsA,
          Codec.fillChannel_active env s1 0 source (e2 ▸ hsrc) (e3 ▸ hen)]
        simp [e4, e1, Codec.pullsBefore_zero]
      · rw [Codec.fillChannel_active env sA 1 source (a3 ▸ e2 ▸ hsrc) (a4 ▸ e3 ▸ hen)]
        simp [a2, e4, a1, e1, p0, Codec.pullsBefore_one]
    show _ = some ((sA.fillChannel env 1).buffers ⟨s.index, hidx⟩ i ch)
    rw [key]
    exact scaleSample_of_fits env _ (hfit _ _)
  · intro ch hin
    refine ⟨Codec.pulls_inactive s ch hin, fun b i => ?_⟩
    have hch : ch = 0 ∨ ch = 1 := by
      rcases ch with ⟨v, hv⟩
      simp only [nChannels] at hv
      interval_cases v
      · exact Or.inl rfl
      · exact Or.inr rfl
    rcases hch with rfl | rfl
    · show (sA.fillChannel env 1).buffers b i 0 = _
      rw [b8 _ _ _ (Or.inr (by decide)), ← hsA,
        Codec.fillChannel_inactive env s1 0 (e2 ▸ e3 ▸ hin), e5]
    · show (sA.fillChannel env 1).buffers b i 1 = _
      rw [Codec.fillChannel_inactive env sA 1 (a3 ▸ a4 ▸ e2 ▸ e3 ▸ hin), a8 _ _ _
        (Or.inr (by decide)), e5]

/-- C1, at a concrete input: a source returning the constant 0.5 bound to
channel 0, only channel 0 enabled, buffers zero. After one fill every slot of
buffer 0 holds the scaled 0.5, which is `2^30`, on channel 0 and 0 on channel 1. -/
theorem Codec.fillBuffer_samples_witness :
    halfState.index < nBuffers ∧ halfState.channels 0 = some 1 ∧
    halfState.enabled 0 = true ∧ halfState.enabled 1 = false ∧
    (∀ (t : List Event) (src : Nat), sampleFits (halfEnv.getSample t src)) ∧
    (∀ i : Fin nSamples, (halfState.fillBuffer halfEnv).buffers 0 i 0 = 1073741824 ∧
      (halfState.fillBuffer halfEnv).buffers 0 i 1 = 0) ∧
    (halfState.fillBuffer halfEnv).trace =
      [Event.getUsec] ++ List.replicate 64 (Event.getSample 1) ++ [Event.getUsecSince 0] := by
  have h := Codec.fillBuffer_samples halfEnv halfState (by decide) (fun _ _ => sampleFits_half)
  refine ⟨by decide, rfl, rfl, rfl, fun _ _ => sampleFits_half, fun i => ⟨?_, ?_⟩, ?_⟩
  · have hv := (h.2.1 0 1 rfl rfl).2 i
    have e : (F32.mul (F32.fin (1 / 2)) floatInt32Max).toInt32 = some 1073741824 :=
      convert_half
    exact (Option.some.inj (hv.symm.trans e))
  · exact (h.2.2 1 (Or.inl rfl)).2 0 i
  · rw [h.1, (h.2.1 0 1 rfl rfl).1, (h.2.2 1 (Or.inl rfl)).1]
    rfl

/-! ## Codec: reset, disableChannel, enableChannel -/

theorem finRange_nBuffers : List.finRange nBuffers = [0, 1] := rfl

theorem fin_two_cases (c : Fin 2) : c = 0 ∨ c = 1 := by
  rcases c with ⟨v, hv⟩
  interval_cases v
  · exact Or.inl rfl
  · exact Or.inr rfl

/-- The state `reset()` produces, in closed form. -/
theorem Codec.reset_eq (env : Env) (s : Codec) :
    s.reset env =
      { running := false
        frequency := env.adjustFrequency (env.getSamplerate (s.trace ++ resetCalls)) (F32.fin 0)
        buffers := fun _ _ _ => 0
        index := 0
        channels := s.channels
        enabled := fun _ => false
        runUsec := s.runUsec
        trace := s.trace ++ resetCalls } := by
  simp only [Codec.reset, Codec.adjustSamplerate, finRange_nChannels, finRange_nBuffers,
    List.foldl_cons, List.foldl_nil, resetCalls, List.append_assoc, List.cons_append,
    List.nil_append, Codec.mk.injEq, true_and, and_true]
  refine ⟨?_, ?_⟩
  · funext b
    rcases fin_two_cases b with rfl | rfl <;> simp
  · funext c
    rcases fin_two_cases c with rfl | rfl <;> simp

theorem Codec.foldl_silence (channel : Fin nChannels) (b : Fin nBuffers)
    (l : List (Fin nSamples)) (t : Codec) :
    l.foldl (fun (u : Codec) sample =>
        { u with buffers := setSample u.buffers b sample channel 0 }) t =
      { t with
        buffers := fun b2 j c =>
          if b2 = b ∧ j ∈ l ∧ c = channel then 0 else t.buffers b2 j c } := by
  induction l generalizing t with
  | nil => simp
  | cons a l ih =>
    rw [List.foldl_cons, ih]
    simp only [Codec.mk.injEq, true_and, and_true]
    funext b2 j c
    by_cases hb : b2 = b
    · subst hb
      by_cases hc : c = channel
      · subst hc
        by_cases hj : j = a
        · subst hj; simp [setSample]
        · by_cases hjl : j ∈ l
          · simp [hjl]
          · simp [hjl, hj, setSample, Function.update_noteq hj]
      · simp only [hc, and_false, if_false, setSample, Function.update_same]
        by_cases hj : j = a
        · subst hj; simp [Function.update_noteq hc]
        · simp [Function.update_noteq hj]
    · simp [hb, setSample, Function.update_noteq hb]

/-- The state `disableChannel(channel)` produces, in closed form. -/
theorem Codec.disableChannel_eq (channel : Fin nChannels) (s : Codec) :
    s.disableChannel channel =
      { s with
        enabled := Function.update s.enabled channel false
        buffers := fun b j c => if c = channel then 0 else s.buffers b j c } := by
  simp only [Codec.disableChannel, finRange_nBuffers, List.foldl_cons, List.foldl_nil,
    Codec.foldl_silence, Codec.mk.injEq, true_and, and_true, List.mem_finRange]
  funext b j c
  rcases fin_two_cases b with rfl | rfl <;> by_cases hc : c = channel <;> simp [hc]

/-- C2. After `disableChannel(channel)` the channel's enabled flag is clear and
the channel's sample is zero in every slot of both buffers; the other
channel's samples and flag, the bound sources, the running flag, the buffer
index and the trace of environment calls are unchanged. -/
theorem Codec.disableChannel_silences (channel : Fin nChannels) (s : Codec) :
    (s.disableChannel channel).enabled channel = false ∧
    (∀ (b : Fin nBuffers) (i : Fin nSamples),
      (s.disableChannel channel).buffers b i channel = 0) ∧
    (∀ (c : Fin nChannels), c ≠ channel →
      (s.disableChannel channel).enabled c = s.enabled c ∧
      ∀ (b : Fin nBuffers) (i : Fin nSamples),
        (s.disableChannel channel).buffers b i c = s.buffers b i c) ∧
    (s.disableChannel channel).channels = s.channels ∧
    (s.disableChannel channel).running = s.running ∧
    (s.disableChannel channel).index = s.index ∧
    (s.disableChannel channel).trace = s.trace := by
  rw [Codec.disableChannel_eq]
  refine ⟨by simp, by simp, ?_, rfl, rfl, rfl, rfl⟩
  intro c hc
  exact ⟨by simp [Function.update_noteq hc], fun b i => by simp [hc]⟩

theorem Codec.enableChannel_powerFail (env : Env) (channel : Fin nChannels) (s : Codec)
    (source : Nat) (hsrc : s.channels channel = some source)
    (hpow : env.handlePower s.trace true = false) :
    s.enableChannel env channel =
      (false, ({ s with trace := s.trace ++ [Event.handlePower true] } : Codec).reset env) := by
  simp [Codec.enableChannel, hsrc, hpow]

/-- C3. When the channel has a bound source and `handlePower(true)` returns
false, `enableChannel(channel)` returns false and the state afterwards is the
state `reset()` produces from the state in which the hook was called: not
running, buffer index 0, every channel disabled, both buffers all zero, with
the calls of `reset()` made after the failed `handlePower(true)`. -/
theorem Codec.enableChannel_power_failure (env : Env) (channel : Fin nChannels) (s : Codec)
    (source : Nat) (hsrc : s.channels channel = some source)
    (hpow : env.handlePower s.trace true = false) :
    (s.enableChannel env channel).1 = false ∧
    (s.enableChannel env channel).2 =
      ({ s with trace := s.trace ++ [Event.handlePower true] } : Codec).reset env ∧
    (s.enableChannel env channel).2.running = false ∧
    (s.enableChannel env channel).2.index = 0 ∧
    (∀ c, (s.enableChannel env channel).2.enabled c = false) ∧
    (∀ b i c, (s.enableChannel env channel).2.buffers b i c = 0) ∧
    (s.enableChannel env channel).2.trace =
      s.trace ++ [Event.handlePower true] ++ resetCalls := by
  rw [Codec.enableChannel_powerFail env channel s source hsrc hpow]
  refine ⟨rfl, rfl, ?_, ?_, ?_, ?_, ?_⟩ <;> simp [Codec.reset_eq]

/-- C3, at a concrete input: a source bound to channel 0 and a power hook
that fails. -/
theorem Codec.enableChannel_power_failure_witness :
    boundState.channels 0 = some 1 ∧ powerFailEnv.handlePower boundState.trace true = false ∧
    (boundState.enableChannel powerFailEnv 0).1 = false ∧
    (boundState.enableChannel powerFailEnv 0).2.running = false ∧
    (boundState.enableChannel powerFailEnv 0).2.trace =
      [Event.handlePower true, Event.dmaAbort, Event.i2sReset, Event.handleEnable false,
        Event.handlePower false] := by
  have h := Codec.enableChannel_power_failure powerFailEnv 0 boundState 1 rfl rfl
  exact ⟨rfl, rfl, h.1, h.2.2.1, h.2.2.2.2.2.2⟩

/-- What `fillBuffer()` leaves untouched, and its trace. -/
theorem Codec.fillBuffer_frame (env : Env) (s : Codec) :
    (s.fillBuffer env).trace =
        s.trace ++ [Event.getUsec] ++ s.pulls 0 ++ s.pulls 1 ++
          [Event.getUsecSince (env.getUsec s.trace % 2 ^ 32)] ∧
    (s.fillBuffer env).index = s.index ∧
    (s.fillBuffer env).channels = s.channels ∧
    (s.fillBuffer env).enabled = s.enabled ∧
    (s.fillBuffer env).running = s.running ∧
    (s.fillBuffer env).frequency = s.frequency := by
  rw [Codec.fillBuffer_eq]
  generalize hs1 : ({ s with trace := s.trace ++ [Event.getUsec] } : Codec) = s1
  have e1 : s1.trace = s.trace ++ [Event.getUsec] := by rw [← hs1]
  have e2 : s1.channels = s.channels := by rw [← hs1]
  have e3 : s1.enabled = s.enabled := by rw [← hs1]
  have e4 : s1.index = s.index := by rw [← hs1]
  have e5 : s1.running = s.running := by rw [← hs1]
  have e6 : s1.frequency = s.frequency := by rw [← hs1]
  obtain ⟨a1, a2, a3, a4, a5, a6, -, -⟩ := Codec.fillChannel_frame env s1 0
  generalize hsA : s1.fillChannel env 0 = sA at a1 a2 a3 a4 a5 a6
  obtain ⟨b1, b2, b3, b4, b5, b6, -, -⟩ := Codec.fillChannel_frame env sA 1
  have p0 : s1.pulls 0 = s.pulls 0 := Codec.pulls_congr s s1 e2 e3 0
  have p1 : sA.pulls 1 = s.pulls 1 := Codec.pulls_congr s sA (a3.trans e2) (a4.trans e3) 1
  refine ⟨?_, ?_, ?_, ?_, ?_, ?_⟩
  · simp only [b1, a1, e1, p0, p1]
  · exact b2.trans (a2.trans e4)
  · exact b3.trans (a3.trans e2)
  · exact b4.trans (a4.trans e3)
  · exact b5.trans (a5.trans e5)
  · exact b6.trans (a6.trans e6)

theorem Codec.enableChannel_enableFail (env : Env) (channel : Fin nChannels) (s : Codec)
    (source : Nat) (hsrc : s.channels channel = some source) (hidle : s.running = false)
    (hpow : env.handlePower s.trace true = true)
    (hen : env.handleEnable (s.trace ++ [Event.handlePower true]) true = false) :
    s.enableChannel env channel =
      (false, { s with trace := s.trace ++ [Event.handlePower true, Event.handleEnable true] }) := by
  simp [Codec.enableChannel, hsrc, hpow, hidle, hen]

theorem Codec.enableChannel_bringUp (env : Env) (channel : Fin nChannels) (s : Codec)
    (source : Nat) (hsrc : s.channels channel = some source) (hidle : s.running = false)
    (hpow : env.handlePower s.trace true = true)
    (hen : env.handleEnable (s.trace ++ [Event.handlePower true]) true = true) :
    s.enableChannel env channel =
      (true,
        { (Codec.fillNextBuffer env
            { Codec.fillBuffer env
                { s with
                  trace := s.trace ++ [Event.handlePower true, Event.handleEnable true]
                  index := 0 } with
              trace := (Codec.fillBuffer env
                { s with
                  trace := s.trace ++ [Event.handlePower true, Event.handleEnable true]
                  index := 0 }).trace ++ [Event.dmaStartJob] }) with
          running := true
          enabled := Function.update
            (Codec.fillNextBuffer env
              { Codec.fillBuffer env
                  { s with
                    trace := s.trace ++ [Event.handlePower true, Event.handleEnable true]
                    index := 0 } with
                trace := (Codec.fillBuffer env
                  { s with
                    trace := s.trace ++ [Event.handlePower true, Event.handleEnable true]
                    index := 0 }).trace ++ [Event.dmaStartJob] }).enabled channel true }) := by
  simp [Codec.enableChannel, hsrc, hpow, hidle, hen]

theorem Codec.enableChannel_whileRunning (env : Env) (channel : Fin nChannels) (s : Codec)
    (source : Nat) (hsrc : s.channels channel = some source) (hrun : s.running = true)
    (hpow : env.handlePower s.trace true = true) :
    s.enableChannel env channel =
      (true,
        { s with
          trace := s.trace ++ [Event.handlePower true]
          enabled := Function.update s.enabled channel true }) := by
  simp [Codec.enableChannel, hsrc, hpow, hrun]

theorem Codec.fillNextBuffer_of_index_zero (env : Env) (s : Codec) (h : s.index = 0) :
    s.fillNextBuffer env =
      Codec.fillBuffer env { s with index := 1, trace := s.trace ++ [Event.enableIrq] } := by
  simp [Codec.fillNextBuffer, h]

/-- C4, evaluated on the code: from a freshly constructed codec with a source
bound to channel 0, with `handlePower(true)` succeeding and `handleEnable(true)`
failing, `enableChannel(0)` returns false after those two calls only. No
`reset()` runs: neither `handlePower(false)` nor `handleEnable(false)` is
invoked, so the power acquired by `handlePower(true)` is not released. -/
theorem Codec.enableChannel_enable_failure_keeps_power :
    boundState.running = false ∧ boundState.channels 0 = some 1 ∧
    enableFailEnv.handlePower boundState.trace true = true ∧
    enableFailEnv.handleEnable (boundState.trace ++ [Event.handlePower true]) true = false ∧
    (boundState.enableChannel enableFailEnv 0).1 = false ∧
    (boundState.enableChannel enableFailEnv 0).2.trace =
      [Event.handlePower true, Event.handleEnable true] ∧
    Event.handlePower false ∉ (boundState.enableChannel enableFailEnv 0).2.trace ∧
    Event.handleEnable false ∉ (boundState.enableChannel enableFailEnv 0).2.trace ∧
    (boundState.enableChannel enableFailEnv 0).2.trace ≠
      (Codec.reset enableFailEnv
        { boundState with
          trace := boundState.trace ++
            [Event.handlePower true, Event.handleEnable true] }).trace := by
  have h := Codec.enableChannel_enableFail enableFailEnv 0 boundState 1 rfl rfl rfl rfl
  rw [h, Codec.reset_eq]
  refine ⟨rfl, rfl, rfl, rfl, rfl, rfl, ?_, ?_, ?_⟩ <;> decide

/-- C5. When the channel has no bound source, `enableChannel(channel)` returns
false and the state afterwards is the state before, the trace of environment
calls included: no hook is invoked. -/
theorem Codec.enableChannel_missing_source (env : Env) (channel : Fin nChannels) (s : Codec)
    (hsrc : s.channels channel = none) :
    s.enableChannel env channel = (false, s) := by
  simp [Codec.enableChannel, hsrc]

/-- C5, at a concrete input: a freshly constructed codec, nothing registered. -/
theorem Codec.enableChannel_missing_source_witness :
    Codec.init.channels 1 = none ∧ Codec.init.enableChannel halfEnv 1 = (false, Codec.init) :=
  ⟨rfl, Codec.enableChannel_missing_source halfEnv 1 Codec.init rfl⟩

/-- C6. From an idle state in which the channel has a bound source, with both
hooks succeeding, `enableChannel(channel)` returns true; the state afterwards
is obtained by setting `_index` to 0, running `fillBuffer()` (on buffer 0),
starting the DMA job, running `fillNextBuffer()` (on buffer 1), and then
setting the running flag and the channel's enabled flag. The calls made are, in
order, `handlePower(true)`, `handleEnable(true)`, those of the first fill,
`_dma.startJob()`, those of the second fill; both fills pull samples according
to the enabled flags of the state before the call. On return the engine is
running, `_index` is 1, the channel is enabled and the other flags are as
before. -/
theorem Codec.enableChannel_first (env : Env) (channel : Fin nChannels) (s : Codec)
    (source : Nat) (hsrc : s.channels channel = some source) (hidle : s.running = false)
    (hpow : env.handlePower s.trace true = true)
    (hen : env.handleEnable (s.trace ++ [Event.handlePower true]) true = true) :
    let s3 : Codec :=
      { s with
        trace := s.trace ++ [Event.handlePower true, Event.handleEnable true]
        index := 0 }
    let s4 : Codec := s3.fillBuffer env
    let s5 : Codec := { s4 with trace := s4.trace ++ [Event.dmaStartJob] }
    let s6 : Codec := s5.fillNextBuffer env
    (s.enableChannel env channel).1 = true ∧
    (s.enableChannel env channel).2 =
      { s6 with running := true, enabled := Function.update s.enabled channel true } ∧
    s4.index = 0 ∧ s6.index = 1 ∧
    (s.enableChannel env channel).2.trace =
      s.trace ++ [Event.handlePower true, Event.handleEnable true] ++
        ([Event.getUsec] ++ s.pulls 0 ++ s.pulls 1 ++
          [Event.getUsecSince (env.getUsec s3.trace % 2 ^ 32)]) ++
        [Event.dmaStartJob] ++
        ([Event.enableIrq, Event.getUsec] ++ s.pulls 0 ++ s.pulls 1 ++
          [Event.getUsecSince (env.getUsec (s5.trace ++ [Event.enableIrq]) % 2 ^ 32)]) ∧
    (s.enableChannel env channel).2.running = true ∧
    (s.enableChannel env channel).2.index = 1 ∧
    (s.enableChannel env channel).2.enabled channel = true ∧
    (∀ c, c ≠ channel → (s.enableChannel env channel).2.enabled c = s.enabled c) := by
  intro s3 s4 s5 s6
  have hE := Codec.enableChannel_bringUp env channel s source hsrc hidle hpow hen
  obtain ⟨f1, f2, f3, f4, -, -⟩ := Codec.fillBuffer_frame env s3
  have h5 : s5.fillNextBuffer env =
      Codec.fillBuffer env { s5 with index := 1, trace := s5.trace ++ [Event.enableIrq] } :=
    Codec.fillNextBuffer_of_index_zero env s5 f2
  obtain ⟨g1, g2, g3, g4, -, -⟩ := Codec.fillBuffer_frame env
    { s5 with index := 1, trace := s5.trace ++ [Event.enableIrq] }
  have hen6 : s6.enabled = s.enabled := by
    show (s5.fillNextBuffer env).enabled = _
    rw [h5, g4]; exact f4
  have hidx6 : s6.index = 1 := by
    show (s5.fillNextBuffer env).index = _
    rw [h5, g2]
  have hp0 : ∀ c, Codec.pulls { s5 with index := 1, trace := s5.trace ++ [Event.enableIrq] } c
      = s.pulls c := fun c => Codec.pulls_congr s _ f3 f4 c
  have hq0 : ∀ c, s3.pulls c = s.pulls c := fun c => Codec.pulls_congr s _ rfl rfl c
  have htr6 : s6.trace = s.trace ++ [Event.handlePower true, Event.handleEnable true] ++
        ([Event.getUsec] ++ s.pulls 0 ++ s.pulls 1 ++
          [Event.getUsecSince (env.getUsec s3.trace % 2 ^ 32)]) ++
        [Event.dmaStartJob] ++
        ([Event.enableIrq, Event.getUsec] ++ s.pulls 0 ++ s.pulls 1 ++
          [Event.getUsecSince (env.getUsec (s5.trace ++ [Event.enableIrq]) % 2 ^ 32)]) := by
    show (s5.fillNextBuffer env).trace = _
    rw [h5, g1, hp0, hp0]
    show (s4.trace ++ [Event.dmaStartJob] ++ [Event.enableIrq]) ++ _ ++ _ ++ _ ++ _ = _
    have : s4.trace = s.trace ++ [Event.handlePower true, Event.handleEnable true] ++
        [Event.getUsec] ++ s.pulls 0 ++ s.pulls 1 ++
          [Event.getUsecSince (env.getUsec s3.trace % 2 ^ 32)] := by
      show (s3.fillBuffer env).trace = _
      rw [f1, hq0, hq0]
    rw [this]
    simp only [List.append_assoc, List.cons_append, List.nil_append]
  have hst : (s.enableChannel env channel).2 =
      { s6 with running := true, enabled := Function.update s.enabled channel true } := by
    rw [hE]
    show ({ s6 with running := true, enabled := Function.update s6.enabled channel true }
      : Codec) = _
    rw [hen6]
  refine ⟨by rw [hE], hst, f2, hidx6, ?_, ?_, ?_, ?_, ?_⟩
  · rw [hst]; exact htr6
  · rw [hst]
  · rw [hst]; exact hidx6
  · rw [hst]; simp
  · intro c hc
    rw [hst]; simp [Function.update_noteq hc]

/-- C6, at a concrete input: the first enable of channel 0 on a freshly
constructed codec with a source bound to channel 0 and hooks that succeed. -/
theorem Codec.enableChannel_first_witness :
    boundState.channels 0 = some 1 ∧ boundState.running = false ∧
    (boundState.enableChannel halfEnv 0).1 = true ∧
    (boundState.enableChannel halfEnv 0).2.running = true ∧
    (boundState.enableChannel halfEnv 0).2.index = 1 ∧
    (boundState.enableChannel halfEnv 0).2.enabled 0 = true ∧
    (boundState.enableChannel halfEnv 0).2.trace =
      [Event.handlePower true, Event.handleEnable true, Event.getUsec, Event.getUsecSince 0,
        Event.dmaStartJob, Event.enableIrq, Event.getUsec, Event.getUsecSince 0] := by
  have h := Codec.enableChannel_first halfEnv 0 boundState 1 rfl rfl rfl rfl
  refine ⟨rfl, rfl, h.1, h.2.2.2.2.2.1, h.2.2.2.2.2.2.1, h.2.2.2.2.2.2.2.1, ?_⟩
  rw [h.2.2.2.2.1]
  rfl

/-- C7 as stated fails: on the running state reached by a successful first
enable, with channel 0 still bound, `enableChannel(0)` under a power hook that
reports failure returns false and resets the engine: it is no longer running,
`_index` went from 1 to 0 and channel 0 is disabled. -/
theorem Codec.enableChannel_running_power_failure :
    runningState.running = true ∧ runningState.channels 0 = some 1 ∧
    runningState.index = 1 ∧ runningState.enabled 0 = true ∧
    (runningState.enableChannel powerFailEnv 0).1 = false ∧
    (runningState.enableChannel powerFailEnv 0).2.running = false ∧
    (runningState.enableChannel powerFailEnv 0).2.index = 0 ∧
    (runningState.enableChannel powerFailEnv 0).2.enabled 0 = false := by
  have hsrc : runningState.channels 0 = some 1 := rfl
  rw [Codec.enableChannel_powerFail powerFailEnv 0 runningState 1 hsrc rfl, Codec.reset_eq]
  exact ⟨rfl, rfl, rfl, rfl, rfl, rfl, rfl, rfl⟩

/-- C7, amended. On a running state in which the channel has a bound source,
when `handlePower(true)` succeeds, `enableChannel(channel)` returns true and
changes only that channel's enabled flag: the engine remains running, `_index`,
both buffers, the bound sources and the other channel's flag are unchanged, and
the only call made is `handlePower(true)` (no enable hook, no fill). -/
theorem Codec.enableChannel_running (env : Env) (channel : Fin nChannels) (s : Codec)
    (source : Nat) (hsrc : s.channels channel = some source) (hrun : s.running = true)
    (hpow : env.handlePower s.trace true = true) :
    (s.enableChannel env channel).1 = true ∧
    (s.enableChannel env channel).2 =
      { s with
        trace := s.trace ++ [Event.handlePower true]
        enabled := Function.update s.enabled channel true } ∧
    (s.enableChannel env channel).2.enabled channel = true ∧
    (∀ c, c ≠ channel → (s.enableChannel env channel).2.enabled c = s.enabled c) ∧
    (s.enableChannel env channel).2.running = true ∧
    (s.enableChannel env channel).2.index = s.index ∧
    (s.enableChannel env channel).2.buffers = s.buffers ∧
    (s.enableChannel env channel).2.channels = s.channels ∧
    (s.enableChannel env channel).2.trace = s.trace ++ [Event.handlePower true] := by
  rw [Codec.enableChannel_whileRunning env channel s source hsrc hrun hpow]
  refine ⟨rfl, rfl, by simp, ?_, hrun, rfl, rfl, rfl, rfl⟩
  intro c hc
  simp [Function.update_noteq hc]

/-- C7 amended, at a concrete input: channel 1 gets a source and is enabled
while the engine runs. -/
theorem Codec.enableChannel_running_witness :
    (runningState.registerChannel 1 (some 2)).channels 1 = some 2 ∧
    (runningState.registerChannel 1 (some 2)).running = true ∧
    halfEnv.handlePower (runningState.registerChannel 1 (some 2)).trace true = true ∧
    ((runningState.registerChannel 1 (some 2)).enableChannel halfEnv 1).1 = true ∧
    ((runningState.registerChannel 1 (some 2)).enableChannel halfEnv 1).2.enabled 1 = true ∧
    ((runningState.registerChannel 1 (some 2)).enableChannel halfEnv 1).2.index = 1 := by
  have h := Codec.enableChannel_running halfEnv 1 (runningState.registerChannel 1 (some 2)) 2
    rfl rfl rfl
  exact ⟨rfl, rfl, rfl, h.1, h.2.2.1, h.2.2.2.2.2.1⟩

/-! ## binary32: rounding -/

/-- The halving count is the bit length. -/
theorem bitLength_eq (fuel n : ℕ) (h : n ≤ fuel) :
    bitLength fuel n = if n = 0 then 0 else Nat.log 2 n + 1 := by
  induction fuel generalizing n with
  | zero =>
    have : n = 0 := by omega
    simp [this, bitLength]
  | succ k ih =>
    unfold bitLength
    by_cases hn : n = 0
    · simp [hn]
    · simp only [hn, if_false]
      rw [ih (n / 2) (by omega)]
      by_cases h2 : n / 2 = 0
      · have hlt : n < 2 := by omega
        simp [h2, Nat.log_of_lt hlt]
      · have hge : 2 ≤ n := by omega
        simp only [h2, if_false]
        rw [Nat.log_of_one_lt_of_le (by norm_num) hge]

/-- The bit length brackets a positive number between powers of two. -/
theorem bitLength_spec (n : ℕ) (hn : n ≠ 0) :
    2 ^ (bitLength n n - 1) ≤ n ∧ n < 2 ^ bitLength n n ∧ 1 ≤ bitLength n n := by
  rw [bitLength_eq n n le_rfl]
  simp only [hn, if_false, Nat.add_sub_cancel]
  exact ⟨Nat.pow_log_le_self 2 hn, Nat.lt_pow_succ_log_self (by norm_num) n, by omega⟩

/-- What `ilog2` computes of a nonzero rational: its binary exponent. -/
theorem ilog2_spec (q : ℚ) (hq : q ≠ 0) :
    (2 : ℚ) ^ ilog2 q ≤ |q| ∧ |q| < 2 ^ (ilog2 q + 1) := by
  have ha : q.num.natAbs ≠ 0 := by
    simpa using hq
  have hb : q.den ≠ 0 := q.den_nz
  have hqa : |q| = (q.num.natAbs : ℚ) / (q.den : ℚ) := by
    rw [Rat.abs_def, Rat.divInt_eq_div]
    push_cast
    rw [Nat.cast_natAbs]
    push_cast
    rfl
  obtain ⟨a1, a2, a3⟩ := bitLength_spec _ ha
  obtain ⟨b1, b2, b3⟩ := bitLength_spec _ hb
  have hbpos : (0 : ℚ) < q.den := by exact_mod_cast Nat.pos_of_ne_zero hb
  unfold ilog2
  generalize bitLength q.num.natAbs q.num.natAbs = la at a1 a2 a3
  generalize bitLength q.den q.den = lb at b1 b2 b3
  obtain ⟨la, rfl⟩ : ∃ k, la = k + 1 := ⟨la - 1, by omega⟩
  obtain ⟨lb, rfl⟩ : ∃ k, lb = k + 1 := ⟨lb - 1, by omega⟩
  simp only [Nat.add_sub_cancel] at a1 b1
  have a1' : (2 : ℚ) ^ la ≤ (q.num.natAbs : ℚ) := by exact_mod_cast a1
  have a2' : (q.num.natAbs : ℚ) < 2 ^ (la + 1) := by exact_mod_cast a2
  have b1' : (2 : ℚ) ^ lb ≤ (q.den : ℚ) := by exact_mod_cast b1
  have b2' : (q.den : ℚ) < 2 ^ (lb + 1) := by exact_mod_cast b2
  have he : (((la + 1 : ℕ) : ℤ) - ((lb + 1 : ℕ) : ℤ)) = (la : ℤ) - lb := by push_cast; ring
  simp only [he]
  have hup : |q| < 2 ^ ((la : ℤ) - lb + 1) := by
    rw [hqa, div_lt_iff₀ hbpos]
    calc (q.num.natAbs : ℚ) < 2 ^ (la + 1) := a2'
      _ = 2 ^ ((la : ℤ) - lb + 1) * 2 ^ lb := by
        rw [← zpow_natCast, ← zpow_natCast, ← zpow_add₀ (by norm_num : (2 : ℚ) ≠ 0)]
        congr 1
        push_cast
        ring
      _ ≤ 2 ^ ((la : ℤ) - lb + 1) * q.den :=
        mul_le_mul_of_nonneg_left b1' (zpow_pos (by norm_num) _).le
  have hlo : (2 : ℚ) ^ ((la : ℤ) - lb - 1) ≤ |q| := by
    rw [hqa, le_div_iff₀ hbpos]
    calc (2 : ℚ) ^ ((la : ℤ) - lb - 1) * q.den
        ≤ 2 ^ ((la : ℤ) - lb - 1) * 2 ^ (lb + 1) :=
          mul_le_mul_of_nonneg_left b2'.le (zpow_pos (by norm_num) _).le
      _ = 2 ^ la := by
        rw [← zpow_natCast, ← zpow_natCast, ← zpow_add₀ (by norm_num : (2 : ℚ) ≠ 0)]
        congr 1
        push_cast
        ring
      _ ≤ _ := a1'
  split_ifs with h
  · exact ⟨h, hup⟩
  · refine ⟨hlo, ?_⟩
    rw [show (la : ℤ) - lb - 1 + 1 = (la : ℤ) - lb by ring]
    exact not_le.mp h

/-- Function `ilog2` is the floor of the binary logarithm. -/
theorem ilog2_eq (q : ℚ) (hq : q ≠ 0) : ilog2 q = Int.log 2 |q| := by
  obtain ⟨h1, h2⟩ := ilog2_spec q hq
  have hpos : 0 < |q| := abs_pos.mpr hq
  have c1 : ilog2 q ≤ Int.log 2 |q| := by
    rw [← Int.zpow_le_iff_le_log (by norm_num) hpos]
    simpa using h1
  have c2 : Int.log 2 |q| < ilog2 q + 1 := by
    rw [← Int.lt_zpow_iff_log_lt (by norm_num) hpos]
    simpa using h2
  omega

theorem roundHalfEven_natCast (n : ℕ) : roundHalfEven (n : ℚ) = n := by
  simp [roundHalfEven]

theorem roundHalfEven_le (x : ℚ) (hx : 0 ≤ x) (N : ℕ) (h : x ≤ N) : roundHalfEven x ≤ N := by
  have hf : ⌊x⌋₊ ≤ N := Nat.floor_le_of_le h
  have hfx : ((⌊x⌋₊ : ℕ) : ℚ) ≤ x := Nat.floor_le hx
  have hstep : (1 : ℚ) / 2 ≤ x - ⌊x⌋₊ → ⌊x⌋₊ + 1 ≤ N := by
    intro hr
    have hlt : ((⌊x⌋₊ : ℕ) : ℚ) < N := by linarith
    exact_mod_cast hlt
  unfold roundHalfEven
  simp only
  split_ifs with h1 h2 h3
  · exact hf
  · exact hstep (by linarith)
  · exact hf
  · exact hstep (not_lt.mp h1)

theorem two_zpow_pos (k : ℤ) : (0 : ℚ) < 2 ^ k := zpow_pos (by norm_num) k

/-- The exponent `round32` works with, for a positive `q`: `q` is below the
next power of two. -/
theorem lt_two_zpow_exponent (q : ℚ) :
    q < 2 ^ (max (Int.log 2 q) (-126) + 1) := by
  have h1 : q < ((2 : ℕ) : ℚ) ^ (Int.log 2 q + 1) := Int.lt_zpow_succ_log_self (by norm_num) q
  have h2 : ((2 : ℕ) : ℚ) ^ (Int.log 2 q + 1) ≤ ((2 : ℕ) : ℚ) ^ (max (Int.log 2 q) (-126) + 1) :=
    zpow_le_zpow_right₀ (by norm_num) (by have := le_max_left (Int.log 2 q) (-126); omega)
  have := lt_of_lt_of_le h1 h2
  simpa using this

/-- Rounding a positive rational: the nearest multiple of the spacing of its
binade, or infinity. -/
theorem round32_of_pos (q : ℚ) (hq : 0 < q) :
    round32 q =
      if (2 : ℚ) ^ 128 ≤
          roundHalfEven (q / 2 ^ (max (Int.log 2 q) (-126) - 23)) *
            2 ^ (max (Int.log 2 q) (-126) - 23) then
        F32.inf false
      else
        F32.fin (roundHalfEven (q / 2 ^ (max (Int.log 2 q) (-126) - 23)) *
          2 ^ (max (Int.log 2 q) (-126) - 23)) := by
  unfold round32
  rw [ilog2_eq q hq.ne']
  simp only [hq.ne', if_false, abs_of_pos hq, not_lt.mpr hq.le, decide_False]
  split_ifs with h1 h2
  · rfl
  · simp [h2]
  · rfl

/-- A positive multiple `m * 2^k` of a power of two with `m < 2^24`,
`k ≥ -149`, below `2^128`, is a binary32 value: rounding leaves it. -/
theorem round32_exact_pos (m : ℕ) (k : ℤ) (hm0 : 0 < m) (hm : m < 2 ^ 24) (hk : -149 ≤ k)
    (hlt : (m : ℚ) * 2 ^ k < 2 ^ 128) : round32 ((m : ℚ) * 2 ^ k) = F32.fin ((m : ℚ) * 2 ^ k) := by
  have hm0' : (0 : ℚ) < m := by exact_mod_cast hm0
  have hq : (0 : ℚ) < (m : ℚ) * 2 ^ k := mul_pos hm0' (two_zpow_pos k)
  rw [round32_of_pos _ hq]
  generalize he : max (Int.log 2 ((m : ℚ) * 2 ^ k)) (-126) = e
  -- the spacing divides the value
  have hek : e - 23 ≤ k := by
    rcases le_total (Int.log 2 ((m : ℚ) * 2 ^ k)) (-126) with h | h
    · rw [max_eq_right h] at he
      omega
    · rw [max_eq_left h] at he
      have h1 : ((2 : ℕ) : ℚ) ^ Int.log 2 ((m : ℚ) * 2 ^ k) ≤ (m : ℚ) * 2 ^ k :=
        Int.zpow_log_le_self (by norm_num) hq
      have h2 : (m : ℚ) * 2 ^ k < 2 ^ (24 + k) := by
        rw [zpow_add₀ (by norm_num : (2 : ℚ) ≠ 0)]
        have : (m : ℚ) < 2 ^ (24 : ℤ) := by
          have h24 : (m : ℚ) < ((2 ^ 24 : ℕ) : ℚ) := by exact_mod_cast hm
          have e24 : (((2 ^ 24 : ℕ) : ℚ)) = 2 ^ (24 : ℤ) := by norm_num
          rwa [e24] at h24
        exact mul_lt_mul_of_pos_right this (two_zpow_pos k)
      have h3 : (2 : ℚ) ^ Int.log 2 ((m : ℚ) * 2 ^ k) < 2 ^ (24 + k) := by
        have : (2 : ℚ) ^ Int.log 2 ((m : ℚ) * 2 ^ k) ≤ (m : ℚ) * 2 ^ k := by simpa using h1
        exact lt_of_le_of_lt this h2
      have h4 := (zpow_lt_zpow_iff_right₀ (by norm_num : (1 : ℚ) < 2)).mp h3
      omega
  obtain ⟨j, hj⟩ : ∃ j : ℕ, k = e - 23 + j := ⟨(k - (e - 23)).toNat, by omega⟩
  have hdiv : (m : ℚ) * 2 ^ k / 2 ^ (e - 23) = ((m * 2 ^ j : ℕ) : ℚ) := by
    rw [hj, zpow_add₀ (by norm_num : (2 : ℚ) ≠ 0), zpow_natCast]
    have := two_zpow_pos (e - 23)
    field_simp
    ring
  rw [hdiv, roundHalfEven_natCast]
  have hback : ((m * 2 ^ j : ℕ) : ℚ) * 2 ^ (e - 23) = (m : ℚ) * 2 ^ k := by
    rw [← hdiv]
    have := two_zpow_pos (e - 23)
    field_simp
  rw [hback, if_neg (not_le.mpr hlt)]

theorem round32_exact (m : ℕ) (k : ℤ) (hm : m < 2 ^ 24) (hk : -149 ≤ k)
    (hlt : (m : ℚ) * 2 ^ k < 2 ^ 128) : round32 ((m : ℚ) * 2 ^ k) = F32.fin ((m : ℚ) * 2 ^ k) := by
  rcases Nat.eq_zero_or_pos m with h0 | h0
  · subst h0
    simp [round32]
  · exact round32_exact_pos m k h0 hm hk hlt

/-- What `round32` gives for a positive `q` is a binary32 value again. -/
theorem round32_spacing_exact (n : ℕ) (e : ℤ) (hn : n ≤ 2 ^ 24) (he : -126 ≤ e)
    (hlt : (n : ℚ) * 2 ^ (e - 23) < 2 ^ 128) :
    round32 ((n : ℚ) * 2 ^ (e - 23)) = F32.fin ((n : ℚ) * 2 ^ (e - 23)) := by
  rcases Nat.lt_or_ge n (2 ^ 24) with h | h
  · exact round32_exact n (e - 23) h (by omega) hlt
  · have hn24 : n = 2 ^ 24 := le_antisymm hn h
    have heq : (n : ℚ) * 2 ^ (e - 23) = ((2 ^ 23 : ℕ) : ℚ) * 2 ^ (e - 22) := by
      rw [hn24, show e - 22 = e - 23 + 1 by ring, zpow_add₀ (by norm_num : (2 : ℚ) ≠ 0)]
      push_cast
      ring
    rw [heq] at hlt ⊢
    exact round32_exact (2 ^ 23) (e - 22) (by norm_num) (by omega) hlt

/-- For a positive `q`, the quotient by the spacing is below `2^24`. -/
theorem quotient_lt (q : ℚ) :
    q / 2 ^ (max (Int.log 2 q) (-126) - 23) < 2 ^ 24 := by
  have h := lt_two_zpow_exponent q
  have hu := two_zpow_pos (max (Int.log 2 q) (-126) - 23)
  rw [div_lt_iff₀ hu]
  have : (2 : ℚ) ^ 24 * 2 ^ (max (Int.log 2 q) (-126) - 23) =
      2 ^ (max (Int.log 2 q) (-126) + 1) := by
    rw [show max (Int.log 2 q) (-126) + 1 = 24 + (max (Int.log 2 q) (-126) - 23) by ring,
      zpow_add₀ (by norm_num : (2 : ℚ) ≠ 0)]
    norm_num
  rw [this]
  exact h

theorem roundHalfEven_quotient_le (q : ℚ) (hq : 0 < q) :
    roundHalfEven (q / 2 ^ (max (Int.log 2 q) (-126) - 23)) ≤ 2 ^ 24 := by
  have hu := two_zpow_pos (max (Int.log 2 q) (-126) - 23)
  apply roundHalfEven_le _ (div_nonneg hq.le hu.le)
  have := quotient_lt q
  push_cast
  exact this.le

/-- The spacing of the binade of a binary32 value divides it. -/
theorem spacing_divides (m : ℕ) (k : ℤ) (hm0 : 0 < m) (hm : m < 2 ^ 24) (hk : -149 ≤ k) :
    ∃ N : ℕ, (m : ℚ) * 2 ^ k / 2 ^ (max (Int.log 2 ((m : ℚ) * 2 ^ k)) (-126) - 23) = (N : ℚ) := by
  have hm0' : (0 : ℚ) < m := by exact_mod_cast hm0
  have hq : (0 : ℚ) < (m : ℚ) * 2 ^ k := mul_pos hm0' (two_zpow_pos k)
  generalize he : max (Int.log 2 ((m : ℚ) * 2 ^ k)) (-126) = e
  have hek : e - 23 ≤ k := by
    rcases le_total (Int.log 2 ((m : ℚ) * 2 ^ k)) (-126) with h | h
    · rw [max_eq_right h] at he
      omega
    · rw [max_eq_left h] at he
      have h1 : ((2 : ℕ) : ℚ) ^ Int.log 2 ((m : ℚ) * 2 ^ k) ≤ (m : ℚ) * 2 ^ k :=
        Int.zpow_log_le_self (by norm_num) hq
      have h2 : (m : ℚ) * 2 ^ k < 2 ^ (24 + k) := by
        rw [zpow_add₀ (by norm_num : (2 : ℚ) ≠ 0)]
        have : (m : ℚ) < 2 ^ (24 : ℤ) := by
          have h24 : (m : ℚ) < ((2 ^ 24 : ℕ) : ℚ) := by exact_mod_cast hm
          have e24 : (((2 ^ 24 : ℕ) : ℚ)) = 2 ^ (24 : ℤ) := by norm_num
          rwa [e24] at h24
        exact mul_lt_mul_of_pos_right this (two_zpow_pos k)
      have h3 : (2 : ℚ) ^ Int.log 2 ((m : ℚ) * 2 ^ k) < 2 ^ (24 + k) := by
        have : (2 : ℚ) ^ Int.log 2 ((m : ℚ) * 2 ^ k) ≤ (m : ℚ) * 2 ^ k := by simpa using h1
        exact lt_of_le_of_lt this h2
      have h4 := (zpow_lt_zpow_iff_right₀ (by norm_num : (1 : ℚ) < 2)).mp h3
      omega
  obtain ⟨j, hj⟩ : ∃ j : ℕ, k = e - 23 + j := ⟨(k - (e - 23)).toNat, by omega⟩
  refine ⟨m * 2 ^ j, ?_⟩
  rw [hj, zpow_add₀ (by norm_num : (2 : ℚ) ≠ 0), zpow_natCast]
  have := two_zpow_pos (e - 23)
  field_simp
  ring

/-- Rounding keeps a non-negative value between 0 and any binary32 value above
it, and gives a binary32 value. -/
theorem round32_le_of_le (q : ℚ) (hq : 0 ≤ q) (M : ℕ) (K : ℤ) (hM : M < 2 ^ 24) (hK : -149 ≤ K)
    (hB : (M : ℚ) * 2 ^ K < 2 ^ 128) (hqB : q ≤ (M : ℚ) * 2 ^ K) :
    ∃ r : ℚ, round32 q = F32.fin r ∧ 0 ≤ r ∧ r ≤ (M : ℚ) * 2 ^ K ∧ round32 r = F32.fin r := by
  rcases hq.eq_or_lt with h0 | hpos
  · subst h0
    exact ⟨0, by simp [round32], le_rfl, hqB, by simp [round32]⟩
  have hBpos : (0 : ℚ) < (M : ℚ) * 2 ^ K := lt_of_lt_of_le hpos hqB
  have hM0 : 0 < M := by
    rcases Nat.eq_zero_or_pos M with h | h
    · subst h; simp at hBpos
    · exact h
  have hu := two_zpow_pos (max (Int.log 2 q) (-126) - 23)
  have hn24 := roundHalfEven_quotient_le q hpos
  have hle : (roundHalfEven (q / 2 ^ (max (Int.log 2 q) (-126) - 23)) : ℚ) *
      2 ^ (max (Int.log 2 q) (-126) - 23) ≤ (M : ℚ) * 2 ^ K := by
    have hmono : Int.log 2 q ≤ Int.log 2 ((M : ℚ) * 2 ^ K) := Int.log_mono_right hpos hqB
    rcases lt_or_ge (max (Int.log 2 q) (-126)) (max (Int.log 2 ((M : ℚ) * 2 ^ K)) (-126))
      with hlt | hge
    · -- the bound lies in a higher binade
      have hBe : max (Int.log 2 ((M : ℚ) * 2 ^ K)) (-126) = Int.log 2 ((M : ℚ) * 2 ^ K) := by
        apply max_eq_left
        have := le_max_right (Int.log 2 q) (-126)
        rcases le_total (Int.log 2 ((M : ℚ) * 2 ^ K)) (-126) with h | h
        · rw [max_eq_right h] at hlt
          omega
        · exact h
      have h1 : ((2 : ℕ) : ℚ) ^ Int.log 2 ((M : ℚ) * 2 ^ K) ≤ (M : ℚ) * 2 ^ K :=
        Int.zpow_log_le_self (by norm_num) hBpos
      have h2 : (2 : ℚ) ^ (max (Int.log 2 q) (-126) + 1) ≤
          2 ^ Int.log 2 ((M : ℚ) * 2 ^ K) :=
        zpow_le_zpow_right₀ (by norm_num) (by omega)
      have h3 : (roundHalfEven (q / 2 ^ (max (Int.log 2 q) (-126) - 23)) : ℚ) *
          2 ^ (max (Int.log 2 q) (-126) - 23) ≤ 2 ^ (max (Int.log 2 q) (-126) + 1) := by
        rw [show max (Int.log 2 q) (-126) + 1 = 24 + (max (Int.log 2 q) (-126) - 23) by ring,
          zpow_add₀ (by norm_num : (2 : ℚ) ≠ 0)]
        apply mul_le_mul_of_nonneg_right _ hu.le
        have : (roundHalfEven (q / 2 ^ (max (Int.log 2 q) (-126) - 23)) : ℚ) ≤
            ((2 ^ 24 : ℕ) : ℚ) := by exact_mod_cast hn24
        have e24 : (((2 ^ 24 : ℕ) : ℚ)) = 2 ^ (24 : ℤ) := by norm_num
        rwa [e24] at this
      have h1' : (2 : ℚ) ^ Int.log 2 ((M : ℚ) * 2 ^ K) ≤ (M : ℚ) * 2 ^ K := by simpa using h1
      linarith
    · -- the bound lies in the same binade
      have heq : max (Int.log 2 q) (-126) = max (Int.log 2 ((M : ℚ) * 2 ^ K)) (-126) :=
        le_antisymm (max_le_max hmono le_rfl) hge
      obtain ⟨N, hN⟩ := spacing_divides M K hM0 hM hK
      rw [← heq] at hN
      have hqN : q / 2 ^ (max (Int.log 2 q) (-126) - 23) ≤ (N : ℚ) := by
        rw [← hN]
        exact div_le_div_of_nonneg_right hqB hu.le
      have hr := roundHalfEven_le _ (div_nonneg hpos.le hu.le) N hqN
      have hr' : (roundHalfEven (q / 2 ^ (max (Int.log 2 q) (-126) - 23)) : ℚ) ≤ (N : ℚ) := by
        exact_mod_cast hr
      calc (roundHalfEven (q / 2 ^ (max (Int.log 2 q) (-126) - 23)) : ℚ) *
            2 ^ (max (Int.log 2 q) (-126) - 23)
          ≤ (N : ℚ) * 2 ^ (max (Int.log 2 q) (-126) - 23) :=
            mul_le_mul_of_nonneg_right hr' hu.le
        _ = (M : ℚ) * 2 ^ K := by
            rw [← hN]
            field_simp
  have hno : ¬ ((2 : ℚ) ^ 128 ≤ (roundHalfEven (q / 2 ^ (max (Int.log 2 q) (-126) - 23)) : ℚ) *
      2 ^ (max (Int.log 2 q) (-126) - 23)) := not_le.mpr (lt_of_le_of_lt hle hB)
  refine ⟨_, by rw [round32_of_pos q hpos, if_neg hno], ?_, hle, ?_⟩
  · exact mul_nonneg (Nat.cast_nonneg _) hu.le
  · exact round32_spacing_exact _ _ hn24 (le_max_right _ _) (not_le.mp hno)

/-- A binary32 value in `[0,1)` is at most `1 - 2^-24`. -/
theorem le_pred_one (x : ℚ) (hx : round32 x = F32.fin x) (h1 : x < 1) :
    x ≤ 1 - 1 / 2 ^ 24 := by
  rcases lt_or_ge x (1 / 2) with hlt | hge
  · have : (1 : ℚ) / 2 ≤ 1 - 1 / 2 ^ 24 := by norm_num
    linarith
  have hpos : 0 < x := by linarith
  have hlog : Int.log 2 x = -1 := by
    have ha : -1 ≤ Int.log 2 x := by
      rw [← Int.zpow_le_iff_le_log (by norm_num) hpos]
      norm_num
      linarith
    have hb : Int.log 2 x < 0 := by
      rw [← Int.lt_zpow_iff_log_lt (by norm_num) hpos]
      simpa using h1
    omega
  rw [round32_of_pos x hpos, hlog] at hx
  have he : max (-1 : ℤ) (-126) - 23 = -24 := by norm_num
  rw [he] at hx
  split_ifs at hx with hov
  generalize roundHalfEven (x / 2 ^ (-24 : ℤ)) = n at hx
  have hval : (n : ℚ) * 2 ^ (-24 : ℤ) = x := by
    injection hx
  have hpow : (2 : ℚ) ^ (-24 : ℤ) = 1 / 2 ^ 24 := by norm_num
  rw [hpow] at hval
  have hn : n < 2 ^ 24 := by
    have : (n : ℚ) < ((2 ^ 24 : ℕ) : ℚ) := by
      push_cast
      have hp : (0 : ℚ) < 1 / 2 ^ 24 := by norm_num
      nlinarith
    exact_mod_cast this
  have hn' : (n : ℚ) ≤ 2 ^ 24 - 1 := by
    have h2 : n + 1 ≤ 2 ^ 24 := hn
    have h3 : ((n + 1 : ℕ) : ℚ) ≤ ((2 ^ 24 : ℕ) : ℚ) := by exact_mod_cast h2
    push_cast at h3
    linarith
  rw [← hval]
  have hp : (0 : ℚ) < 1 / 2 ^ 24 := by norm_num
  nlinarith


/-- A positive binary32 value has the form `M * 2^K` with `M < 2^24`,
`K ≥ -149`, below `2^128`. -/
theorem rep_form (B : ℚ) (hB : 0 < B) (h : round32 B = F32.fin B) :
    ∃ (M : ℕ) (K : ℤ), M < 2 ^ 24 ∧ -149 ≤ K ∧ (M : ℚ) * 2 ^ K < 2 ^ 128 ∧ B = (M : ℚ) * 2 ^ K := by
  rw [round32_of_pos B hB] at h
  split_ifs at h with hov
  have hval := F32.fin.inj h
  have hn := roundHalfEven_quotient_le B hB
  have hlt := lt_two_zpow_exponent B
  generalize roundHalfEven (B / 2 ^ (max (Int.log 2 B) (-126) - 23)) = n at hval hn hov
  generalize he : max (Int.log 2 B) (-126) = e at hval hov hlt
  have he126 : -126 ≤ e := by rw [← he]; exact le_max_right _ _
  refine ⟨n, e - 23, ?_, by omega, ?_, hval.symm⟩
  · rcases Nat.lt_or_ge n (2 ^ 24) with h1 | h1
    · exact h1
    · have h2 : n = 2 ^ 24 := le_antisymm hn h1
      exfalso
      rw [h2] at hval
      have : ((2 ^ 24 : ℕ) : ℚ) * 2 ^ (e - 23) = 2 ^ (e + 1) := by
        rw [show e + 1 = 24 + (e - 23) by ring, zpow_add₀ (by norm_num : (2 : ℚ) ≠ 0)]
        norm_num
      rw [this] at hval
      rw [hval] at hlt
      exact lt_irrefl _ hlt
  · rw [hval]
    exact not_le.mp (by rwa [hval] at hov)

theorem roundHalfEven_ge (x : ℚ) (N : ℕ) (h : (N : ℚ) ≤ x) : N ≤ roundHalfEven x := by
  have hf : N ≤ ⌊x⌋₊ := Nat.le_floor h
  unfold roundHalfEven
  simp only
  split_ifs <;> omega

/-- Rounding keeps a lower bound that is itself a positive binary32 value. -/
theorem round32_ge_of_ge (q A : ℚ) (hA : 0 < A) (hArep : round32 A = F32.fin A) (hAq : A ≤ q) :
    round32 q = F32.inf false ∨ ∃ r : ℚ, round32 q = F32.fin r ∧ A ≤ r := by
  have hq : 0 < q := lt_of_lt_of_le hA hAq
  obtain ⟨M, K, hM, hK, hlt, rfl⟩ := rep_form A hA hArep
  have hM0 : 0 < M := by
    rcases Nat.eq_zero_or_pos M with h | h
    · subst h; simp at hA
    · exact h
  rw [round32_of_pos q hq]
  split_ifs with hov
  · exact Or.inl rfl
  · refine Or.inr ⟨_, rfl, ?_⟩
    have hu := two_zpow_pos (max (Int.log 2 q) (-126) - 23)
    have hmono : Int.log 2 ((M : ℚ) * 2 ^ K) ≤ Int.log 2 q := Int.log_mono_right hA hAq
    rcases lt_or_ge (max (Int.log 2 ((M : ℚ) * 2 ^ K)) (-126)) (max (Int.log 2 q) (-126))
      with hlt2 | hge2
    · -- the bound lies in a lower binade
      have hqe : max (Int.log 2 q) (-126) = Int.log 2 q := by
        apply max_eq_left
        have := le_max_right (Int.log 2 ((M : ℚ) * 2 ^ K)) (-126)
        rcases le_total (Int.log 2 q) (-126) with h | h
        · rw [max_eq_right h] at hlt2; omega
        · exact h
      have h1 : ((2 : ℕ) : ℚ) ^ Int.log 2 q ≤ q := Int.zpow_log_le_self (by norm_num) hq
      have h1' : (2 : ℚ) ^ Int.log 2 q ≤ q := by simpa using h1
      have hA2 := lt_two_zpow_exponent ((M : ℚ) * 2 ^ K)
      have h2 : (2 : ℚ) ^ (max (Int.log 2 ((M : ℚ) * 2 ^ K)) (-126) + 1) ≤ 2 ^ Int.log 2 q :=
        zpow_le_zpow_right₀ (by norm_num) (by rw [hqe] at hlt2; omega)
      have h3 : ((2 ^ 23 : ℕ) : ℚ) ≤ q / 2 ^ (max (Int.log 2 q) (-126) - 23) := by
        rw [le_div_iff₀ hu, hqe]
        have : ((2 ^ 23 : ℕ) : ℚ) * 2 ^ (Int.log 2 q - 23) = 2 ^ Int.log 2 q := by
          rw [show Int.log 2 q = 23 + (Int.log 2 q - 23) by ring,
            zpow_add₀ (by norm_num : (2 : ℚ) ≠ 0)]
          norm_num
        rw [this]
        exact h1'
      have h4 := roundHalfEven_ge _ _ h3
      have h5 : ((2 ^ 23 : ℕ) : ℚ) ≤
          (roundHalfEven (q / 2 ^ (max (Int.log 2 q) (-126) - 23)) : ℚ) := by
        exact_mod_cast h4
      calc (M : ℚ) * 2 ^ K ≤ 2 ^ Int.log 2 q := (hA2.trans_le h2).le
        _ = ((2 ^ 23 : ℕ) : ℚ) * 2 ^ (max (Int.log 2 q) (-126) - 23) := by
          rw [hqe]
          rw [show (2 : ℚ) ^ Int.log 2 q = 2 ^ (23 + (Int.log 2 q - 23)) by ring_nf,
            zpow_add₀ (by norm_num : (2 : ℚ) ≠ 0)]
          norm_num
        _ ≤ _ := mul_le_mul_of_nonneg_right h5 hu.le
    · -- the bound lies in the same binade
      have heq : max (Int.log 2 q) (-126) = max (Int.log 2 ((M : ℚ) * 2 ^ K)) (-126) :=
        le_antisymm hge2 (max_le_max hmono le_rfl)
      obtain ⟨N, hN⟩ := spacing_divides M K hM0 hM hK
      rw [← heq] at hN
      have hNq : (N : ℚ) ≤ q / 2 ^ (max (Int.log 2 q) (-126) - 23) := by
        rw [← hN]
        exact div_le_div_of_nonneg_right hAq hu.le
      have h4 := roundHalfEven_ge _ _ hNq
      have h5 : (N : ℚ) ≤ (roundHalfEven (q / 2 ^ (max (Int.log 2 q) (-126) - 23)) : ℚ) := by
        exact_mod_cast h4
      calc (M : ℚ) * 2 ^ K = (N : ℚ) * 2 ^ (max (Int.log 2 q) (-126) - 23) := by
            rw [← hN]
            field_simp
        _ ≤ _ := mul_le_mul_of_nonneg_right h5 hu.le

theorem ilog2_neg (q : ℚ) : ilog2 (-q) = ilog2 q := by
  unfold ilog2
  simp only [Rat.neg_num, Rat.neg_den, Int.natAbs_neg, abs_neg]

/-- Rounding commutes with negation (away from zero). -/
theorem round32_neg (q : ℚ) (hq : q ≠ 0) : round32 (-q) = F32.neg (round32 q) := by
  unfold round32
  rw [ilog2_neg]
  simp only [neg_eq_zero, hq, if_false, abs_neg]
  generalize max (ilog2 q) (-126) = e
  have hu := two_zpow_pos (e - 23)
  generalize roundHalfEven (|q| / 2 ^ (e - 23)) = n
  rcases lt_or_gt_of_ne hq with hneg | hpos
  · have h1 : ¬ (-q < 0) := by linarith
    simp only [h1, hneg, decide_True, decide_False, if_true, if_false]
    split_ifs with ha hb
    · rfl
    · simp [F32.neg, hb]
    · have hne : -((n : ℚ) * 2 ^ (e - 23)) ≠ 0 := by
        have : (0 : ℚ) < n := by exact_mod_cast Nat.pos_of_ne_zero hb
        have := mul_pos this hu
        linarith
      simp [F32.neg, hne]
  · have h1 : -q < 0 := by linarith
    have h2 : ¬ (q < 0) := by linarith
    simp only [h1, h2, decide_True, decide_False, if_true, if_false]
    split_ifs with ha hb
    · rfl
    · simp [F32.neg, hb]
    · have hne : (n : ℚ) * 2 ^ (e - 23) ≠ 0 := by
        have : (0 : ℚ) < n := by exact_mod_cast Nat.pos_of_ne_zero hb
        exact (mul_pos this hu).ne'
      simp [F32.neg, hne]

/-- The negative of a binary32 value is one. -/
theorem rep_neg (x : ℚ) (h : round32 x = F32.fin x) : round32 (-x) = F32.fin (-x) := by
  by_cases hx : x = 0
  · subst hx; simp [round32]
  · rw [round32_neg x hx, h]
    simp [F32.neg, hx]

/-- Rounding of a positive rational between two binary32 values stays between
them. -/
theorem round32_between_pos (q A B : ℚ) (hq : 0 < q) (hA : round32 A = F32.fin A)
    (hB : round32 B = F32.fin B) (hAq : A ≤ q) (hqB : q ≤ B) :
    ∃ r : ℚ, round32 q = F32.fin r ∧ A ≤ r ∧ r ≤ B ∧ 0 ≤ r ∧ round32 r = F32.fin r := by
  have hBpos : 0 < B := lt_of_lt_of_le hq hqB
  obtain ⟨M, K, hM, hK, hlt, rfl⟩ := rep_form B hBpos hB
  obtain ⟨r, hr, hr0, hrB, hrep⟩ := round32_le_of_le q hq.le M K hM hK hlt hqB
  refine ⟨r, hr, ?_, hrB, hr0, hrep⟩
  rcases le_or_lt A 0 with hA0 | hA0
  · linarith
  · rcases round32_ge_of_ge q A hA0 hA hAq with h | ⟨r2, hr2, hAr⟩
    · rw [hr] at h; exact absurd h (by simp)
    · rw [hr] at hr2
      rw [F32.fin.inj hr2]
      exact hAr

/-- Rounding is monotone: the rounding of a rational between two binary32
values is finite and its value stays between them. -/
theorem round32_between (q A B : ℚ) (hA : round32 A = F32.fin A) (hB : round32 B = F32.fin B)
    (hAq : A ≤ q) (hqB : q ≤ B) :
    (round32 q = F32.fin (round32 q).toRat ∨ round32 q = F32.negZero) ∧
      A ≤ (round32 q).toRat ∧ (round32 q).toRat ≤ B ∧
      round32 (round32 q).toRat = F32.fin (round32 q).toRat := by
  rcases lt_trichotomy q 0 with hneg | h0 | hpos
  · obtain ⟨r, hr, h1, h2, h3, h4⟩ := round32_between_pos (-q) (-B) (-A) (by linarith)
      (rep_neg B hB) (rep_neg A hA) (by linarith) (by linarith)
    have hqq : round32 q = F32.neg (F32.fin r) := by
      have := round32_neg (-q) (by linarith)
      rw [neg_neg, hr] at this
      exact this
    by_cases hr0 : r = 0
    · subst hr0
      have : round32 q = F32.negZero := by rw [hqq]; simp [F32.neg]
      rw [this]
      refine ⟨Or.inr rfl, ?_, ?_, ?_⟩
      · show A ≤ 0; linarith
      · show (0 : ℚ) ≤ B; linarith
      · show round32 0 = F32.fin 0; simp [round32]
    · have : round32 q = F32.fin (-r) := by rw [hqq]; simp [F32.neg, hr0]
      rw [this]
      refine ⟨Or.inl rfl, ?_, ?_, ?_⟩
      · show A ≤ -r; linarith
      · show -r ≤ B; linarith
      · exact rep_neg r h4
  · subst h0
    have : round32 0 = F32.fin 0 := by simp [round32]
    rw [this]
    exact ⟨Or.inl rfl, hAq, hqB, this⟩
  · obtain ⟨r, hr, h1, h2, _, h4⟩ := round32_between_pos q A B hpos hA hB hAq hqB
    rw [hr]
    exact ⟨Or.inl rfl, h1, h2, h4⟩

/-- Rounding a non-negative rational gives a non-negative finite value or the
positive infinity. -/
theorem round32_nonneg (q : ℚ) (hq : 0 ≤ q) :
    round32 q = F32.inf false ∨ ∃ r : ℚ, round32 q = F32.fin r ∧ 0 ≤ r := by
  rcases hq.eq_or_lt with h0 | hpos
  · subst h0
    exact Or.inr ⟨0, by simp [round32], le_rfl⟩
  · rw [round32_of_pos q hpos]
    split_ifs
    · exact Or.inl rfl
    · exact Or.inr ⟨_, rfl, mul_nonneg (Nat.cast_nonneg _) (two_zpow_pos _).le⟩
/-! ## Fader -/

@[simp] theorem F32.lt_fin (x y : ℚ) : F32.lt (F32.fin x) (F32.fin y) = decide (x < y) := rfl

@[simp] theorem F32.le_fin (x y : ℚ) : F32.le (F32.fin x) (F32.fin y) = decide (x ≤ y) := rfl

@[simp] theorem F32.abs_fin (x : ℚ) : F32.abs (F32.fin x) = F32.fin |x| := rfl

theorem F32.add_fin (a b : ℚ) : F32.add (F32.fin a) (F32.fin b) = round32 (a + b) := rfl

theorem round32_zero : round32 0 = F32.fin 0 := by simp [round32]

/-- Subtraction of finite values: the rounded exact difference. -/
theorem F32.sub_fin (a b : ℚ) : F32.sub (F32.fin a) (F32.fin b) = round32 (a - b) := by
  unfold F32.sub F32.neg
  by_cases hb : b = 0
  · subst hb
    simp [F32.add]
  · simp [hb, F32.add, sub_eq_add_neg]

/-- The sum `_now + copysignf(_delta, distance)` of finite values: the rounded
exact sum of `_now` and the magnitude of `_delta` with the sign of the
distance. -/
theorem F32.add_copysign_fin (a d D : ℚ) :
    F32.add (F32.fin a) (F32.copysign (F32.fin d) (F32.fin D)) =
      round32 (a + (if 0 ≤ D then |d| else -|d|)) := by
  unfold F32.copysign
  simp only [F32.abs_fin, F32.signBit]
  by_cases hD : 0 ≤ D
  · have : ¬ D < 0 := not_lt.mpr hD
    simp [hD, this, F32.add]
  · have hlt : D < 0 := not_le.mp hD
    by_cases hd : |d| = 0
    · simp [hD, hlt, hd, F32.add]
    · simp [hD, hlt, hd, F32.add]

theorem Fader.stepN_succ (n : Nat) (f : Fader) :
    f.stepN (n + 1) = ((f.stepN n).step).2 := by
  simp only [Fader.stepN, Function.iterate_succ_apply']

theorem Fader.stepN_succ_front (n : Nat) (f : Fader) :
    f.stepN (n + 1) = ((f.step).2).stepN n := by
  simp only [Fader.stepN, Function.iterate_succ_apply]

theorem Fader.stepN_add (m n : Nat) (f : Fader) :
    f.stepN (m + n) = (f.stepN n).stepN m := by
  simp only [Fader.stepN, Function.iterate_add_apply]

theorem Fader.stepN_fixed (f : Fader) (h : (f.step).2 = f) (n : Nat) : f.stepN n = f := by
  induction n with
  | zero => rfl
  | succ n ih => rw [Fader.stepN_succ, ih, h]

theorem Fader.step_idle (f : Fader) (h : f.adjusting = false) : f.step = (false, f) := by
  simp [Fader.step, h]

/-- With adjusting set `step()` snaps when `fabs(_delta) > fabs(distance)` holds
of the computed distance. -/
theorem Fader.step_snaps (f : Fader) (hadj : f.adjusting = true)
    (h : F32.gt (F32.abs f.delta) (F32.abs (F32.sub f.target f.now)) = true) :
    f.step = (true, { f with now := f.target, adjusting := false }) := by
  simp [Fader.step, hadj, h]

/-- With adjusting set `step()` adds the signed step when
`fabs(_delta) > fabs(distance)` does not hold of the computed distance. -/
theorem Fader.step_moves (f : Fader) (hadj : f.adjusting = true)
    (h : F32.gt (F32.abs f.delta) (F32.abs (F32.sub f.target f.now)) = false) :
    f.step = (true, { f with
      now := F32.add f.now (F32.copysign f.delta (F32.sub f.target f.now)) }) := by
  simp [Fader.step, hadj, h]

theorem Fader.step_delta (f : Fader) : (f.step).2.delta = f.delta := by
  simp only [Fader.step]
  split_ifs <;> rfl

theorem Fader.step_target (f : Fader) : (f.step).2.target = f.target := by
  simp only [Fader.step]
  split_ifs <;> rfl

/-- One `step()` with adjusting set, finite members and an exactly computed
distance: it snaps when the distance is smaller than the magnitude of
`_delta`, and otherwise stores the rounded sum of `_now` and the signed
step. -/
theorem Fader.step_of_exact_distance (f : Fader) (a t d : ℚ) (hnow : f.now = F32.fin a)
    (htarget : f.target = F32.fin t) (hdelta : f.delta = F32.fin d)
    (hadj : f.adjusting = true)
    (hsub : F32.sub (F32.fin t) (F32.fin a) = F32.fin (t - a)) :
    f.step = (true,
      if |t - a| < |d| then { f with now := f.target, adjusting := false }
      else { f with now := round32 (a + (if 0 ≤ t - a then |d| else -|d|)) }) := by
  rw [← htarget, ← hnow] at hsub
  by_cases hs : |t - a| < |d|
  · rw [if_pos hs]
    apply Fader.step_snaps f hadj
    rw [hsub, hdelta]
    simp [F32.gt, hs]
  · rw [if_neg hs]
    rw [Fader.step_moves f hadj (by rw [hsub, hdelta]; simp [F32.gt, hs])]
    rw [hsub, hdelta, hnow, F32.add_copysign_fin]

/-- What `exactStep` says of a state. -/
theorem Fader.exactStep_spec (f : Fader) (h : f.exactStep = true) :
    ∃ a t d : ℚ, f.now = F32.fin a ∧ f.target = F32.fin t ∧ f.delta = F32.fin d ∧
      F32.sub (F32.fin t) (F32.fin a) = F32.fin (t - a) ∧
      (|t - a| < |d| ∨
        round32 (a + (if 0 ≤ t - a then |d| else -|d|)) =
          F32.fin (a + (if 0 ≤ t - a then |d| else -|d|))) := by
  rcases f with ⟨dv, ds, adj, now, target, delta⟩
  cases now <;> cases target <;> cases delta <;>
    simp only [Fader.exactStep, Bool.and_eq_true, Bool.or_eq_true, decide_eq_true_eq,
      Bool.false_eq_true] at h
  rename_i a t d
  refine ⟨a, t, d, rfl, rfl, rfl, h.1, ?_⟩
  rcases h.2 with h2 | h2
  · exact Or.inl h2
  · rw [F32.add_copysign_fin] at h2
    exact Or.inr h2

/-- One `step()` whose arithmetic is exact, with adjusting set: it snaps when
the distance is smaller than the magnitude of `_delta`, and otherwise adds to
`_now` the magnitude of `_delta` with the sign of the distance. -/
theorem Fader.step_of_exact (f : Fader) (a t d : ℚ) (hnow : f.now = F32.fin a)
    (htarget : f.target = F32.fin t) (hdelta : f.delta = F32.fin d)
    (hadj : f.adjusting = true) (hex : f.exactStep = true) :
    f.step = (true,
      if |t - a| < |d| then { f with now := f.target, adjusting := false }
      else { f with now := F32.fin (a + (if 0 ≤ t - a then |d| else -|d|)) }) := by
  obtain ⟨a2, t2, d2, e1, e2, e3, hsub, hsum⟩ := Fader.exactStep_spec f hex
  obtain rfl : a = a2 := F32.fin.inj (hnow.symm.trans e1)
  obtain rfl : t = t2 := F32.fin.inj (htarget.symm.trans e2)
  obtain rfl : d = d2 := F32.fin.inj (hdelta.symm.trans e3)
  rw [Fader.step_of_exact_distance f a t d hnow htarget hdelta hadj hsub]
  by_cases hs : |t - a| < |d|
  · simp only [hs, if_true]
  · simp only [hs, if_false]
    rcases hsum with h | h
    · exact absurd h hs
    · rw [h]

theorem Fader.exactGlide_succ (n : ℕ) (f : Fader) :
    f.exactGlide (n + 1) = (f.exactStep && (f.step).2.exactGlide n) := by
  unfold Fader.exactGlide
  rw [List.range_succ_eq_map, List.all_cons, List.all_map]
  congr 1

theorem Fader.exactGlide_of_le (f : Fader) (n k : ℕ) (h : f.exactGlide n = true) (hk : k < n) :
    (f.stepN k).exactStep = true := by
  unfold Fader.exactGlide at h
  rw [List.all_eq_true] at h
  exact h k (List.mem_range.mpr hk)

/-! ## Fader: set, idle states -/

/-- C13. After `set(v)`, in every state and for every `v`: `get()` is `v`,
`getTarget()` is `v`, adjusting is clear, a following `step()` returns false
and leaves the state (so the value `v`) as it is, and `_delta` is what it was
before the `set`. -/
theorem Fader.set_immediate (f : Fader) (v : F32) :
    (f.set v).get = v ∧ (f.set v).getTarget = v ∧ (f.set v).adjusting = false ∧
    ((f.set v).step).1 = false ∧ ((f.set v).step).2 = f.set v ∧
    ((f.set v).step).2.get = v ∧ (f.set v).delta = f.delta := by
  have h : (f.set v).step = (false, f.set v) := Fader.step_idle (f.set v) rfl
  rw [h]
  exact ⟨rfl, rfl, rfl, rfl, rfl, rfl, rfl⟩

theorem Fader.step_keeps_idle_on_target (f : Fader)
    (hinv : f.adjusting = false → f.now = f.target)
    (h : (f.step).2.adjusting = false) : (f.step).2.now = (f.step).2.target := by
  cases hadj : f.adjusting with
  | false =>
    rw [Fader.step_idle f hadj]
    exact hinv hadj
  | true =>
    cases hs : F32.gt (F32.abs f.delta) (F32.abs (F32.sub f.target f.now)) with
    | true => rw [Fader.step_snaps f hadj hs]
    | false =>
      rw [Fader.step_moves f hadj hs] at h
      exact absurd (hadj.symm.trans h) (by decide)

/-- C17. In every fader state reachable from construction through `reset`,
`set`, `setTarget`, `setStepsRange` and `step`, a clear adjusting flag implies
that the current value equals the target. -/
theorem Fader.reachable_idle_on_target (f : Fader) (hreach : Fader.Reachable f)
    (hadj : f.adjusting = false) : f.now = f.target := by
  induction hreach with
  | construct value steps => rfl
  | reset _ _ => rfl
  | set value _ _ => rfl
  | setTarget target _ _ => exact absurd hadj (by simp [Fader.setTarget])
  | setStepsRange steps range _ ih => exact ih hadj
  | step _ ih => exact Fader.step_keeps_idle_on_target _ ih hadj

theorem lastStepFader_step :
    lastStepFader.step = (true, { lastStepFader with now := F32.fin 1, adjusting := false }) := by
  decide!

/-- C17, at a concrete input: a glide from 0 to 1 with `_delta = 2` ends after
one `step()`, with adjusting clear and the value on the target. -/
theorem Fader.reachable_idle_on_target_witness :
    Fader.Reachable (lastStepFader.step).2 ∧ (lastStepFader.step).2.adjusting = false ∧
    (lastStepFader.step).2.now = (lastStepFader.step).2.target := by
  have hr : Fader.Reachable (lastStepFader.step).2 :=
    Fader.Reachable.step (Fader.Reachable.setTarget (F32.fin 1) (Fader.Reachable.set (F32.fin 0)
      (Fader.Reachable.setStepsRange (F32.fin 1) (F32.fin 2)
        (Fader.Reachable.construct (F32.fin 0) (F32.fin 1000)))))
  have hadj : (lastStepFader.step).2.adjusting = false := by
    rw [lastStepFader_step]
  exact ⟨hr, hadj, Fader.reachable_idle_on_target _ hr hadj⟩

/-! ## Fader: the snap to the target -/

/-- C10 as stated fails. A fader at 0 gliding to 1 with `_delta = 1` has
adjusting set and a remaining distance equal to (so not greater than)
`_delta`; one `step()` returns true and lands on the target, but leaves
adjusting set. A fader at `0.3f` gliding to `0.1f` with
`_delta = fabs(0.1f - 0.3f)`, a remaining distance `0.3f - 0.1f` that is
smaller than `_delta`: one `step()` leaves adjusting set and moves the value to
the bit pattern `0x3dcccccc`, which is not the target `0x3dcccccd`. -/
theorem Fader.step_equal_distance_keeps_adjusting :
    (equalStepFader.adjusting = true ∧
      F32.le (F32.abs (F32.sub equalStepFader.target equalStepFader.now))
        equalStepFader.delta = true ∧
      (equalStepFader.step).1 = true ∧
      (equalStepFader.step).2.now = equalStepFader.target ∧
      (equalStepFader.step).2.adjusting = true) ∧
    (roundedDistanceFader.adjusting = true ∧
      |roundedDistanceFader.target.toRat - roundedDistanceFader.now.toRat| <
        roundedDistanceFader.delta.toRat ∧
      (roundedDistanceFader.step).2.adjusting = true ∧
      (roundedDistanceFader.step).2.now = F32.ofBits 0x3dcccccc ∧
      roundedDistanceFader.target = F32.ofBits 0x3dcccccd ∧
      (roundedDistanceFader.step).2.now ≠ roundedDistanceFader.target) := by
  decide!

/-- C10, amended. For a fader with finite members whose distance
`_target - _now` is computed without rounding: with adjusting set and a
distance strictly smaller than the magnitude of `_delta`, one `step()`
returns true, sets the value to exactly the target and clears adjusting; with
adjusting set and a distance equal to the magnitude of `_delta`, one `step()`
returns true and moves the value exactly onto the target, and adjusting stays
set. With adjusting clear, in every state, `step()` returns false and changes
nothing. -/
theorem Fader.step_snap (f : Fader) (a t d : ℚ) (hnow : f.now = F32.fin a)
    (htarget : f.target = F32.fin t) (hdelta : f.delta = F32.fin d)
    (ht : round32 t = F32.fin t)
    (hsub : F32.sub (F32.fin t) (F32.fin a) = F32.fin (t - a)) :
    (f.adjusting = true → |t - a| < |d| →
      f.step = (true, { f with now := f.target, adjusting := false })) ∧
    (f.adjusting = true → |t - a| = |d| →
      f.step = (true, { f with now := f.target, adjusting := true })) ∧
    (∀ g : Fader, g.adjusting = false → g.step = (false, g)) := by
  refine ⟨?_, ?_, Fader.step_idle⟩
  · intro hadj hlt
    rw [Fader.step_of_exact_distance f a t d hnow htarget hdelta hadj hsub, if_pos hlt]
  · intro hadj heq
    rw [Fader.step_of_exact_distance f a t d hnow htarget hdelta hadj hsub,
      if_neg (by rw [heq]; exact lt_irrefl _)]
    have hsum : a + (if 0 ≤ t - a then |d| else -|d|) = t := by
      by_cases h0 : 0 ≤ t - a
      · rw [if_pos h0, ← heq, abs_of_nonneg h0]; ring
      · rw [if_neg h0, ← heq, abs_of_neg (not_le.mp h0)]; ring
    rw [hsum, ht, htarget]
    rcases f with ⟨dv, ds, adj, now, target, delta⟩
    simp only at hadj
    subst hadj
    rfl

/-- C10 amended, at concrete inputs: a last step shorter than `_delta`, a last
step equal to `_delta`, and a fader that is not adjusting. -/
theorem Fader.step_snap_witness :
    (lastStepFader.adjusting = true ∧
      (lastStepFader.step).1 = true ∧ (lastStepFader.step).2.now = F32.fin 1 ∧
      (lastStepFader.step).2.adjusting = false) ∧
    ((equalStepFader.step).2.now = F32.fin 1 ∧ (equalStepFader.step).2.adjusting = true) ∧
    (Fader.default.adjusting = false ∧ Fader.default.step = (false, Fader.default)) := by
  have h1 := (Fader.step_snap lastStepFader 0 1 2 rfl rfl (by decide!) (by decide!)
    (by decide!)).1 rfl (by norm_num)
  have h2 := (Fader.step_snap equalStepFader 0 1 1 rfl rfl (by decide!) (by decide!)
    (by decide!)).2.1 rfl (by norm_num)
  have h3 := (Fader.step_snap equalStepFader 0 1 1 rfl rfl (by decide!) (by decide!)
    (by decide!)).2.2 Fader.default rfl
  refine ⟨⟨rfl, ?_, ?_, ?_⟩, ⟨?_, ?_⟩, rfl, h3⟩
  · rw [h1]
  · rw [h1]; rfl
  · rw [h1]
  · rw [h2]; rfl
  · rw [h2]

/-! ## Fader: no overshoot -/

/-- C9 as stated fails. A fader at `0.3f` (bit pattern `0x3e99999a`) gliding to
`0.1f` (`0x3dcccccd`) with `_delta = fabs(0.1f - 0.3f)`: one `step()` moves the
value to `0x3dcccccc`, which is below the target, outside the interval between
the old value and the target; the sign of `target - current` has flipped. -/
theorem Fader.step_overshoots :
    roundedDistanceFader.now = F32.ofBits 0x3e99999a ∧
    roundedDistanceFader.target = F32.ofBits 0x3dcccccd ∧
    F32.lt roundedDistanceFader.target roundedDistanceFader.now = true ∧
    (roundedDistanceFader.step).2.now = F32.ofBits 0x3dcccccc ∧
    F32.lt (roundedDistanceFader.step).2.now roundedDistanceFader.target = true ∧
    (roundedDistanceFader.step).2.target = roundedDistanceFader.target := by
  decide!

/-- C9, amended. For a fader whose `_now` and `_target` are finite binary32
values, whose `_delta` is finite, and whose distance `_target - _now` is
computed without rounding, one `step()` never overshoots: the new value is
finite and lies in the closed interval between the old value and the target,
the distance to the target does not grow, the sign of `target - current` does
not flip, and the target is not changed. This holds whatever the sign of
`_delta` and whether or not adjusting is set. -/
theorem Fader.step_no_overshoot (f : Fader) (a t d : ℚ) (hnow : f.now = F32.fin a)
    (htarget : f.target = F32.fin t) (hdelta : f.delta = F32.fin d)
    (ha : round32 a = F32.fin a) (ht : round32 t = F32.fin t)
    (hsub : F32.sub (F32.fin t) (F32.fin a) = F32.fin (t - a)) :
    ((f.step).2.now = F32.fin (f.step).2.now.toRat ∨ (f.step).2.now = F32.negZero) ∧
    (min a t ≤ (f.step).2.now.toRat ∧ (f.step).2.now.toRat ≤ max a t) ∧
    |t - (f.step).2.now.toRat| ≤ |t - a| ∧
    (0 ≤ t - a → 0 ≤ t - (f.step).2.now.toRat) ∧
    (t - a ≤ 0 → t - (f.step).2.now.toRat ≤ 0) ∧
    (f.step).2.target = f.target := by
  have key : ((f.step).2.now = F32.fin (f.step).2.now.toRat ∨ (f.step).2.now = F32.negZero) ∧
      ((a ≤ (f.step).2.now.toRat ∧ (f.step).2.now.toRat ≤ t) ∨
        (t ≤ (f.step).2.now.toRat ∧ (f.step).2.now.toRat ≤ a)) := by
    cases hadj : f.adjusting with
    | false =>
      rw [Fader.step_idle f hadj, hnow]
      refine ⟨Or.inl rfl, ?_⟩
      show (a ≤ a ∧ a ≤ t) ∨ (t ≤ a ∧ a ≤ a)
      rcases le_total a t with h | h
      · exact Or.inl ⟨le_rfl, h⟩
      · exact Or.inr ⟨h, le_rfl⟩
    | true =>
      rw [Fader.step_of_exact_distance f a t d hnow htarget hdelta hadj hsub]
      by_cases hs : |t - a| < |d|
      · rw [if_pos hs]
        show (f.target = F32.fin f.target.toRat ∨ f.target = F32.negZero) ∧
          ((a ≤ f.target.toRat ∧ f.target.toRat ≤ t) ∨ (t ≤ f.target.toRat ∧ f.target.toRat ≤ a))
        rw [htarget]
        refine ⟨Or.inl rfl, ?_⟩
        show (a ≤ t ∧ t ≤ t) ∨ (t ≤ t ∧ t ≤ a)
        rcases le_total a t with h | h
        · exact Or.inl ⟨h, le_rfl⟩
        · exact Or.inr ⟨le_rfl, h⟩
      · rw [if_neg hs]
        have hle : |d| ≤ |t - a| := not_lt.mp hs
        have h0 := abs_nonneg d
        show (round32 _ = F32.fin (round32 _).toRat ∨ round32 _ = F32.negZero) ∧
          ((a ≤ (round32 _).toRat ∧ (round32 _).toRat ≤ t) ∨
            (t ≤ (round32 _).toRat ∧ (round32 _).toRat ≤ a))
        by_cases hd : 0 ≤ t - a
        · rw [abs_of_nonneg hd] at hle
          rw [if_pos hd]
          obtain ⟨b1, b2, b3, -⟩ := round32_between (a + |d|) a t ha ht (by linarith)
            (by linarith)
          exact ⟨b1, Or.inl ⟨b2, b3⟩⟩
        · rw [abs_of_neg (not_le.mp hd)] at hle
          rw [if_neg hd]
          obtain ⟨b1, b2, b3, -⟩ := round32_between (a + -|d|) t a ht ha (by linarith)
            (by linarith)
          exact ⟨b1, Or.inr ⟨b2, b3⟩⟩
  obtain ⟨kfin, kbetween⟩ := key
  refine ⟨kfin, ?_, ?_, ?_, ?_, Fader.step_target f⟩
  · rcases kbetween with ⟨h1, h2⟩ | ⟨h1, h2⟩
    · exact ⟨(min_le_left _ _).trans h1, h2.trans (le_max_right _ _)⟩
    · exact ⟨(min_le_right _ _).trans h1, h2.trans (le_max_left _ _)⟩
  · rcases kbetween with ⟨h1, h2⟩ | ⟨h1, h2⟩
    · rw [abs_of_nonneg (by linarith), abs_of_nonneg (by linarith)]
      linarith
    · rw [abs_of_nonpos (by linarith), abs_of_nonpos (by linarith)]
      linarith
  · intro h
    rcases kbetween with ⟨h1, h2⟩ | ⟨h1, h2⟩ <;> linarith
  · intro h
    rcases kbetween with ⟨h1, h2⟩ | ⟨h1, h2⟩ <;> linarith

/-- C9 amended, at a concrete input: the glide from 0 to 1 in 12 steps, whose
`_delta` is the rounded `1/12`; the first step stays between 0 and 1. -/
theorem Fader.step_no_overshoot_witness :
    twelveStepFader.delta = F32.ofBits 0x3daaaaab ∧
    0 ≤ (twelveStepFader.step).2.now.toRat ∧ (twelveStepFader.step).2.now.toRat ≤ 1 ∧
    (twelveStepFader.step).2.target = twelveStepFader.target := by
  have h := Fader.step_no_overshoot twelveStepFader 0 1 (F32.ofBits 0x3daaaaab).toRat rfl rfl
    (by decide!) (by decide!) (by decide!) (by decide!)
  refine ⟨by decide!, ?_, ?_, h.2.2.2.2.2⟩
  · have := h.2.1.1
    rwa [min_eq_left (by norm_num : (0 : ℚ) ≤ 1)] at this
  · have := h.2.1.2
    rwa [max_eq_right (by norm_num : (0 : ℚ) ≤ 1)] at this

/-! ## Fader: glides -/

/-- A step that is a whole fraction `q` of the remaining distance `m * q`,
`1 ≤ m`: the distance is not smaller than the step, and the signed step is
`q`. -/
theorem linear_step_aux (m q D dd : ℚ) (hm : 1 ≤ m) (hD : D = m * q) (hq : |dd| = |q|) :
    ¬ (|D| < |dd|) ∧ (if 0 ≤ D then |dd| else -|dd|) = q := by
  have hm0 : 0 < m := lt_of_lt_of_le one_pos hm
  constructor
  · rw [hD, hq, abs_mul, abs_of_pos hm0, not_lt]
    nlinarith [abs_nonneg q]
  · rw [hD, hq]
    by_cases h0 : 0 ≤ m * q
    · have hq0 : 0 ≤ q := by
        by_contra hneg
        push_neg at hneg
        nlinarith
      rw [if_pos h0, abs_of_nonneg hq0]
    · have hq0 : q < 0 := by
        by_contra hneg
        push_neg at hneg
        exact h0 (mul_nonneg hm0.le hneg)
      rw [if_neg h0, abs_of_neg hq0, neg_neg]

/-- A glide whose `_delta` has the magnitude of one `n`-th of the distance and
whose first `n` steps are exact: `k ≤ n` calls of `step()` move `_now` by `k`
such parts and change nothing else. -/
theorem Fader.stepN_linear (g : Fader) (a t d : ℚ) (n : ℕ) (hn : 1 ≤ n)
    (hadj : g.adjusting = true) (hnow : g.now = F32.fin a) (htarget : g.target = F32.fin t)
    (hdelta : g.delta = F32.fin d) (hδ : |d| = |(t - a) / n|) (hex : g.exactGlide n = true)
    (k : ℕ) (hk : k ≤ n) :
    g.stepN k = { g with now := F32.fin (a + k * ((t - a) / n)) } := by
  have hn0 : (0 : ℚ) < n := by exact_mod_cast hn
  induction k with
  | zero =>
    rcases g with ⟨dv, ds, adj, now, target, delta⟩
    simp only at hnow
    subst hnow
    simp [Fader.stepN]
  | succ k ih =>
    have hex1 := Fader.exactGlide_of_le g n k hex (by omega)
    rw [Fader.stepN_succ]
    rw [ih (Nat.le_of_succ_le hk)] at hex1 ⊢
    have hkn : ((k : ℚ) + 1) ≤ n := by exact_mod_cast hk
    obtain ⟨h1, h2⟩ := linear_step_aux ((n : ℚ) - k) ((t - a) / n)
      (t - (a + k * ((t - a) / n))) d (by linarith) (by field_simp; ring) hδ
    rw [Fader.step_of_exact { g with now := F32.fin (a + k * ((t - a) / n)) }
      (a + k * ((t - a) / n)) t d rfl htarget hdelta hadj hex1, if_neg h1, h2]
    simp only [Fader.mk.injEq, true_and, and_true, F32.fin.injEq]
    push_cast
    ring

/-- C8 as stated fails. After `set(0)`, `setStepsRange(12, 1)` and
`setTarget(1)` the value is not the target 1 after any number `k ≤ 12` of
calls of `step()`: `_delta` is the rounded `1/12` and the sums are rounded.
After `set(1)`, `setStepsRange(2^27, 1)` and `setTarget(2)` a call of `step()`
changes nothing, so the value is 1 and not the target 2 after any number of
calls. -/
theorem Fader.glide_misses_target :
    (∀ k : Fin 13, (twelveStepFader.stepN k).get ≠ F32.fin 1) ∧
    (∀ n : ℕ, (absorbedFader.stepN n).get = F32.fin 1 ∧
      (absorbedFader.stepN n).getTarget = F32.fin 2) := by
  refine ⟨by decide!, fun n => ?_⟩
  have hfix : (absorbedFader.step).2 = absorbedFader := by decide!
  rw [Fader.stepN_fixed absorbedFader hfix n]
  exact ⟨rfl, rfl⟩

/-- C8, amended. After `set(current)`, `setStepsRange(steps, |target - current|)`
with a whole number `steps ≥ 1`, and `setTarget(target)`, when the division
`|target - current| / steps` and the first `steps` calls of `step()` are
computed without rounding: `k ≤ steps` calls of `step()` bring `get()` to
`current + k * (target - current) / steps`, and `steps` calls bring it to
exactly `target`. -/
theorem Fader.exact_glide_reaches_target (f : Fader) (current target : ℚ) (steps : ℕ)
    (hsteps : 1 ≤ steps)
    (hdiv : F32.div (F32.fin |target - current|) (F32.fin steps) =
      F32.fin (|target - current| / steps))
    (hexact : (((f.set (F32.fin current)).setStepsRange (F32.fin steps)
      (F32.fin |target - current|)).setTarget (F32.fin target)).exactGlide steps = true) :
    (∀ k : ℕ, k ≤ steps →
      ((((f.set (F32.fin current)).setStepsRange (F32.fin steps)
        (F32.fin |target - current|)).setTarget (F32.fin target)).stepN k).get =
          F32.fin (current + k * ((target - current) / steps))) ∧
    ((((f.set (F32.fin current)).setStepsRange (F32.fin steps)
      (F32.fin |target - current|)).setTarget (F32.fin target)).stepN steps).get =
        F32.fin target := by
  have hn : (steps : ℚ) ≠ 0 := by
    have : (0 : ℚ) < steps := by exact_mod_cast hsteps
    exact this.ne'
  have hδ : |(|target - current| / (steps : ℚ))| = |(target - current) / steps| := by
    rw [abs_div, abs_div, abs_abs]
  have hlin := Fader.stepN_linear
    (((f.set (F32.fin current)).setStepsRange (F32.fin steps)
      (F32.fin |target - current|)).setTarget (F32.fin target))
    current target (|target - current| / steps) steps hsteps rfl rfl rfl hdiv hδ hexact
  refine ⟨fun k hk => ?_, ?_⟩
  · rw [hlin k hk]
    rfl
  · rw [hlin steps le_rfl]
    show F32.fin (current + steps * ((target - current) / steps)) = F32.fin target
    congr 1
    field_simp

/-- C8 amended, at a concrete input: from 0 to 1 in 4 steps. -/
theorem Fader.exact_glide_reaches_target_witness :
    1 ≤ 4 ∧
    ((((Fader.default.set (F32.fin 0)).setStepsRange (F32.fin (4 : ℕ))
      (F32.fin |1 - 0|)).setTarget (F32.fin 1)).stepN 2).get = F32.fin (1 / 2) ∧
    ((((Fader.default.set (F32.fin 0)).setStepsRange (F32.fin (4 : ℕ))
      (F32.fin |1 - 0|)).setTarget (F32.fin 1)).stepN 4).get = F32.fin 1 := by
  have h := Fader.exact_glide_reaches_target Fader.default 0 1 4 (by decide) (by decide!)
    (by decide!)
  refine ⟨by decide, ?_, h.2⟩
  rw [h.1 2 (by decide)]
  norm_num

/-! ## Fader: termination -/

theorem Fader.terminates_within (m : ℕ) :
    ∀ (f : Fader) (a t d : ℚ), f.now = F32.fin a → f.target = F32.fin t →
      f.delta = F32.fin d → f.adjusting = true → d ≠ 0 →
      |t - a| < ((m : ℚ) + 1) * |d| → f.exactGlide (m + 1) = true →
      ∃ n : ℕ, n ≤ m + 1 ∧ (f.stepN n).now = f.target ∧ (f.stepN n).adjusting = false := by
  induction m with
  | zero =>
    intro f a t d hnow htarget hdelta hadj _ hlt hex
    have hlt2 : |t - a| < |d| := by simpa using hlt
    have hex0 : f.exactStep = true := Fader.exactGlide_of_le f 1 0 hex (by decide)
    have hstep := Fader.step_of_exact f a t d hnow htarget hdelta hadj hex0
    rw [if_pos hlt2] at hstep
    refine ⟨1, le_rfl, ?_, ?_⟩
    · show ((f.step).2).now = _
      rw [hstep]
    · show ((f.step).2).adjusting = _
      rw [hstep]
  | succ m ih =>
    intro f a t d hnow htarget hdelta hadj hδ hlt hex
    rw [Fader.exactGlide_succ, Bool.and_eq_true] at hex
    have hstep := Fader.step_of_exact f a t d hnow htarget hdelta hadj hex.1
    by_cases hs : |t - a| < |d|
    · rw [if_pos hs] at hstep
      refine ⟨1, by omega, ?_, ?_⟩
      · show ((f.step).2).now = _
        rw [hstep]
      · show ((f.step).2).adjusting = _
        rw [hstep]
    · rw [if_neg hs] at hstep
      have hle : |d| ≤ |t - a| := not_lt.mp hs
      have hdist : |t - (a + (if 0 ≤ t - a then |d| else -|d|))| = |t - a| - |d| := by
        by_cases hd : 0 ≤ t - a
        · rw [abs_of_nonneg hd] at hle
          rw [if_pos hd, abs_of_nonneg hd, abs_of_nonneg (by linarith)]
          ring
        · have hd2 : t - a < 0 := not_le.mp hd
          rw [abs_of_neg hd2] at hle
          rw [if_neg hd, abs_of_neg hd2, abs_of_nonpos (by linarith)]
          ring
      have hlt2 : |t - (a + (if 0 ≤ t - a then |d| else -|d|))| < ((m : ℚ) + 1) * |d| := by
        rw [hdist]
        push_cast at hlt
        linarith
      obtain ⟨n, hn, e1, e2⟩ := ih (f.step).2 (a + (if 0 ≤ t - a then |d| else -|d|)) t d
        (by rw [hstep]) (by rw [hstep]; exact htarget) (by rw [hstep]; exact hdelta)
        (by rw [hstep]; exact hadj) hδ hlt2 hex.2
      refine ⟨n + 1, by omega, ?_, ?_⟩
      · rw [Fader.stepN_succ_front, e1, Fader.step_target]
      · rw [Fader.stepN_succ_front, e2]

/-- C14 as stated fails. A freshly constructed fader told to glide to 1 is
reachable and has adjusting set, but its `_delta` is 0, so every `step()`
leaves it where it is: after any number of calls the value is 0, not the
target 1, and adjusting is still set. A fader after `set(1)`,
`setStepsRange(2^27, 1)` and `setTarget(2)` is reachable too, has adjusting
set and `_delta = 2^-27`, and every `step()` leaves it where it is: the sum
`1 + 2^-27` rounds to 1. -/
theorem Fader.stuck_with_zero_delta :
    (Fader.Reachable stuckFader ∧ stuckFader.adjusting = true ∧
      stuckFader.target = F32.fin 1 ∧
      ∀ n : ℕ, (stuckFader.stepN n).now = F32.fin 0 ∧ (stuckFader.stepN n).adjusting = true) ∧
    (Fader.Reachable absorbedFader ∧ absorbedFader.adjusting = true ∧
      absorbedFader.target = F32.fin 2 ∧ absorbedFader.delta = F32.fin (1 / 134217728) ∧
      ∀ n : ℕ, (absorbedFader.stepN n).now = F32.fin 1 ∧
        (absorbedFader.stepN n).adjusting = true) := by
  have hfix : (stuckFader.step).2 = stuckFader := by decide!
  have hfix2 : (absorbedFader.step).2 = absorbedFader := by decide!
  refine ⟨⟨Fader.Reachable.setTarget (F32.fin 1)
    (Fader.Reachable.construct (F32.fin 0) (F32.fin 1000)), rfl, rfl, fun n => ?_⟩,
    ⟨Fader.Reachable.setTarget (F32.fin 2) (Fader.Reachable.setStepsRange (F32.fin 134217728)
      (F32.fin 1) (Fader.Reachable.set (F32.fin 1)
        (Fader.Reachable.construct (F32.fin 0) (F32.fin 1000)))), rfl, rfl, by decide!,
      fun n => ?_⟩⟩
  · rw [Fader.stepN_fixed stuckFader hfix n]
    exact ⟨rfl, rfl⟩
  · rw [Fader.stepN_fixed absorbedFader hfix2 n]
    exact ⟨rfl, rfl⟩

/-- C14, amended. From every fader state in which adjusting is set, the
members are finite, `_delta` is not zero and the next
`floor(|target - current| / |_delta|) + 1` calls of `step()` are computed
without rounding, a finite number of `step()` calls, at most that many, brings
the value to exactly the target and clears adjusting. -/
theorem Fader.glide_terminates (f : Fader) (a t d : ℚ) (hnow : f.now = F32.fin a)
    (htarget : f.target = F32.fin t) (hdelta : f.delta = F32.fin d)
    (hadj : f.adjusting = true) (hδ : d ≠ 0)
    (hexact : f.exactGlide (⌊|t - a| / |d|⌋₊ + 1) = true) :
    ∃ n : ℕ, n ≤ ⌊|t - a| / |d|⌋₊ + 1 ∧
      (f.stepN n).now = f.target ∧ (f.stepN n).adjusting = false := by
  have hpos : 0 < |d| := abs_pos.mpr hδ
  apply Fader.terminates_within ⌊|t - a| / |d|⌋₊ f a t d hnow htarget hdelta hadj hδ _ hexact
  have := Nat.lt_floor_add_one (|t - a| / |d|)
  rwa [div_lt_iff₀ hpos] at this

/-- C14 amended, at a concrete input: the glide from 0 to 1 with
`_delta = 1/4` ends within five calls of `step()`. -/
theorem Fader.glide_terminates_witness :
    quarterGlideFader.adjusting = true ∧ quarterGlideFader.delta = F32.fin (1 / 4) ∧
    ∃ n : ℕ, n ≤ 5 ∧
      (quarterGlideFader.stepN n).now = quarterGlideFader.target ∧
      (quarterGlideFader.stepN n).adjusting = false := by
  have hfloor : ⌊|(1 : ℚ) - 0| / |(1 : ℚ) / 4|⌋₊ + 1 = 5 := by decide!
  have h := Fader.glide_terminates quarterGlideFader 0 1 (1 / 4) rfl rfl (by decide!) rfl
    (by norm_num) (by decide!)
  rw [hfloor] at h
  exact ⟨rfl, by decide!, h⟩

/-! ## Sign of the stored step -/

theorem F32.le_zero_round32 (q : ℚ) (hq : 0 ≤ q) : F32.le (F32.fin 0) (round32 q) = true := by
  rcases round32_nonneg q hq with h | ⟨r, h, hr⟩
  · rw [h]; rfl
  · rw [h]; simpa using hr

theorem F32.round32_le_zero (q : ℚ) (hq : q < 0) : F32.le (round32 q) (F32.fin 0) = true := by
  have hneg : round32 q = F32.neg (round32 (-q)) := by
    have := round32_neg (-q) (by linarith)
    rwa [neg_neg] at this
  rw [hneg]
  rcases round32_nonneg (-q) (by linarith) with h | ⟨r, h, hr⟩
  · rw [h]; rfl
  · rw [h]
    by_cases hr0 : r = 0
    · subst hr0; simp [F32.neg, F32.le, F32.toRat]
    · simp [F32.neg, hr0, hr]

/-- The quotient `range / steps` of finite values with `steps > 0`. -/
theorem F32.div_fin_pos (range steps : ℚ) (hs : 0 < steps) :
    F32.div (F32.fin range) (F32.fin steps) = round32 (range / steps) := by
  by_cases hr : range = 0
  · subst hr
    have : ¬ steps < 0 := not_lt.mpr hs.le
    simp [F32.div, F32.toRat, hs.ne', F32.zero, F32.signBit, this, round32_zero]
  · simp [F32.div, F32.toRat, hs.ne', hr]

/-- C18 as stated fails. `setStepsRange(1, -1)` on a constructed fader gives a
reachable state whose `_delta` is -1, and `setFaderSpeed` for a downward glide
(200 Hz to 100 Hz over `0.01f` s at 48000 Hz, all positive) stores a negative
`_delta` in the increment ramp. -/
theorem Fader.negative_delta_reachable :
    Fader.Reachable (Fader.default.setStepsRange (F32.fin 1) (F32.fin (-1))) ∧
    (Fader.default.setStepsRange (F32.fin 1) (F32.fin (-1))).delta = F32.fin (-1) ∧
    F32.lt (Fader.default.setStepsRange (F32.fin 1) (F32.fin (-1))).delta (F32.fin 0) = true ∧
    F32.lt downGlidePhasor.increment.delta (F32.fin 0) = true := by
  refine ⟨Fader.Reachable.setStepsRange (F32.fin 1) (F32.fin (-1))
    (Fader.Reachable.construct (F32.fin 0) (F32.fin 1000)), ?_, ?_, ?_⟩ <;> decide!

/-- C18, amended. The stored `_delta` is `+0` after construction and is changed
only by `setStepsRange` (also through `reset` and `setFaderSpeed`): `set`,
`setTarget` and `step` keep it. After `setStepsRange(steps, range)` with finite
`steps > 0` it is `range / steps` rounded to binary32, which compares `≥ 0`
when `range ≥ 0` and `≤ 0` when `range < 0` (a negative quotient may round to
`-0`); in the increment ramp after `setFaderSpeed` it is the computed range
`1 / (clock / toFrequency) - 1 / (clock / fromFrequency)` divided by the
computed step count `durationSec * clock`. -/
theorem Fader.delta_sign :
    (∀ value steps : F32, (Fader.construct value steps).delta = F32.fin 0) ∧
    (∀ (f : Fader) (v : F32), (f.set v).delta = f.delta) ∧
    (∀ (f : Fader) (t : F32), (f.setTarget t).delta = f.delta) ∧
    (∀ f : Fader, (f.step).2.delta = f.delta) ∧
    (∀ (f : Fader) (steps range : ℚ), 0 < steps →
      (f.setStepsRange (F32.fin steps) (F32.fin range)).delta = round32 (range / steps) ∧
      (0 ≤ range →
        F32.le (F32.fin 0) (f.setStepsRange (F32.fin steps) (F32.fin range)).delta = true) ∧
      (range < 0 →
        F32.le (f.setStepsRange (F32.fin steps) (F32.fin range)).delta (F32.fin 0) = true)) ∧
    (∀ (p : Phasor) (clock durationSec fromFrequency toFrequency : F32),
      (p.setFaderSpeed clock durationSec fromFrequency toFrequency).increment.delta =
        F32.div
          (F32.sub (F32.div (F32.fin 1) (F32.div clock toFrequency))
            (F32.div (F32.fin 1) (F32.div clock fromFrequency)))
          (F32.mul durationSec clock)) := by
  refine ⟨fun _ _ => rfl, fun _ _ => rfl, fun _ _ => rfl, Fader.step_delta, ?_, fun _ _ _ _ _ => rfl⟩
  intro f steps range hs
  have hd : (f.setStepsRange (F32.fin steps) (F32.fin range)).delta = round32 (range / steps) :=
    F32.div_fin_pos range steps hs
  refine ⟨hd, fun hr => ?_, fun hr => ?_⟩
  · rw [hd]
    exact F32.le_zero_round32 _ (div_nonneg hr hs.le)
  · rw [hd]
    exact F32.round32_le_zero _ (div_neg_of_neg_of_pos hr hs)

/-- C18 amended, at concrete inputs: `setStepsRange(4, 1)` stores a `_delta`
that compares `≥ 0`, `setStepsRange(4, -1)` one that compares `≤ 0`. -/
theorem Fader.delta_sign_witness :
    F32.le (F32.fin 0) (Fader.default.setStepsRange (F32.fin 4) (F32.fin 1)).delta = true ∧
    F32.le (Fader.default.setStepsRange (F32.fin 4) (F32.fin (-1))).delta (F32.fin 0) = true :=
  ⟨(Fader.delta_sign.2.2.2.2.1 Fader.default 4 1 (by norm_num)).2.1 (by norm_num),
    (Fader.delta_sign.2.2.2.2.1 Fader.default 4 (-1) (by norm_num)).2.2 (by norm_num)⟩

/-! ## Phasor -/

theorem Phasor.phasor_stepN_succ (n : Nat) (p : Phasor) :
    p.stepN (n + 1) = ((p.stepN n).step).2 := by
  simp only [Phasor.stepN, Function.iterate_succ_apply']

theorem Phasor.step_increment (p : Phasor) : (p.step).2.increment = (p.increment.step).2 := by
  simp only [Phasor.step]
  split_ifs <;> rfl

/-- The phase after one `step()`: the rounded sum of phase and increment, less
1 (rounded again) when the sum compares `≥ 1`. -/
theorem Phasor.step_phase (p : Phasor) :
    (p.step).2.phase =
      if F32.ge (F32.add p.phase p.increment.get) (F32.fin 1) = true then
        F32.sub (F32.add p.phase p.increment.get) (F32.fin 1)
      else F32.add p.phase p.increment.get := by
  simp only [Phasor.step]
  split_ifs <;> rfl

theorem Phasor.step_wrap (p : Phasor) :
    (p.step).1 = F32.ge (F32.add p.phase p.increment.get) (F32.fin 1) := rfl

theorem Phasor.stepN_increment (n : Nat) (p : Phasor) :
    (p.stepN n).increment = p.increment.stepN n := by
  induction n with
  | zero => rfl
  | succ n ih => rw [Phasor.phasor_stepN_succ, Phasor.step_increment, ih, Fader.stepN_succ]

/-- A multiple `j / 2^23` with `j < 2^24` is a binary32 value. -/
theorem round32_grid (j : ℕ) (hj : j < 2 ^ 24) :
    round32 ((j : ℚ) / 2 ^ 23) = F32.fin ((j : ℚ) / 2 ^ 23) := by
  have h := round32_exact j (-23) hj (by norm_num) (by
    have : (j : ℚ) < 2 ^ 24 := by exact_mod_cast hj
    have h2 : (2 : ℚ) ^ (-23 : ℤ) ≤ 1 := by norm_num
    have h3 : (0 : ℚ) ≤ j := Nat.cast_nonneg j
    calc (j : ℚ) * 2 ^ (-23 : ℤ) ≤ (j : ℚ) * 1 := mul_le_mul_of_nonneg_left h2 h3
      _ < 2 ^ 128 := by
        rw [mul_one]
        exact this.trans (by norm_num))
  have e : (j : ℚ) * 2 ^ (-23 : ℤ) = (j : ℚ) / 2 ^ 23 := by
    rw [zpow_neg, div_eq_mul_inv]
    norm_cast
  rwa [e] at h

/-- With a constant increment `d = m / 2^23` in `(0,1)` and a phase that starts
at 0, the phase after `n` steps is the fractional part of `n * d`: every sum is
a multiple of `2^-23` below 2, which binary32 holds exactly. -/
theorem Phasor.stepN_phase_constant (p : Phasor) (m : ℕ) (hm0 : 0 < m) (hm : m < 2 ^ 23)
    (hphase : p.phase = F32.fin 0) (hidle : p.increment.adjusting = false)
    (hnow : p.increment.now = F32.fin ((m : ℚ) / 2 ^ 23)) (n : ℕ) :
    (∃ j : ℕ, j < 2 ^ 23 ∧ Int.fract ((n : ℚ) * ((m : ℚ) / 2 ^ 23)) = (j : ℚ) / 2 ^ 23) ∧
    (p.stepN n).phase = F32.fin (Int.fract ((n : ℚ) * ((m : ℚ) / 2 ^ 23))) ∧
    (p.stepN n).increment = p.increment := by
  induction n with
  | zero =>
    refine ⟨⟨0, by norm_num, by simp⟩, ?_, rfl⟩
    simp [Phasor.stepN, hphase]
  | succ n ih =>
    obtain ⟨⟨j, hj, hfr⟩, ih1, ih2⟩ := ih
    have hd0 : (0 : ℚ) < (m : ℚ) / 2 ^ 23 := by positivity
    have hd1 : (m : ℚ) / 2 ^ 23 < 1 := by
      rw [div_lt_one (by norm_num)]
      exact_mod_cast hm
    have h0 := Int.fract_nonneg ((n : ℚ) * ((m : ℚ) / 2 ^ 23))
    have h1 := Int.fract_lt_one ((n : ℚ) * ((m : ℚ) / 2 ^ 23))
    have hfl : (n : ℚ) * ((m : ℚ) / 2 ^ 23) - Int.fract ((n : ℚ) * ((m : ℚ) / 2 ^ 23)) =
        ⌊(n : ℚ) * ((m : ℚ) / 2 ^ 23)⌋ := by
      have := Int.floor_add_fract ((n : ℚ) * ((m : ℚ) / 2 ^ 23))
      linarith
    have hsum : F32.add (p.stepN n).phase (p.stepN n).increment.get =
        F32.fin (((j + m : ℕ) : ℚ) / 2 ^ 23) := by
      rw [ih1, ih2]
      show F32.add _ p.increment.now = _
      rw [hnow, F32.add_fin, hfr, ← add_div]
      have := round32_grid (j + m) (by omega)
      push_cast at this ⊢
      exact this
    have hsumval : ((j + m : ℕ) : ℚ) / 2 ^ 23 =
        Int.fract ((n : ℚ) * ((m : ℚ) / 2 ^ 23)) + (m : ℚ) / 2 ^ 23 := by
      rw [hfr]
      push_cast
      ring
    have hinc : ((p.stepN n).step).2.increment = p.increment := by
      rw [Phasor.step_increment, ih2, Fader.step_idle p.increment hidle]
    rw [Phasor.phasor_stepN_succ, Phasor.step_phase, hsum]
    by_cases hw : (2 : ℕ) ^ 23 ≤ j + m
    · have hw' : (1 : ℚ) ≤ ((j + m : ℕ) : ℚ) / 2 ^ 23 := by
        rw [le_div_iff₀ (by norm_num)]
        exact_mod_cast hw
      have hge : F32.ge (F32.fin (((j + m : ℕ) : ℚ) / 2 ^ 23)) (F32.fin 1) = true := by
        show F32.le (F32.fin 1) (F32.fin _) = true
        rw [F32.le_fin]
        exact decide_eq_true hw'
      have hsubv : ((j + m : ℕ) : ℚ) / 2 ^ 23 - 1 = ((j + m - 2 ^ 23 : ℕ) : ℚ) / 2 ^ 23 := by
        rw [Nat.cast_sub hw, sub_div]
        push_cast
        norm_num
      have hfr2 : Int.fract (((n + 1 : ℕ) : ℚ) * ((m : ℚ) / 2 ^ 23)) =
          ((j + m - 2 ^ 23 : ℕ) : ℚ) / 2 ^ 23 := by
        rw [← hsubv, hsumval, Int.fract_eq_iff]
        refine ⟨by linarith, by linarith, ⌊(n : ℚ) * ((m : ℚ) / 2 ^ 23)⌋ + 1, ?_⟩
        push_cast
        linarith
      refine ⟨⟨j + m - 2 ^ 23, by omega, hfr2⟩, ?_, hinc⟩
      rw [if_pos hge, F32.sub_fin, hsubv, round32_grid _ (by omega), hfr2]
    · have hw' : ¬ ((1 : ℚ) ≤ ((j + m : ℕ) : ℚ) / 2 ^ 23) := by
        rw [le_div_iff₀ (by norm_num)]
        intro hc
        exact hw (by exact_mod_cast hc)
      have hge : ¬ (F32.ge (F32.fin (((j + m : ℕ) : ℚ) / 2 ^ 23)) (F32.fin 1) = true) := by
        show ¬ (F32.le (F32.fin 1) (F32.fin _) = true)
        rw [F32.le_fin, decide_eq_true_eq]
        exact hw'
      have hfr2 : Int.fract (((n + 1 : ℕ) : ℚ) * ((m : ℚ) / 2 ^ 23)) =
          ((j + m : ℕ) : ℚ) / 2 ^ 23 := by
        rw [hsumval, Int.fract_eq_iff]
        refine ⟨by linarith, by linarith [not_le.mp hw', hsumval], ⌊(n : ℚ) * ((m : ℚ) / 2 ^ 23)⌋, ?_⟩
        push_cast
        linarith
      refine ⟨⟨j + m, by omega, hfr2⟩, ?_, hinc⟩
      rw [if_neg hge, hfr2]

/-- C11 as stated fails. On a phasor after `reset()` and `setFrequency(7)` at a
clock of 8 the stored increment is the bit pattern `0x3f5fffff`, not `7/8`:
`8.f / 7.f` and its reciprocal are rounded. The eighth `step()` returns false,
although `floor(8 * 7/8) > floor(7 * 7/8)`, and the phase after 8 calls is not
`(8 * 7/8) mod 1 = 0`. -/
theorem Phasor.rounded_increment_wraps_late :
    sevenEighthsPhasor.phase = F32.fin 0 ∧
    sevenEighthsPhasor.increment.get = F32.ofBits 0x3f5fffff ∧
    sevenEighthsPhasor.increment.get ≠ F32.fin (7 / 8) ∧
    ((sevenEighthsPhasor.stepN 7).step).1 = false ∧
    ⌊(8 : ℚ) * (7 / 8)⌋ > ⌊(7 : ℚ) * (7 / 8)⌋ ∧
    (sevenEighthsPhasor.stepN 8).phase ≠ F32.fin (Int.fract ((8 : ℚ) * (7 / 8))) := by
  decide!

/-- C11, amended. When the increment `1 / (clock / frequency)` that
`setFrequency` computes in binary32 is a multiple `d = m / 2^23` of `2^-23` in
`(0,1)`, on a phasor whose phase is 0: the stored increment is `d`, after `n`
calls of `step()` the phase is exactly the fractional part of `n * d`, and the
call of `step()` number `n + 1` returns true exactly when
`floor((n + 1) * d) > floor(n * d)`. -/
theorem Phasor.constant_increment (p : Phasor) (clock frequency : F32) (m : ℕ) (hm0 : 0 < m)
    (hm : m < 2 ^ 23) (hphase : p.phase = F32.fin 0)
    (hd : F32.div (F32.fin 1) (F32.div clock frequency) = F32.fin ((m : ℚ) / 2 ^ 23)) :
    (p.setFrequency clock frequency).increment.get = F32.fin ((m : ℚ) / 2 ^ 23) ∧
    ∀ n : ℕ,
      ((p.setFrequency clock frequency).stepN n).phase =
        F32.fin (Int.fract ((n : ℚ) * ((m : ℚ) / 2 ^ 23))) ∧
      ((((p.setFrequency clock frequency).stepN n).step).1 = true ↔
        ⌊((n : ℚ) + 1) * ((m : ℚ) / 2 ^ 23)⌋ > ⌊(n : ℚ) * ((m : ℚ) / 2 ^ 23)⌋) := by
  have hnow : (p.setFrequency clock frequency).increment.now = F32.fin ((m : ℚ) / 2 ^ 23) := hd
  refine ⟨hnow, fun n => ?_⟩
  obtain ⟨⟨j, hj, hfr⟩, e1, e2⟩ := Phasor.stepN_phase_constant (p.setFrequency clock frequency)
    m hm0 hm hphase rfl hnow n
  refine ⟨e1, ?_⟩
  have hd0 : (0 : ℚ) < (m : ℚ) / 2 ^ 23 := by positivity
  have hd1 : (m : ℚ) / 2 ^ 23 < 1 := by
    rw [div_lt_one (by norm_num)]
    exact_mod_cast hm
  rw [Phasor.step_wrap, e1, e2]
  show F32.ge (F32.add _ (p.setFrequency clock frequency).increment.now) (F32.fin 1) = true ↔ _
  rw [hnow, F32.add_fin, hfr, ← add_div]
  have hgrid := round32_grid (j + m) (by omega)
  push_cast at hgrid
  rw [hgrid]
  have h0 := Int.fract_nonneg ((n : ℚ) * ((m : ℚ) / 2 ^ 23))
  have h1 := Int.fract_lt_one ((n : ℚ) * ((m : ℚ) / 2 ^ 23))
  have hsplit : ((n : ℚ) + 1) * ((m : ℚ) / 2 ^ 23) =
      ((⌊(n : ℚ) * ((m : ℚ) / 2 ^ 23)⌋ : ℤ) : ℚ) +
        (Int.fract ((n : ℚ) * ((m : ℚ) / 2 ^ 23)) + (m : ℚ) / 2 ^ 23) := by
    have := Int.floor_add_fract ((n : ℚ) * ((m : ℚ) / 2 ^ 23))
    linarith
  rw [hsplit, Int.floor_int_add, gt_iff_lt, lt_add_iff_pos_right, Int.floor_pos, hfr, ← add_div]
  simp [F32.ge]

/-- C11 amended, at a concrete input: frequency 2 at clock 8, `d = 1/4`; the
fourth step wraps, the third does not. -/
theorem Phasor.constant_increment_witness :
    Phasor.construct.reset.phase = F32.fin 0 ∧
    ((Phasor.construct.reset.setFrequency (F32.fin 8) (F32.fin 2)).stepN 5).phase =
      F32.fin (1 / 4) ∧
    (((Phasor.construct.reset.setFrequency (F32.fin 8) (F32.fin 2)).stepN 3).step).1 = true ∧
    ¬ (((Phasor.construct.reset.setFrequency (F32.fin 8) (F32.fin 2)).stepN 2).step).1 = true := by
  have hd : F32.div (F32.fin 1) (F32.div (F32.fin 8) (F32.fin 2)) =
      F32.fin (((2097152 : ℕ) : ℚ) / 2 ^ 23) := by decide!
  have h := Phasor.constant_increment Phasor.construct.reset (F32.fin 8) (F32.fin 2) 2097152
    (by decide) (by decide) rfl hd
  have e : ((2097152 : ℕ) : ℚ) / 2 ^ 23 = 1 / 4 := by norm_num
  rw [e] at h
  have f1 : ⌊(1 : ℚ) / 2⌋ = 0 := by
    rw [Int.floor_eq_iff]; norm_num
  have f2 : ⌊(3 : ℚ) / 4⌋ = 0 := by
    rw [Int.floor_eq_iff]; norm_num
  refine ⟨rfl, ?_, ?_, ?_⟩
  · rw [(h.2 5).1]
    congr 1
    rw [Int.fract_eq_iff]
    exact ⟨by norm_num, by norm_num, 1, by norm_num⟩
  · rw [(h.2 3).2]
    norm_num [f2]
  · rw [(h.2 2).2]
    norm_num [f1, f2]

/-! ## Phasor: frequency glide -/

/-- Calls 1 to 160 of `step()` on the increment ramp of `glidePhasor`. -/
theorem glideIncrement_chunk0 :
    (glideIncrementAt 0x3b088889).stepN 160 = glideIncrementAt 0x3b360b29 := by
  decide!

/-- Calls 161 to 320 of `step()` on the increment ramp of `glidePhasor`. -/
theorem glideIncrement_chunk1 :
    (glideIncrementAt 0x3b360b29).stepN 160 = glideIncrementAt 0x3b638dc9 := by
  decide!

/-- Calls 321 to 480 of `step()` on the increment ramp of `glidePhasor`. -/
theorem glideIncrement_chunk2 :
    (glideIncrementAt 0x3b638dc9).stepN 160 = glideIncrementAt 0x3b888852 := by
  decide!

/-- C12 as stated fails, on its own witness: 100 Hz to 200 Hz over `0.01f` s
at a 48000 Hz clock. The step count `0.01f * 48000.f` is 480, the target
increment is the bit pattern `0x3b888889`, and after 480 calls of `step()` the
increment is `0x3b888852`, below the target, with the glide still going on. -/
theorem Phasor.frequency_glide_misses_target :
    F32.mul (round32 (1 / 100)) (F32.fin 48000) = F32.fin 480 ∧
    glidePhasor.increment.getTarget = F32.ofBits 0x3b888889 ∧
    (glidePhasor.stepN 480).increment.get = F32.ofBits 0x3b888852 ∧
    (glidePhasor.stepN 480).increment.get ≠ glidePhasor.increment.getTarget ∧
    (glidePhasor.stepN 480).increment.adjusting = true := by
  have hstart : glidePhasor.increment = glideIncrementAt 0x3b088889 := by decide!
  have h480 : (glidePhasor.stepN 480).increment = glideIncrementAt 0x3b888852 := by
    rw [Phasor.stepN_increment, hstart,
      show (480 : ℕ) = 160 + (160 + 160) from rfl, Fader.stepN_add, Fader.stepN_add,
      glideIncrement_chunk0, glideIncrement_chunk1, glideIncrement_chunk2]
  rw [h480]
  refine ⟨by decide!, by decide!, rfl, by decide!, rfl⟩

/-- C12, amended. After `setFrequency(fromFrequency)`, `setFaderSpeed(durationSec,
fromFrequency, toFrequency)` and `setFrequencyTarget(toFrequency)`, write `a`
and `b` for the increments `1 / (clock / fromFrequency)` and
`1 / (clock / toFrequency)` as binary32 computes them, and let the computed
step count `durationSec * clock` be a positive whole number `N`. When the range
`b - a`, the step `(b - a) / N` and the first `N` calls of the ramp's `step()`
are computed without rounding: after `k ≤ N` calls of `step()` the increment is
`a` plus `k` times one `N`-th of the way to `b`, so it lies between the two and
does not pass the target, and after `N` calls it equals `b`. The glide may go
up or down. -/
theorem Phasor.frequency_glide (p : Phasor) (clock durationSec fromFrequency toFrequency : F32)
    (a b : ℚ) (N : ℕ) (hN : 0 < N)
    (hfrom : F32.div (F32.fin 1) (F32.div clock fromFrequency) = F32.fin a)
    (hto : F32.div (F32.fin 1) (F32.div clock toFrequency) = F32.fin b)
    (hsteps : F32.mul durationSec clock = F32.fin N)
    (hrange : F32.sub (F32.fin b) (F32.fin a) = F32.fin (b - a))
    (hdelta : F32.div (F32.fin (b - a)) (F32.fin N) = F32.fin ((b - a) / N))
    (hexact : (((p.setFrequency clock fromFrequency).setFaderSpeed clock durationSec
      fromFrequency toFrequency).setFrequencyTarget clock toFrequency).increment.exactGlide N =
        true) :
    ((((p.setFrequency clock fromFrequency).setFaderSpeed clock durationSec fromFrequency
      toFrequency).setFrequencyTarget clock toFrequency).stepN N).increment.get = F32.fin b ∧
    ∀ k : ℕ, k ≤ N →
      ((((p.setFrequency clock fromFrequency).setFaderSpeed clock durationSec fromFrequency
        toFrequency).setFrequencyTarget clock toFrequency).stepN k).increment.get =
          F32.fin (a + k * ((b - a) / N)) ∧
      min a b ≤ a + k * ((b - a) / N) ∧ a + k * ((b - a) / N) ≤ max a b := by
  have hN0 : (0 : ℚ) < N := by exact_mod_cast hN
  generalize hg : (((p.setFrequency clock fromFrequency).setFaderSpeed clock durationSec
    fromFrequency toFrequency).setFrequencyTarget clock toFrequency) = q at hexact
  have gnow : q.increment.now = F32.fin a := by
    rw [← hg]
    exact hfrom
  have gtarget : q.increment.target = F32.fin b := by
    rw [← hg]
    exact hto
  have gdelta : q.increment.delta = F32.fin ((b - a) / N) := by
    rw [← hg]
    show F32.div (F32.sub (F32.div (F32.fin 1) (F32.div clock toFrequency))
      (F32.div (F32.fin 1) (F32.div clock fromFrequency))) (F32.mul durationSec clock) = _
    rw [hto, hfrom, hsteps, hrange, hdelta]
  have gadj : q.increment.adjusting = true := by
    rw [← hg]
    rfl
  have hlin := Fader.stepN_linear q.increment a b ((b - a) / N) N hN gadj gnow gtarget gdelta
    rfl hexact
  have hval : ∀ k : ℕ, k ≤ N → (q.stepN k).increment.get = F32.fin (a + k * ((b - a) / N)) := by
    intro k hk
    rw [Phasor.stepN_increment, hlin k hk]
    rfl
  refine ⟨?_, fun k hk => ⟨hval k hk, ?_, ?_⟩⟩
  · rw [hval N le_rfl]
    congr 1
    field_simp
  · have hk0 : (0 : ℚ) ≤ k := Nat.cast_nonneg k
    have hkN : (k : ℚ) ≤ N := by exact_mod_cast hk
    have ht0 : 0 ≤ (k : ℚ) / N := div_nonneg hk0 hN0.le
    have ht1 : (k : ℚ) / N ≤ 1 := (div_le_one hN0).mpr hkN
    have hform : (k : ℚ) * ((b - a) / N) = (k : ℚ) / N * (b - a) := by
      field_simp
    rw [hform]
    rcases le_total a b with h | h
    · rw [min_eq_left h]
      nlinarith
    · rw [min_eq_right h]
      nlinarith
  · have hk0 : (0 : ℚ) ≤ k := Nat.cast_nonneg k
    have hkN : (k : ℚ) ≤ N := by exact_mod_cast hk
    have ht0 : 0 ≤ (k : ℚ) / N := div_nonneg hk0 hN0.le
    have ht1 : (k : ℚ) / N ≤ 1 := (div_le_one hN0).mpr hkN
    have hform : (k : ℚ) * ((b - a) / N) = (k : ℚ) / N * (b - a) := by
      field_simp
    rw [hform]
    rcases le_total a b with h | h
    · rw [max_eq_right h]
      nlinarith
    · rw [max_eq_left h]
      nlinarith

/-- C12 amended, at a concrete input: 256 Hz to 512 Hz over `1/256` s at a
1024 Hz clock, `N = 4`: the increment goes from `1/4` to `1/2` in four equal
steps. -/
theorem Phasor.frequency_glide_witness :
    (exactGlidePhasor.stepN 4).increment.get = F32.fin (1 / 2) ∧
    (exactGlidePhasor.stepN 2).increment.get = F32.fin (3 / 8) := by
  have h := Phasor.frequency_glide Phasor.construct.reset (F32.fin 1024) (F32.fin (1 / 256))
    (F32.fin 256) (F32.fin 512) (1 / 4) (1 / 2) 4 (by decide) (by decide!) (by decide!)
    (by decide!) (by decide!) (by decide!) (by decide!)
  refine ⟨h.1, ?_⟩
  have h2 := (h.2 2 (by decide)).1
  rw [show exactGlidePhasor = ((Phasor.construct.reset.setFrequency (F32.fin 1024)
    (F32.fin 256)).setFaderSpeed (F32.fin 1024) (F32.fin (1 / 256)) (F32.fin 256)
      (F32.fin 512)).setFrequencyTarget (F32.fin 1024) (F32.fin 512) from rfl, h2]
  congr 1
  norm_num

/-! ## Phasor: phase range -/

theorem F32.inUnit_fin (x : ℚ) :
    (F32.fin x).inUnit = true ↔ round32 x = F32.fin x ∧ 0 ≤ x ∧ x < 1 := by
  simp [F32.inUnit, and_assoc]

/-- The largest sum of two binary32 values in `[0,1)` is the binary32 value
`2 - 2^-23`. -/
theorem round32_sum_unit (x d : ℚ) (hx : round32 x = F32.fin x) (hx0 : 0 ≤ x) (hx1 : x < 1)
    (hd : round32 d = F32.fin d) (hd0 : 0 ≤ d) (hd1 : d < 1) :
    ∃ r : ℚ, round32 (x + d) = F32.fin r ∧ 0 ≤ r ∧ r ≤ 2 - 1 / 2 ^ 23 ∧
      round32 r = F32.fin r := by
  have h1 := le_pred_one x hx hx1
  have h2 := le_pred_one d hd hd1
  have hB : ((2 ^ 24 - 1 : ℕ) : ℚ) * 2 ^ (-23 : ℤ) = 2 - 1 / 2 ^ 23 := by
    rw [zpow_neg]
    norm_num
  have := round32_le_of_le (x + d) (by linarith) (2 ^ 24 - 1) (-23) (by norm_num) (by norm_num)
    (by rw [hB]; norm_num) (by rw [hB]; norm_num at h1 h2 ⊢; linarith)
  rwa [hB] at this

/-- Subtracting 1 from a binary32 value in `[1, 2 - 2^-23]` gives a binary32
value in `[0,1)`. -/
theorem round32_sub_one_unit (r : ℚ) (h1 : 1 ≤ r) (h2 : r ≤ 2 - 1 / 2 ^ 23) :
    ∃ y : ℚ, round32 (r - 1) = F32.fin y ∧ 0 ≤ y ∧ y < 1 ∧ round32 y = F32.fin y := by
  have hB : ((2 ^ 23 - 1 : ℕ) : ℚ) * 2 ^ (-23 : ℤ) = 1 - 1 / 2 ^ 23 := by
    rw [zpow_neg]
    norm_num
  obtain ⟨y, e1, e2, e3, e4⟩ := round32_le_of_le (r - 1) (by linarith) (2 ^ 23 - 1) (-23)
    (by norm_num) (by norm_num) (by rw [hB]; norm_num) (by rw [hB]; linarith)
  rw [hB] at e3
  exact ⟨y, e1, e2, by have : (0 : ℚ) < 1 / 2 ^ 23 := by norm_num
                       linarith, e4⟩

/-- One `step()` from a phase in `[0,1)` with an increment in `[0,1)` leaves
the phase in `[0,1)`. -/
theorem Phasor.step_phase_inUnit (q : Phasor) (h1 : q.phase.inUnit = true)
    (h2 : q.increment.get.inUnit = true) : (q.step).2.phase.inUnit = true := by
  have hsum : F32.add q.phase q.increment.get = F32.negZero ∨
      ∃ r : ℚ, F32.add q.phase q.increment.get = F32.fin r ∧ 0 ≤ r ∧ r ≤ 2 - 1 / 2 ^ 23 ∧
        round32 r = F32.fin r := by
    have hu : (1 : ℚ) ≤ 2 - 1 / 2 ^ 23 := by norm_num
    cases hp : q.phase with
    | nan => rw [hp] at h1; exact absurd h1 (by simp [F32.inUnit])
    | inf s => rw [hp] at h1; exact absurd h1 (by simp [F32.inUnit])
    | negZero =>
      cases hi : q.increment.get with
      | nan => rw [hi] at h2; exact absurd h2 (by simp [F32.inUnit])
      | inf s => rw [hi] at h2; exact absurd h2 (by simp [F32.inUnit])
      | negZero => exact Or.inl rfl
      | fin d =>
        rw [hi, F32.inUnit_fin] at h2
        exact Or.inr ⟨d, h2.1, h2.2.1, by linarith [h2.2.2], h2.1⟩
    | fin x =>
      rw [hp, F32.inUnit_fin] at h1
      cases hi : q.increment.get with
      | nan => rw [hi] at h2; exact absurd h2 (by simp [F32.inUnit])
      | inf s => rw [hi] at h2; exact absurd h2 (by simp [F32.inUnit])
      | negZero => exact Or.inr ⟨x, h1.1, h1.2.1, by linarith [h1.2.2], h1.1⟩
      | fin d =>
        rw [hi, F32.inUnit_fin] at h2
        exact Or.inr (round32_sum_unit x d h1.1 h1.2.1 h1.2.2 h2.1 h2.2.1 h2.2.2)
  rw [Phasor.step_phase]
  rcases hsum with h | ⟨r, h, hr0, hr1, hrep⟩
  · rw [h]
    have : ¬ (F32.ge F32.negZero (F32.fin 1) = true) := by decide!
    rw [if_neg this]
    rfl
  · rw [h]
    by_cases hw : 1 ≤ r
    · have hge : F32.ge (F32.fin r) (F32.fin 1) = true := by
        show F32.le (F32.fin 1) (F32.fin r) = true
        rw [F32.le_fin]
        exact decide_eq_true hw
      rw [if_pos hge, F32.sub_fin]
      obtain ⟨y, e1, e2, e3, e4⟩ := round32_sub_one_unit r hw hr1
      rw [e1, F32.inUnit_fin]
      exact ⟨e4, e2, e3⟩
    · have hge : ¬ (F32.ge (F32.fin r) (F32.fin 1) = true) := by
        show ¬ (F32.le (F32.fin 1) (F32.fin r) = true)
        rw [F32.le_fin, decide_eq_true_eq]
        exact hw
      rw [if_neg hge, F32.inUnit_fin]
      exact ⟨hrep, hr0, not_le.mp hw⟩

/-- C15 as stated fails. On a phasor after `reset()`, `setFaderSpeed(0, 100,
100)` and `setFrequencyTarget(200)` at a 48000 Hz clock (every frequency in
`[0, clock)`), the ramp's `_delta` is `0.f / 0.f`, a NaN; the first `step()`
makes the increment a NaN and the second makes the phase a NaN, which is not
in `[0,1)`: neither `0 ≤ phase` nor `phase < 1` holds. -/
theorem Phasor.phase_not_a_number :
    nanGlidePhasor.phase = F32.fin 0 ∧
    nanGlidePhasor.increment.delta = F32.nan ∧
    (nanGlidePhasor.stepN 2).phase = F32.nan ∧
    F32.le (F32.fin 0) (nanGlidePhasor.stepN 2).phase = false ∧
    F32.lt (nanGlidePhasor.stepN 2).phase (F32.fin 1) = false := by
  decide!

/-- C15, amended. From a phase that is a binary32 value in `[0,1)`, the phase
is a binary32 value in `[0,1)` after `n` calls of `step()`, also while the
increment glides, provided the increment that each of these calls reads is a
binary32 value in `[0,1)`. Each `step()`, in every state, wraps at most once:
the new phase is the rounded sum of phase and increment, or that sum less 1
when the step reports a wrap. -/
theorem Phasor.phase_in_range (p : Phasor) (n : ℕ) (hphase : p.phase.inUnit = true)
    (hinc : ∀ k : ℕ, k < n → (p.stepN k).increment.get.inUnit = true) :
    (p.stepN n).phase.inUnit = true ∧
    ∀ q : Phasor,
      ((q.step).1 = false → (q.step).2.phase = F32.add q.phase q.increment.get) ∧
      ((q.step).1 = true →
        (q.step).2.phase = F32.sub (F32.add q.phase q.increment.get) (F32.fin 1)) := by
  constructor
  · induction n with
    | zero => exact hphase
    | succ n ih =>
      rw [Phasor.phasor_stepN_succ]
      exact Phasor.step_phase_inUnit _ (ih (fun k hk => hinc k (by omega))) (hinc n (by omega))
  · intro q
    rw [Phasor.step_wrap, Phasor.step_phase]
    constructor
    · intro hw
      rw [if_neg (by rw [hw]; decide)]
    · intro hw
      rw [if_pos hw]

/-- C15 amended, at a concrete input: a phasor at phase 3/4 with increment 3/4
gliding towards 1/4; the first step wraps to 1/2, and the phase is in `[0,1)`
after three steps. -/
theorem Phasor.phase_in_range_witness :
    wrapGlidePhasor.phase = F32.fin (3 / 4) ∧
    (wrapGlidePhasor.step).1 = true ∧
    (wrapGlidePhasor.step).2.phase = F32.fin (1 / 2) ∧
    (wrapGlidePhasor.stepN 3).phase.inUnit = true := by
  have h := Phasor.phase_in_range wrapGlidePhasor 3 (by decide!) (by decide!)
  exact ⟨rfl, by decide!, by decide!, h.1⟩

/-! ## Codec: reachable states -/

/-- The samples `fillChannel` does not touch: those of another buffer, of
another channel, and all of them when the channel is disabled or unbound. -/
theorem Codec.fillChannel_untouched (env : Env) (s : Codec) (ch : Fin nChannels)
    (b : Fin nBuffers) (j : Fin nSamples) (c : Fin nChannels)
    (h : b.val ≠ s.index ∨ c ≠ ch ∨ s.enabled ch = false ∨ s.channels ch = none) :
    (s.fillChannel env ch).buffers b j c = s.buffers b j c := by
  rcases h with h | h | h | h
  · exact (Codec.fillChannel_frame env s ch).2.2.2.2.2.2.2 b j c (Or.inl h)
  · exact (Codec.fillChannel_frame env s ch).2.2.2.2.2.2.2 b j c (Or.inr h)
  · rw [Codec.fillChannel_inactive env s ch (Or.inr h)]
  · rw [Codec.fillChannel_inactive env s ch (Or.inl h)]

/-- The samples `fillBuffer()` does not touch: those of the buffer that is not
at `_index`, and those of a channel that is disabled or unbound. -/
theorem Codec.fillBuffer_untouched (env : Env) (s : Codec)
    (b : Fin nBuffers) (j : Fin nSamples) (c : Fin nChannels)
    (h : b.val ≠ s.index ∨ s.enabled c = false ∨ s.channels c = none) :
    (s.fillBuffer env).buffers b j c = s.buffers b j c := by
  rw [Codec.fillBuffer_eq]
  generalize hs1 : ({ s with trace := s.trace ++ [Event.getUsec] } : Codec) = s1
  have e2 : s1.channels = s.channels := by rw [← hs1]
  have e3 : s1.enabled = s.enabled := by rw [← hs1]
  have e4 : s1.index = s.index := by rw [← hs1]
  have e5 : s1.buffers = s.buffers := by rw [← hs1]
  obtain ⟨-, a2, a3, a4, -, -, -, -⟩ := Codec.fillChannel_frame env s1 0
  show ((s1.fillChannel env 0).fillChannel env 1).buffers b j c = _
  have step2 : ((s1.fillChannel env 0).fillChannel env 1).buffers b j c =
      (s1.fillChannel env 0).buffers b j c := by
    apply Codec.fillChannel_untouched
    rw [a2, a3, a4, e2, e3, e4]
    rcases h with h | h | h
    · exact Or.inl h
    · rcases fin_two_cases c with rfl | rfl
      · exact Or.inr (Or.inl (by decide))
      · exact Or.inr (Or.inr (Or.inl h))
    · rcases fin_two_cases c with rfl | rfl
      · exact Or.inr (Or.inl (by decide))
      · exact Or.inr (Or.inr (Or.inr h))
  have step1 : (s1.fillChannel env 0).buffers b j c = s1.buffers b j c := by
    apply Codec.fillChannel_untouched
    rw [e2, e3, e4]
    rcases h with h | h | h
    · exact Or.inl h
    · rcases fin_two_cases c with rfl | rfl
      · exact Or.inr (Or.inr (Or.inl h))
      · exact Or.inr (Or.inl (by decide))
    · rcases fin_two_cases c with rfl | rfl
      · exact Or.inr (Or.inr (Or.inr h))
      · exact Or.inr (Or.inl (by decide))
  rw [step2, step1, e5]

/-- The state `fillNextBuffer()` hands to `fillBuffer()`. -/
theorem Codec.fillNextBuffer_eq (env : Env) (s : Codec) :
    s.fillNextBuffer env =
      Codec.fillBuffer env
        { s with
          index := if (s.index + 1) % 2 ^ 8 = nBuffers then 0 else (s.index + 1) % 2 ^ 8
          trace := s.trace ++ [Event.enableIrq] } := by
  unfold Codec.fillNextBuffer
  by_cases h : (s.index + 1) % 2 ^ 8 = nBuffers <;> simp only [h, if_true, if_false]

theorem Codec.nextIndex_of_lt (i : Nat) (h : i < nBuffers) :
    (if (i + 1) % 2 ^ 8 = nBuffers then 0 else (i + 1) % 2 ^ 8) = (i + 1) % 2 := by
  have h2 : i < 2 := h
  have : i = 0 ∨ i = 1 := by omega
  rcases this with rfl | rfl <;> decide

/-- What `fillNextBuffer()` does to flags, sources and index. -/
theorem Codec.fillNextBuffer_frame (env : Env) (s : Codec) :
    (s.fillNextBuffer env).index =
      (if (s.index + 1) % 2 ^ 8 = nBuffers then 0 else (s.index + 1) % 2 ^ 8) ∧
    (s.fillNextBuffer env).channels = s.channels ∧
    (s.fillNextBuffer env).enabled = s.enabled ∧
    (s.fillNextBuffer env).running = s.running := by
  rw [Codec.fillNextBuffer_eq]
  obtain ⟨-, h2, h3, h4, h5, -⟩ := Codec.fillBuffer_frame env
    { s with
      index := if (s.index + 1) % 2 ^ 8 = nBuffers then 0 else (s.index + 1) % 2 ^ 8
      trace := s.trace ++ [Event.enableIrq] }
  exact ⟨h2, h3, h4, h5⟩

/-- The samples `fillNextBuffer()` does not touch: those of the buffer that is
not at the new `_index`, and those of a disabled or unbound channel. -/
theorem Codec.fillNextBuffer_untouched (env : Env) (s : Codec)
    (b : Fin nBuffers) (j : Fin nSamples) (c : Fin nChannels)
    (h : b.val ≠ (if (s.index + 1) % 2 ^ 8 = nBuffers then 0 else (s.index + 1) % 2 ^ 8) ∨
      s.enabled c = false ∨ s.channels c = none) :
    (s.fillNextBuffer env).buffers b j c = s.buffers b j c := by
  rw [Codec.fillNextBuffer_eq]
  exact Codec.fillBuffer_untouched env _ b j c h

/-- The two fills of a bring-up, started at `_index = 0`: they end at
`_index = 1`, keep flags and sources, and leave the samples of every disabled
channel as they were. -/
theorem Codec.bringUp_fills (env : Env) (s3 : Codec) (h0 : s3.index = 0) :
    (Codec.fillNextBuffer env
      { Codec.fillBuffer env s3 with
        trace := (Codec.fillBuffer env s3).trace ++ [Event.dmaStartJob] }).index = 1 ∧
    (Codec.fillNextBuffer env
      { Codec.fillBuffer env s3 with
        trace := (Codec.fillBuffer env s3).trace ++ [Event.dmaStartJob] }).enabled = s3.enabled ∧
    (Codec.fillNextBuffer env
      { Codec.fillBuffer env s3 with
        trace := (Codec.fillBuffer env s3).trace ++ [Event.dmaStartJob] }).channels =
          s3.channels ∧
    (∀ c : Fin nChannels, s3.enabled c = false → ∀ (b : Fin nBuffers) (i : Fin nSamples),
      (Codec.fillNextBuffer env
        { Codec.fillBuffer env s3 with
          trace := (Codec.fillBuffer env s3).trace ++ [Event.dmaStartJob] }).buffers b i c =
            s3.buffers b i c) := by
  obtain ⟨-, f2, f3, f4, -, -⟩ := Codec.fillBuffer_frame env s3
  generalize hs5 : ({ Codec.fillBuffer env s3 with
    trace := (Codec.fillBuffer env s3).trace ++ [Event.dmaStartJob] } : Codec) = s5
  have i5 : s5.index = 0 := by rw [← hs5]; exact f2.trans h0
  have e5 : s5.enabled = s3.enabled := by rw [← hs5]; exact f4
  have c5 : s5.channels = s3.channels := by rw [← hs5]; exact f3
  have b5 : s5.buffers = (Codec.fillBuffer env s3).buffers := by rw [← hs5]
  obtain ⟨g1, g2, g3, -⟩ := Codec.fillNextBuffer_frame env s5
  refine ⟨?_, g3.trans e5, g2.trans c5, ?_⟩
  · rw [g1, i5]; decide
  · intro c hc b i
    rw [Codec.fillNextBuffer_untouched env s5 b i c (Or.inr (Or.inl (by rw [e5]; exact hc))),
      b5, Codec.fillBuffer_untouched env s3 b i c (Or.inr (Or.inl hc))]

/-- The five ways `enableChannel(channel)` can end. -/
theorem Codec.enableChannel_cases (env : Env) (channel : Fin nChannels) (s : Codec) :
    (s.enableChannel env channel).2 = s ∨
    (s.enableChannel env channel).2 =
      ({ s with trace := s.trace ++ [Event.handlePower true] } : Codec).reset env ∨
    (s.running = false ∧ (s.enableChannel env channel).2 =
      { s with trace := s.trace ++ [Event.handlePower true, Event.handleEnable true] }) ∨
    (s.running = false ∧ (s.enableChannel env channel).2 =
      { (Codec.fillNextBuffer env
          { Codec.fillBuffer env
              { s with
                trace := s.trace ++ [Event.handlePower true, Event.handleEnable true]
                index := 0 } with
            trace := (Codec.fillBuffer env
              { s with
                trace := s.trace ++ [Event.handlePower true, Event.handleEnable true]
                index := 0 }).trace ++ [Event.dmaStartJob] }) with
        running := true
        enabled := Function.update
          (Codec.fillNextBuffer env
            { Codec.fillBuffer env
                { s with
                  trace := s.trace ++ [Event.handlePower true, Event.handleEnable true]
                  index := 0 } with
              trace := (Codec.fillBuffer env
                { s with
                  trace := s.trace ++ [Event.handlePower true, Event.handleEnable true]
                  index := 0 }).trace ++ [Event.dmaStartJob] }).enabled channel true }) ∨
    (s.running = true ∧ (s.enableChannel env channel).2 =
      { s with
        trace := s.trace ++ [Event.handlePower true]
        enabled := Function.update s.enabled channel true }) := by
  cases hsrc : s.channels channel with
  | none => exact Or.inl (by simp [Codec.enableChannel, hsrc])
  | some source =>
    cases hpow : env.handlePower s.trace true with
    | false =>
      exact Or.inr (Or.inl (by rw [Codec.enableChannel_powerFail env channel s source hsrc hpow]))
    | true =>
      by_cases hrun : s.running = true
      · exact Or.inr (Or.inr (Or.inr (Or.inr ⟨hrun, by
          rw [Codec.enableChannel_whileRunning env channel s source hsrc hrun hpow]⟩)))
      · have hidle : s.running = false := (Bool.not_eq_true _).mp hrun
        cases hen : env.handleEnable (s.trace ++ [Event.handlePower true]) true with
        | false =>
          exact Or.inr (Or.inr (Or.inl ⟨hidle, by
            rw [Codec.enableChannel_enableFail env channel s source hsrc hidle hpow hen]⟩))
        | true =>
          exact Or.inr (Or.inr (Or.inr (Or.inl ⟨hidle, by
            rw [Codec.enableChannel_bringUp env channel s source hsrc hidle hpow hen]⟩)))

theorem Codec.inv_fillBuffer (env : Env) (s : Codec) (h : s.Inv) : (s.fillBuffer env).Inv := by
  obtain ⟨h1, h2, h3⟩ := h
  obtain ⟨-, f2, -, f4, f5, -⟩ := Codec.fillBuffer_frame env s
  refine ⟨by rw [f2]; exact h1, ?_, ?_⟩
  · intro c hc b i
    rw [f4] at hc
    rw [Codec.fillBuffer_untouched env s b i c (Or.inr (Or.inl hc))]
    exact h2 c hc b i
  · intro hr c
    rw [f4]
    exact h3 (f5 ▸ hr) c

theorem Codec.inv_fillNextBuffer (env : Env) (s : Codec) (h : s.Inv) :
    (s.fillNextBuffer env).Inv := by
  obtain ⟨h1, h2, h3⟩ := h
  obtain ⟨g1, -, g3, g4⟩ := Codec.fillNextBuffer_frame env s
  refine ⟨?_, ?_, ?_⟩
  · rw [g1, Codec.nextIndex_of_lt s.index h1]
    exact Nat.mod_lt _ (by decide)
  · intro c hc b i
    rw [g3] at hc
    rw [Codec.fillNextBuffer_untouched env s b i c (Or.inr (Or.inl hc))]
    exact h2 c hc b i
  · intro hr c
    rw [g3]
    exact h3 (g4 ▸ hr) c

theorem Codec.inv_reset (env : Env) (s : Codec) : (s.reset env).Inv := by
  rw [Codec.reset_eq]
  exact ⟨Nat.zero_lt_two, fun _ _ _ _ => rfl, fun _ _ => rfl⟩

theorem Codec.inv_disableChannel (channel : Fin nChannels) (s : Codec) (h : s.Inv) :
    (s.disableChannel channel).Inv := by
  obtain ⟨h1, h2, h3⟩ := h
  rw [Codec.disableChannel_eq]
  refine ⟨h1, ?_, ?_⟩
  · intro c hc b i
    show (if c = channel then 0 else s.buffers b i c) = 0
    by_cases hcc : c = channel
    · rw [if_pos hcc]
    · rw [if_neg hcc]
      have : s.enabled c = false := by
        have := hc
        simp only [Function.update_noteq hcc] at this
        exact this
      exact h2 c this b i
  · intro hr c
    show Function.update s.enabled channel false c = false
    by_cases hcc : c = channel
    · subst hcc; simp
    · rw [Function.update_noteq hcc]
      exact h3 hr c

theorem Codec.inv_enableChannel (env : Env) (channel : Fin nChannels) (s : Codec) (h : s.Inv) :
    (s.enableChannel env channel).2.Inv := by
  rcases Codec.enableChannel_cases env channel s with e | e | ⟨_, e⟩ | ⟨_, e⟩ | ⟨hrun, e⟩
  · rw [e]; exact h
  · rw [e]; exact Codec.inv_reset env _
  · rw [e]; exact h
  · rw [e]
    obtain ⟨h1, h2, h3⟩ := h
    obtain ⟨b1, b2, -, b4⟩ := Codec.bringUp_fills env
      { s with
        trace := s.trace ++ [Event.handlePower true, Event.handleEnable true]
        index := 0 } rfl
    refine ⟨?_, ?_, ?_⟩
    · show _ < nBuffers
      rw [show _ = 1 from b1]
      decide
    · intro c hc b i
      have hcc : c ≠ channel := by
        rintro rfl
        simp at hc
      have hc2 : s.enabled c = false := by
        have := hc
        simp only [Function.update_noteq hcc] at this
        rw [b2] at this
        exact this
      show _ = (0 : Int)
      rw [show _ = s.buffers b i c from b4 c hc2 b i]
      exact h2 c hc2 b i
    · intro hr
      exact Bool.noConfusion (show true = false from hr)
  · rw [e]
    obtain ⟨h1, h2, h3⟩ := h
    refine ⟨h1, ?_, ?_⟩
    · intro c hc b i
      have hcc : c ≠ channel := by
        rintro rfl
        simp at hc
      have hc2 : s.enabled c = false := by
        have := hc
        simp only [Function.update_noteq hcc] at this
        exact this
      exact h2 c hc2 b i
    · intro hr
      exact absurd (hrun.symm.trans hr) (by decide)

/-- Every reachable codec state satisfies the invariant. -/
theorem Codec.reachable_inv (s : Codec) (h : Codec.Reachable s) : s.Inv := by
  induction h with
  | init => exact ⟨Nat.zero_lt_two, fun _ _ _ _ => rfl, fun _ _ => rfl⟩
  | registerChannel ch channel _ ih => exact ih
  | reset env _ _ => exact Codec.inv_reset env _
  | enableChannel env channel _ ih => exact Codec.inv_enableChannel env channel _ ih
  | disableChannel channel _ ih => exact Codec.inv_disableChannel channel _ ih
  | fillBuffer env _ ih => exact Codec.inv_fillBuffer env _ ih
  | fillNextBuffer env _ ih => exact Codec.inv_fillNextBuffer env _ ih
  | adjustSamplerate env cents _ ih => exact ih

/-- C16. In every codec state reachable from construction through
`registerChannel`, `reset`, `enableChannel`, `disableChannel`, `fillBuffer`,
`fillNextBuffer` and `adjustSamplerate`, each run to completion: a channel
whose enabled flag is clear holds zero in every slot of both buffers; and when
the engine is not running, every enabled flag is clear and both buffers are
entirely zero. -/
theorem Codec.reachable_silence (s : Codec) (h : Codec.Reachable s) :
    (∀ c : Fin nChannels, s.enabled c = false →
      ∀ (b : Fin nBuffers) (i : Fin nSamples), s.buffers b i c = 0) ∧
    (s.running = false →
      (∀ c : Fin nChannels, s.enabled c = false) ∧
      ∀ (b : Fin nBuffers) (i : Fin nSamples) (c : Fin nChannels), s.buffers b i c = 0) := by
  obtain ⟨-, h2, h3⟩ := Codec.reachable_inv s h
  exact ⟨h2, fun hr => ⟨h3 hr, fun b i c => h2 c (h3 hr c) b i⟩⟩

/-- C16, at a concrete input: the running engine with channel 0 enabled, after
one more `fillNextBuffer()`; channel 1 is disabled and silent. -/
theorem Codec.reachable_silence_witness :
    Codec.Reachable (runningState.fillNextBuffer halfEnv) ∧
    (runningState.fillNextBuffer halfEnv).enabled 1 = false ∧
    (∀ (b : Fin nBuffers) (i : Fin nSamples),
      (runningState.fillNextBuffer halfEnv).buffers b i 1 = 0) := by
  have hr : Codec.Reachable (runningState.fillNextBuffer halfEnv) :=
    Codec.Reachable.fillNextBuffer halfEnv (Codec.Reachable.enableChannel halfEnv 0
      (Codec.Reachable.registerChannel 0 (some 1) Codec.Reachable.init))
  have he : (runningState.fillNextBuffer halfEnv).enabled 1 = false := by
    rw [(Codec.fillNextBuffer_frame halfEnv runningState).2.2.1]
    rfl
  exact ⟨hr, he, (Codec.reachable_silence _ hr).1 1 he⟩

/-- C19. In every reachable codec state `_index` is 0 or 1; `fillNextBuffer()`
sets it to `(_index + 1) mod 2` and leaves every sample of the other buffer as
it was, and a second `fillNextBuffer()` brings `_index` back, so consecutive
calls fill the two buffers in alternation. -/
theorem Codec.buffer_alternation (s : Codec) (h : Codec.Reachable s) (env : Env) :
    s.index < nBuffers ∧
    (s.fillNextBuffer env).index = (s.index + 1) % 2 ∧
    (∀ b : Fin nBuffers, b.val ≠ (s.index + 1) % 2 →
      ∀ (i : Fin nSamples) (c : Fin nChannels),
        (s.fillNextBuffer env).buffers b i c = s.buffers b i c) ∧
    (∀ env2 : Env, ((s.fillNextBuffer env).fillNextBuffer env2).index = s.index) := by
  obtain ⟨h1, -, -⟩ := Codec.reachable_inv s h
  have hi : (s.fillNextBuffer env).index = (s.index + 1) % 2 := by
    rw [(Codec.fillNextBuffer_frame env s).1, Codec.nextIndex_of_lt s.index h1]
  refine ⟨h1, hi, ?_, ?_⟩
  · intro b hb i c
    apply Codec.fillNextBuffer_untouched
    rw [Codec.nextIndex_of_lt s.index h1]
    exact Or.inl hb
  · intro env2
    have hlt : (s.fillNextBuffer env).index < nBuffers := by
      rw [hi]
      exact Nat.mod_lt _ (by decide)
    rw [(Codec.fillNextBuffer_frame env2 _).1, Codec.nextIndex_of_lt _ hlt, hi]
    have h2 : s.index < 2 := h1
    omega

/-- C19, at a concrete input: from the running engine (`_index = 1`) the next
notification fills buffer 0 and leaves buffer 1 alone. -/
theorem Codec.buffer_alternation_witness :
    Codec.Reachable runningState ∧ runningState.index = 1 ∧
    (runningState.fillNextBuffer halfEnv).index = 0 ∧
    (∀ (i : Fin nSamples) (c : Fin nChannels),
      (runningState.fillNextBuffer halfEnv).buffers 1 i c = runningState.buffers 1 i c) := by
  have hr : Codec.Reachable runningState :=
    Codec.Reachable.enableChannel halfEnv 0
      (Codec.Reachable.registerChannel 0 (some 1) Codec.Reachable.init)
  have h := Codec.buffer_alternation runningState hr halfEnv
  exact ⟨hr, rfl, h.2.1, h.2.2.1 1 (by decide)⟩

/-! ## Codec: the first samples after bring-up -/

/-- The value `fillBuffer()` stores in slot `i` of the buffer at `_index` for a
bound and enabled channel. -/
theorem Codec.fillBuffer_value (env : Env) (s : Codec) (hidx : s.index < nBuffers)
    (ch : Fin nChannels) (source : Nat) (hsrc : s.channels ch = some source)
    (hen : s.enabled ch = true) (i : Fin nSamples) :
    (s.fillBuffer env).buffers ⟨s.index, hidx⟩ i ch =
      scaleSample env (env.getSample
        (s.trace ++ [Event.getUsec] ++ s.pullsBefore ch ++
          List.replicate i.val (Event.getSample source)) source) := by
  rw [Codec.fillBuffer_eq]
  generalize hs1 : ({ s with trace := s.trace ++ [Event.getUsec] } : Codec) = s1
  have e1 : s1.trace = s.trace ++ [Event.getUsec] := by rw [← hs1]
  have e2 : s1.channels = s.channels := by rw [← hs1]
  have e3 : s1.enabled = s.enabled := by rw [← hs1]
  have e4 : s1.index = s.index := by rw [← hs1]
  obtain ⟨a1, a2, a3, a4, -, -, -, -⟩ := Codec.fillChannel_frame env s1 0
  have p0 : s1.pulls 0 = s.pulls 0 := Codec.pulls_congr s s1 e2 e3 0
  rcases fin_two_cases ch with rfl | rfl
  · show ((s1.fillChannel env 0).fillChannel env 1).buffers ⟨s.index, hidx⟩ i 0 = _
    rw [Codec.fillChannel_untouched env _ 1 _ i 0 (Or.inr (Or.inl (by decide))),
      Codec.fillChannel_active env s1 0 source (e2 ▸ hsrc) (e3 ▸ hen)]
    simp [e4, e1, Codec.pullsBefore_zero]
  · show ((s1.fillChannel env 0).fillChannel env 1).buffers ⟨s.index, hidx⟩ i 1 = _
    rw [Codec.fillChannel_active env (s1.fillChannel env 0) 1 source (a3 ▸ e2 ▸ hsrc)
      (a4 ▸ e3 ▸ hen)]
    simp [a2, e4, a1, e1, p0, Codec.pullsBefore_one]

/-- With every enabled flag clear `fillBuffer()` only reads the clock twice. -/
theorem Codec.fillBuffer_silent (env : Env) (s : Codec)
    (hflags : ∀ c : Fin nChannels, s.enabled c = false) :
    (s.fillBuffer env).trace =
      s.trace ++ [Event.getUsec, Event.getUsecSince (env.getUsec s.trace % 2 ^ 32)] ∧
    (s.fillBuffer env).buffers = s.buffers := by
  constructor
  · rw [(Codec.fillBuffer_frame env s).1, Codec.pulls_inactive s 0 (Or.inr (hflags 0)),
      Codec.pulls_inactive s 1 (Or.inr (hflags 1))]
    simp
  · funext b i c
    exact Codec.fillBuffer_untouched env s b i c (Or.inr (Or.inl (hflags c)))

theorem Codec.fillNextBuffer_of_index_one (env : Env) (s : Codec) (h : s.index = 1) :
    s.fillNextBuffer env =
      Codec.fillBuffer env { s with index := 0, trace := s.trace ++ [Event.enableIrq] } := by
  simp [Codec.fillNextBuffer, h]

/-- The calls of the two fills of a bring-up when every enabled flag is clear:
clock reads only, around the start of the DMA job. -/
theorem Codec.bringUp_silent (env : Env) (s3 : Codec) (h0 : s3.index = 0)
    (hflags : ∀ c : Fin nChannels, s3.enabled c = false) :
    (Codec.fillNextBuffer env
      { Codec.fillBuffer env s3 with
        trace := (Codec.fillBuffer env s3).trace ++ [Event.dmaStartJob] }).trace =
      s3.trace ++ [Event.getUsec, Event.getUsecSince (env.getUsec s3.trace % 2 ^ 32),
        Event.dmaStartJob, Event.enableIrq, Event.getUsec,
        Event.getUsecSince (env.getUsec (s3.trace ++ [Event.getUsec,
          Event.getUsecSince (env.getUsec s3.trace % 2 ^ 32), Event.dmaStartJob,
          Event.enableIrq]) % 2 ^ 32)] := by
  obtain ⟨t4, -⟩ := Codec.fillBuffer_silent env s3 hflags
  obtain ⟨-, f2, -, f4, -, -⟩ := Codec.fillBuffer_frame env s3
  generalize hs5 : ({ Codec.fillBuffer env s3 with
    trace := (Codec.fillBuffer env s3).trace ++ [Event.dmaStartJob] } : Codec) = s5
  have i5 : s5.index = 0 := by rw [← hs5]; exact f2.trans h0
  have e5 : s5.enabled = s3.enabled := by rw [← hs5]; exact f4
  have t5 : s5.trace = s3.trace ++ [Event.getUsec,
      Event.getUsecSince (env.getUsec s3.trace % 2 ^ 32), Event.dmaStartJob] := by
    rw [← hs5]
    show (Codec.fillBuffer env s3).trace ++ [Event.dmaStartJob] = _
    rw [t4]
    simp
  rw [Codec.fillNextBuffer_of_index_zero env s5 i5]
  obtain ⟨t6, -⟩ := Codec.fillBuffer_silent env
    { s5 with index := 1, trace := s5.trace ++ [Event.enableIrq] }
    (fun c => by show s5.enabled c = false; rw [e5]; exact hflags c)
  rw [t6]
  show s5.trace ++ [Event.enableIrq] ++ [Event.getUsec,
    Event.getUsecSince (env.getUsec (s5.trace ++ [Event.enableIrq]) % 2 ^ 32)] = _
  rw [t5]
  simp

/-- C20. From a state as `reset()` or construction leave it (not running, every
enabled flag clear, both buffers zero) with a source bound to the channel and
both hooks succeeding, `enableChannel(channel)` returns true having made no
`getSample()` call: its calls are `handlePower(true)`, `handleEnable(true)`,
two clock reads, the DMA start, the interrupt enable and two more clock reads.
On return both buffers are still entirely zero, the channel is enabled and
`_index` is 1. The next `fillNextBuffer()`, with sources whose every returned
value, multiplied in binary32 by `(float)INT32_MAX`, is a number that fits
`int32_t`, moves to buffer 0 and stores there, in slot `i` of the channel, the
conversion to `int32_t` of the binary32 product of the value of the `i`-th
`getSample()` call and `(float)INT32_MAX`, the first calls made on the source;
buffer 1 is still entirely zero. -/
theorem Codec.bringUp_pulls_no_samples (env : Env) (channel : Fin nChannels) (s : Codec)
    (source : Nat) (hsrc : s.channels channel = some source) (hidle : s.running = false)
    (hflags : ∀ c : Fin nChannels, s.enabled c = false)
    (hzero : ∀ (b : Fin nBuffers) (i : Fin nSamples) (c : Fin nChannels), s.buffers b i c = 0)
    (hpow : env.handlePower s.trace true = true)
    (hen : env.handleEnable (s.trace ++ [Event.handlePower true]) true = true)
    (env2 : Env) (hfit : ∀ (t : List Event) (src : Nat), sampleFits (env2.getSample t src)) :
    (s.enableChannel env channel).1 = true ∧
    (∃ u0 u1 : Nat, (s.enableChannel env channel).2.trace =
      s.trace ++ [Event.handlePower true, Event.handleEnable true, Event.getUsec,
        Event.getUsecSince u0, Event.dmaStartJob, Event.enableIrq, Event.getUsec,
        Event.getUsecSince u1]) ∧
    (∀ src : Nat,
      Event.getSample src ∉ (s.enableChannel env channel).2.trace.drop s.trace.length) ∧
    (∀ (b : Fin nBuffers) (i : Fin nSamples) (c : Fin nChannels),
      (s.enableChannel env channel).2.buffers b i c = 0) ∧
    (s.enableChannel env channel).2.enabled channel = true ∧
    (s.enableChannel env channel).2.index = 1 ∧
    ((s.enableChannel env channel).2.fillNextBuffer env2).index = 0 ∧
    (∀ i : Fin nSamples,
      (F32.mul (env2.getSample
          ((s.enableChannel env channel).2.trace ++ [Event.enableIrq, Event.getUsec] ++
            List.replicate i.val (Event.getSample source)) source) floatInt32Max).toInt32 =
        some (((s.enableChannel env channel).2.fillNextBuffer env2).buffers 0 i channel)) ∧
    (∀ (i : Fin nSamples) (c : Fin nChannels),
      ((s.enableChannel env channel).2.fillNextBuffer env2).buffers 1 i c = 0) := by
  have hE := Codec.enableChannel_bringUp env channel s source hsrc hidle hpow hen
  obtain ⟨b1, b2, b3, b4⟩ := Codec.bringUp_fills env
    { s with
      trace := s.trace ++ [Event.handlePower true, Event.handleEnable true]
      index := 0 } rfl
  have btr := Codec.bringUp_silent env
    { s with
      trace := s.trace ++ [Event.handlePower true, Event.handleEnable true]
      index := 0 } rfl hflags
  generalize hs6 : Codec.fillNextBuffer env
    { Codec.fillBuffer env
        { s with
          trace := s.trace ++ [Event.handlePower true, Event.handleEnable true]
          index := 0 } with
      trace := (Codec.fillBuffer env
        { s with
          trace := s.trace ++ [Event.handlePower true, Event.handleEnable true]
          index := 0 }).trace ++ [Event.dmaStartJob] } = s6 at hE b1 b2 b3 b4 btr
  generalize ht : (s.enableChannel env channel).2 = t
  have ht2 : t = { s6 with running := true, enabled := Function.update s6.enabled channel true } := by
    rw [← ht, hE]
  have tidx : t.index = 1 := by rw [ht2]; exact b1
  have ten : t.enabled = Function.update s.enabled channel true := by
    rw [ht2]
    show Function.update s6.enabled channel true = _
    rw [b2]
  have tch : t.channels = s.channels := by rw [ht2]; exact b3
  have tbuf : ∀ (b : Fin nBuffers) (i : Fin nSamples) (c : Fin nChannels),
      t.buffers b i c = 0 := by
    intro b i c
    rw [ht2]
    show s6.buffers b i c = 0
    rw [b4 c (hflags c) b i]
    exact hzero b i c
  have ttr : t.trace = s.trace ++ [Event.handlePower true, Event.handleEnable true,
      Event.getUsec,
      Event.getUsecSince (env.getUsec (s.trace ++ [Event.handlePower true,
        Event.handleEnable true]) % 2 ^ 32),
      Event.dmaStartJob, Event.enableIrq, Event.getUsec,
      Event.getUsecSince (env.getUsec ((s.trace ++ [Event.handlePower true,
        Event.handleEnable true]) ++ [Event.getUsec,
          Event.getUsecSince (env.getUsec (s.trace ++ [Event.handlePower true,
            Event.handleEnable true]) % 2 ^ 32), Event.dmaStartJob,
          Event.enableIrq]) % 2 ^ 32)] := by
    rw [ht2]
    show s6.trace = _
    rw [btr]
    simp
  have hother : ∀ c : Fin nChannels, c ≠ channel → t.enabled c = false := by
    intro c hc
    rw [ten, Function.update_noteq hc]
    exact hflags c
  refine ⟨by rw [hE], ⟨_, _, ttr⟩, ?_, tbuf, ?_, tidx, ?_, ?_, ?_⟩
  · intro src
    rw [ttr, List.drop_left]
    simp
  · rw [ten]; simp
  · rw [Codec.fillNextBuffer_of_index_one env2 t tidx]
    rw [(Codec.fillBuffer_frame env2 _).2.1]
  · rw [Codec.fillNextBuffer_of_index_one env2 t tidx]
    intro i
    have hv := Codec.fillBuffer_value env2
      { t with index := 0, trace := t.trace ++ [Event.enableIrq] } Nat.zero_lt_two channel
      source (by show t.channels channel = _; rw [tch]; exact hsrc)
      (by show t.enabled channel = true; rw [ten]; simp) i
    have hpb : Codec.pullsBefore
        { t with index := 0, trace := t.trace ++ [Event.enableIrq] } channel = [] := by
      rcases fin_two_cases channel with rfl | rfl
      · exact Codec.pullsBefore_zero _
      · rw [Codec.pullsBefore_one]
        exact Codec.pulls_inactive _ 0 (Or.inr (hother 0 (by decide)))
    rw [hpb] at hv
    rw [show (0 : Fin nBuffers) = ⟨0, Nat.zero_lt_two⟩ from rfl]
    rw [hv]
    have hf := scaleSample_of_fits env2 _ (hfit
      (t.trace ++ [Event.enableIrq] ++ [Event.getUsec] ++ [] ++
        List.replicate i.val (Event.getSample source)) source)
    simpa using hf
  · rw [Codec.fillNextBuffer_of_index_one env2 t tidx]
    intro i c
    rw [Codec.fillBuffer_untouched env2 _ 1 i c (Or.inl (by show (1 : Nat) ≠ 0; decide))]
    exact tbuf 1 i c

/-- C20, at concrete inputs: the first enable of channel 0 on a freshly
constructed codec, and on a codec that was running and has been reset; the
source returns the constant 0.5. -/
theorem Codec.bringUp_pulls_no_samples_witness :
    (boundState.channels 0 = some 1 ∧ boundState.running = false ∧
      (boundState.enableChannel halfEnv 0).1 = true ∧
      (∀ (b : Fin nBuffers) (i : Fin nSamples) (c : Fin nChannels),
        (boundState.enableChannel halfEnv 0).2.buffers b i c = 0) ∧
      (∀ i : Fin nSamples,
        ((boundState.enableChannel halfEnv 0).2.fillNextBuffer halfEnv).buffers 0 i 0 =
          1073741824) ∧
      (∀ i : Fin nSamples,
        ((boundState.enableChannel halfEnv 0).2.fillNextBuffer halfEnv).buffers 1 i 0 = 0)) ∧
    ((runningState.reset halfEnv).channels 0 = some 1 ∧
      (runningState.reset halfEnv).running = false ∧
      ((runningState.reset halfEnv).enableChannel halfEnv 0).1 = true ∧
      (∀ src : Nat, Event.getSample src ∉
        ((runningState.reset halfEnv).enableChannel halfEnv 0).2.trace.drop
          (runningState.reset halfEnv).trace.length)) := by
  have h := Codec.bringUp_pulls_no_samples halfEnv 0 boundState 1 rfl rfl (fun _ => rfl)
    (fun _ _ _ => rfl) rfl rfl halfEnv (fun _ _ => sampleFits_half)
  have hreset : runningState.reset halfEnv =
      { running := false
        frequency := halfEnv.adjustFrequency (halfEnv.getSamplerate
          (runningState.trace ++ resetCalls)) (F32.fin 0)
        buffers := fun _ _ _ => 0
        index := 0
        channels := runningState.channels
        enabled := fun _ => false
        runUsec := runningState.runUsec
        trace := runningState.trace ++ resetCalls } := Codec.reset_eq halfEnv runningState
  have h2 := Codec.bringUp_pulls_no_samples halfEnv 0 (runningState.reset halfEnv) 1
    (by rw [hreset]; rfl) (by rw [hreset]) (fun _ => by rw [hreset])
    (fun _ _ _ => by rw [hreset]) rfl rfl halfEnv (fun _ _ => sampleFits_half)
  refine ⟨⟨rfl, rfl, h.1, h.2.2.2.1, fun i => ?_, fun i => h.2.2.2.2.2.2.2.2 i 0⟩,
    ⟨by rw [hreset]; rfl, by rw [hreset], h2.1, h2.2.2.1⟩⟩
  have hv := h.2.2.2.2.2.2.2.1 i
  have e : (F32.mul (F32.fin (1 / 2)) floatInt32Max).toInt32 = some 1073741824 := convert_half
  exact (Option.some.inj (hv.symm.trans e))

end V2Audio
